import Mathlib

/-!
# Soft heap (sddale/soft-heap): embedding of `src/soft_heap.hpp` and `src/tree.hpp`

The forest level (`SoftHeap`, `Tree`) is translated from the source files.  The
node level (`node.hpp`) is not among the source files and is modelled from the
specification; every such definition says so in its doc comment.

Conventions of the embedding
* `Element` is `int`, the instantiation used by the tests and by the selection driver.
* A `std::unique_ptr<Node>` is a `NodePtr`: either `null` or an owned node.
* A `std::list<Tree>::iterator` is the address of the list node it designates.  Every
  `Tree` carries the address `addr` of its list node, and `min_ckey` holds an address.
  Erasing, prepending and merging leave the addresses of the surviving list nodes alone,
  as `std::list` does.
* A call either returns (`Except.ok`) or fails to return (`Except.error`): by undefined
  behaviour (`front`/`back` of an empty container, dereferencing a null pointer or a
  dangling iterator) or by running for ever.
-/

namespace soft_heap

/-- The element type: `int`. -/
abbrev Element := Int

/-- The ways in which a call does not return a value.  `EmptyHeapError` and
`InvalidParameterError` are the error kinds named by the specification (section 7);
`undefined_behaviour` is what C++ leaves undefined; `no_return` is a loop that does
not stop. -/
inductive Failure where
  | EmptyHeapError : Failure
  | InvalidParameterError : Failure
  | undefined_behaviour : Failure
  | no_return : Failure
  deriving DecidableEq

/-- Modelled from the spec: `Node` and `std::unique_ptr<Node>` (`node.hpp` is missing).
A pointer is `null` or owns a node with the fields of section 3: buffer `elements`,
corrupted key `ckey` with its presence flag, `rank`, target size `size`, and the two owned
children. -/
inductive NodePtr where
  | null : NodePtr
  | node (elements : List Element) (ckey : Element) (ckey_present : Bool)
      (rank size : Nat) (left right : NodePtr) : NodePtr
  deriving DecidableEq

/-- Modelled from the spec: `ceil(log2 n)` of section 4.1, the least `k` with
`n ≤ 2 ^ k`. -/
def ceil_log2 (n : Nat) : Nat :=
  ((List.range (n + 1)).find? (fun k => decide (n ≤ 2 ^ k))).getD 0

/-- Modelled from the spec: the reliable rank threshold `ceil(log2(1/epsilon)) + 5`
of section 4.1, with `1/epsilon = inverse_epsilon`. -/
def reliable_rank (inverse_epsilon : Nat) : Nat := ceil_log2 inverse_epsilon + 5

/-- Modelled from the spec: `target_size(rank)` of section 4.1 (`node.hpp` is missing):
`1` up to the reliable rank, then `ceil(3 * target_size(rank - 1) / 2)`. -/
def target_size (inverse_epsilon : Nat) : Nat → Nat
  | 0 => 1
  | k + 1 =>
    if k + 1 ≤ reliable_rank inverse_epsilon then 1
    else (3 * target_size inverse_epsilon k + 1) / 2

namespace NodePtr

/-- Modelled from the spec: `Node(Element)` (`node.hpp` is missing), the singleton leaf
of section 3: rank 0, buffer holding the one element, `ckey` that element. -/
def leaf (e : Element) : NodePtr := node [e] e true 0 1 null null

/-- Number of nodes of a subtree; it bounds the work of `Sift`. -/
def count : NodePtr → Nat
  | null => 0
  | node _ _ _ _ _ l r => 1 + l.count + r.count

/-- Modelled from the spec: the child chosen by `Sift` (section 4.6): the child with the
smaller `ckey`, an absent child being skipped in favour of the other; the right child is
taken when the left one is absent or compares greater, as in `FlatTree::Sift`. -/
def pick_right : NodePtr → NodePtr → Bool
  | null, _ => true
  | node _ _ _ _ _ _ _, null => false
  | node _ lck _ _ _ _ _, node _ rck _ _ _ _ _ => decide (rck < lck)

/-- Modelled from the spec: `Node::Sift` (`node.hpp` is missing), section 4.6.  While the
buffer is shorter than the target size and the node is not a leaf: append the buffer of
the chosen child, take over its `ckey`, and either drop the child (when it is a leaf) or
clear its buffer and sift it.  The first argument bounds the number of nested loop
iterations; `count + 1` is enough (`Sift_spec`). -/
def Sift : Nat → NodePtr → Except Failure NodePtr
  | 0, _ => .error .no_return
  | _ + 1, null => .error .undefined_behaviour
  | fuel + 1, node es ck cp rk sz l r =>
    if es.length < sz ∧ ¬ (l = null ∧ r = null) then
      match (if pick_right l r then r else l) with
      | null => .error .undefined_behaviour
      | node ces cck ccp crk csz cl cr => do
        let c ← if cl = null ∧ cr = null then pure null
                 else Sift fuel (node [] cck ccp crk csz cl cr)
        Sift fuel (if pick_right l r then node (es ++ ces) cck cp rk sz l c
                   else node (es ++ ces) cck cp rk sz c r)
    else pure (node es ck cp rk sz l r)

/-- Modelled from the spec: `Node::SiftC` (`node.hpp` is missing), section 4.7: `Sift`
that also appends to the report every element that migrates into the node whose `ckey`
is overwritten. -/
def SiftC : Nat → NodePtr → List Element → Except Failure (NodePtr × List Element)
  | 0, _, _ => .error .no_return
  | _ + 1, null, _ => .error .undefined_behaviour
  | fuel + 1, node es ck cp rk sz l r, rep =>
    if es.length < sz ∧ ¬ (l = null ∧ r = null) then
      match (if pick_right l r then r else l) with
      | null => .error .undefined_behaviour
      | node ces cck ccp crk csz cl cr => do
        let (c, rep1) ← if cl = null ∧ cr = null then pure (null, rep ++ ces)
                 else SiftC fuel (node [] cck ccp crk csz cl cr) (rep ++ ces)
        SiftC fuel (if pick_right l r then node (es ++ ces) cck cp rk sz l c
                    else node (es ++ ces) cck cp rk sz c r) rep1
    else pure (node es ck cp rk sz l r, rep)

/-- Modelled from the spec: `Node(NodePtr&&, NodePtr&&)` (`node.hpp` is missing), the
fusion of section 4.2: a fresh node of rank one above the first child, the two inputs as
`left` and `right`, empty buffer, and the buffer filled by the immediate sift (the forest
code calls no sift between `MakeNodePtr` and the next use of the root). -/
def fuse (inverse_epsilon : Nat) (x y : NodePtr) : Except Failure NodePtr :=
  match x with
  | null => .error .undefined_behaviour
  | node _ _ _ xrk _ _ _ =>
    let z := node [] 0 true (xrk + 1) (target_size inverse_epsilon (xrk + 1)) x y
    Sift (z.count + 1) z

/-- All elements held in the buffers of a subtree. -/
def elems : NodePtr → List Element
  | null => []
  | node es _ _ _ _ l r => es ++ (l.elems ++ r.elems)

end NodePtr

/-- A `Tree` of `tree.hpp` as a node of the `std::list<Tree>`: the address of the list
node, the owned `root`, and the iterator `min_ckey`. -/
structure Tree where
  addr : Nat
  root : NodePtr
  min_ckey : Nat
  deriving DecidableEq

/-- `Tree::rank`: `root->rank`. -/
def Tree.rank (t : Tree) : Except Failure Nat :=
  match t.root with
  | .null => .error .undefined_behaviour
  | .node _ _ _ rk _ _ _ => pure rk

/-- The value `root->ckey` of a tree. -/
def Tree.ckey (t : Tree) : Except Failure Element :=
  match t.root with
  | .null => .error .undefined_behaviour
  | .node _ ck _ _ _ _ _ => pure ck

/-- The `SoftHeap` of `soft_heap.hpp`: the list `trees` and the counter `c_size`
(the `double epsilon` plays no part in any operation). -/
structure SoftHeap where
  trees : List Tree
  c_size : Nat
  deriving DecidableEq

/-- Dereferencing a list iterator: the list node with that address. -/
def deref (trees : List Tree) (a : Nat) : Except Failure Tree :=
  match trees.find? (fun t => decide (t.addr = a)) with
  | none => .error .undefined_behaviour
  | some t => pure t

/-- The address given to a new list node: one that the forest does not mention. -/
def fresh_addr (trees : List Tree) : Nat :=
  trees.foldr (fun t m => max (max t.addr t.min_ckey) m) 0 + 1

/-- `SoftHeap::MakeNodePtr(x, y)`: `make_unique<Node>(x, y)`. -/
def MakeNodePtr (inverse_epsilon : Nat) (x y : NodePtr) : Except Failure NodePtr :=
  NodePtr.fuse inverse_epsilon x y

/-- One pass of the body of the loop of `UpdateSuffixMin` at position `i`. -/
def UpdateSuffixMin_at (trees : List Tree) (i : Nat) : Except Failure (List Tree) :=
  match trees[i]? with
  | none => .error .undefined_behaviour
  | some t =>
    match trees[i + 1]? with
    | none => pure (trees.set i { t with min_ckey := t.addr })
    | some nx => do
      let m ← deref trees nx.min_ckey
      let mk ← m.ckey
      let tk ← t.ckey
      pure (trees.set i { t with min_ckey := if mk ≥ tk then t.addr else nx.min_ckey })

/-- `SoftHeap::UpdateSuffixMin(it)`, `it` at position `i`: the positions `i`, `i - 1`,
..., `0` are recomputed in that order. -/
def UpdateSuffixMin (trees : List Tree) : Nat → Except Failure (List Tree)
  | 0 => UpdateSuffixMin_at trees 0
  | i + 1 => do
    let ts ← UpdateSuffixMin_at trees (i + 1)
    UpdateSuffixMin ts i

/-- The `for` loop shared by `Insert` (with `k = 0`) and `Meld` (with `k = p_rank`):
at position `i`, fuse the tree with its right neighbour when both have the same rank and
stay (`advance(tree, -1)` is undone by the loop increment; at the front the decrement
steps onto the list's sentinel node and the increment comes back); otherwise stop there
when the rank exceeds `k`; otherwise move right.  The result is the forest and the
position where the loop stopped by `return`, or `none` when it ran off the end.  The
first argument bounds the number of iterations; twice the length plus one is enough
(`carry_loop_spec`). -/
def carry_loop (inverse_epsilon k : Nat) :
    Nat → List Tree → Nat → Except Failure (List Tree × Option Nat)
  | 0, _, _ => .error .no_return
  | fuel + 1, trees, i =>
    match trees[i]? with
    | none => pure (trees, none)
    | some t =>
      match trees[i + 1]? with
      | some nx => do
        let rk ← t.rank
        let nrk ← nx.rank
        if rk = nrk then do
          let r ← MakeNodePtr inverse_epsilon t.root nx.root
          carry_loop inverse_epsilon k fuel ((trees.set i { t with root := r }).eraseIdx (i + 1)) i
        else if rk > k then pure (trees, some i)
        else carry_loop inverse_epsilon k fuel trees (i + 1)
      | none => do
        let rk ← t.rank
        if rk > k then pure (trees, some i)
        else carry_loop inverse_epsilon k fuel trees (i + 1)

namespace SoftHeap

/-- `SoftHeap()`: the empty heap (value-initialised, so `c_size` is 0). -/
def empty : SoftHeap := ⟨[], 0⟩

/-- `SoftHeap(Element&&)`: one leaf tree whose `min_ckey` is itself; `c_size` is 1. -/
def singleton (e : Element) : SoftHeap :=
  ⟨[⟨fresh_addr [], NodePtr.leaf e, fresh_addr []⟩], 1⟩

/-- `SoftHeap::size`. -/
def size (h : SoftHeap) : Nat := h.c_size

/-- `SoftHeap::rank`: `trees.back().rank()`. -/
def rank (h : SoftHeap) : Except Failure Nat :=
  match h.trees.getLast? with
  | none => .error .undefined_behaviour
  | some t => t.rank

/-- The counter after `++c_size` on a 64-bit `size_t`. -/
def inc_size (c : Nat) : Nat := (c + 1) % 2 ^ 64

/-- The counter after `--c_size` on a 64-bit `size_t`. -/
def dec_size (c : Nat) : Nat := (c + (2 ^ 64 - 1)) % 2 ^ 64

/-- `SoftHeap::Insert`.  With a rank-0 head the new leaf is fused into it and the carry
loop runs from the front; otherwise the new leaf is put in front with `min_ckey`
itself. -/
def Insert (inverse_epsilon : Nat) (h : SoftHeap) (e : Element) : Except Failure SoftHeap :=
  match h.trees with
  | [] => pure ⟨[⟨fresh_addr [], NodePtr.leaf e, fresh_addr []⟩], inc_size h.c_size⟩
  | first :: rest => do
    let rk ← first.rank
    if rk = 0 then do
      let r ← MakeNodePtr inverse_epsilon first.root (NodePtr.leaf e)
      let ts := { first with root := r } :: rest
      let (ts1, stop) ← carry_loop inverse_epsilon 0 (2 * ts.length + 1) ts 0
      match stop with
      | some i => do
        let ts2 ← UpdateSuffixMin ts1 i
        pure ⟨ts2, inc_size h.c_size⟩
      | none => pure ⟨ts1, inc_size h.c_size⟩
    else
      pure ⟨⟨fresh_addr h.trees, NodePtr.leaf e, fresh_addr h.trees⟩ :: h.trees, inc_size h.c_size⟩

/-- `SoftHeap(first, last)`: the heap of the first element, then `Insert` of the others
in order. -/
def of_range (inverse_epsilon : Nat) : List Element → Except Failure SoftHeap
  | [] => .error .undefined_behaviour
  | e :: es => es.foldlM (Insert inverse_epsilon) (singleton e)

end SoftHeap

/-- `std::list::merge` on the rank order of `Tree::operator<=>`, as the library
implements it: the front of the argument list goes first only when it is strictly
smaller than the front of the receiver's list (the standard asks for two sorted lists).
The first argument bounds the number of steps; the sum of the lengths is enough
(`list_merge_spec`). -/
def list_merge : Nat → List Tree → List Tree → Except Failure (List Tree)
  | _, [], l2 => pure l2
  | _, l1, [] => pure l1
  | 0, _ :: _, _ :: _ => .error .no_return
  | fuel + 1, a :: l1, b :: l2 => do
    let rb ← b.rank
    let ra ← a.rank
    if rb < ra then do
      let m ← list_merge fuel (a :: l1) l2
      pure (b :: m)
    else do
      let m ← list_merge fuel l1 (b :: l2)
      pure (a :: m)

namespace SoftHeap

/-- The body of `Meld` after the optional swap, `trees` being the receiver's list and
`ps` the argument's: `p_rank`, the merge, the carry loop, and the final
`UpdateSuffixMin`. -/
def meld_into (inverse_epsilon : Nat) (trees ps : List Tree) : Except Failure (List Tree) := do
  let p_rank ← rank ⟨ps, 0⟩
  let merged ← list_merge (trees.length + ps.length) trees ps
  let (ts1, stop) ← carry_loop inverse_epsilon p_rank (2 * merged.length + 1) merged 0
  match stop with
  | some i => UpdateSuffixMin ts1 i
  | none =>
    match ts1.length with
    | 0 => .error .undefined_behaviour
    | n + 1 => UpdateSuffixMin ts1 n

/-- The condition `std::ssize(trees) != 0 && P.rank() > rank()` of `Meld`. -/
def meld_swap (h P : SoftHeap) : Except Failure Bool :=
  if h.trees.length ≠ 0 then do
    let pr ← P.rank
    let r ← h.rank
    pure (decide (pr > r))
  else pure false

/-- `SoftHeap::Meld(P)`; the result is the receiver and the argument after the call.
The two lists are swapped when the receiver is not empty and the argument has the larger
rank; the argument's list is left empty by `merge`.  Neither counter is written. -/
def Meld (inverse_epsilon : Nat) (h P : SoftHeap) : Except Failure (SoftHeap × SoftHeap) := do
  let swapped ← meld_swap h P
  let ts ← meld_into inverse_epsilon (if swapped then P.trees else h.trees)
    (if swapped then h.trees else P.trees)
  pure (⟨ts, h.c_size⟩, ⟨[], P.c_size⟩)

/-- The forest after the rebalancing step of `ExtractMin`, the chosen tree `t` sitting at
position `k` with root `node es ck cp rk sz l r` after the pop.  `Node::IsLeaf`
(`node.hpp` is missing) is taken from section 3 of the spec: both children absent. -/
def rebalance (trees : List Tree) (k : Nat) (t : Tree) (es : List Element) (ck : Element)
    (cp : Bool) (rk sz : Nat) (l r : NodePtr) : Except Failure (List Tree) :=
  let x := NodePtr.node es ck cp rk sz l r
  if 2 * es.length < sz then
    if ¬ (l = .null ∧ r = .null) then do
      let x1 ← NodePtr.Sift (x.count + 1) x
      UpdateSuffixMin (trees.set k { t with root := x1 }) k
    else if es = [] then
      if k ≠ 0 then UpdateSuffixMin (trees.eraseIdx k) (k - 1)
      else pure (trees.eraseIdx k)
    else pure (trees.set k { t with root := x })
  else pure (trees.set k { t with root := x })

/-- `SoftHeap::ExtractMin`: the returned element and the heap after the call.
`Node::back` and `Node::pop_back` (`node.hpp` is missing) are taken from section 4.5 of
the spec: the last element of the buffer and its removal. -/
def ExtractMin (h : SoftHeap) : Except Failure (Element × SoftHeap) :=
  match h.trees with
  | [] => .error .undefined_behaviour
  | front :: _ =>
    match h.trees.findIdx? (fun t => decide (t.addr = front.min_ckey)) with
    | none => .error .undefined_behaviour
    | some k =>
      match h.trees[k]? with
      | none => .error .undefined_behaviour
      | some t =>
        match t.root with
        | .null => .error .undefined_behaviour
        | .node es ck cp rk sz l r =>
          match es.getLast? with
          | none => .error .undefined_behaviour
          | some first_elem => do
            let ts ← rebalance h.trees k t es.dropLast ck cp rk sz l r
            pure (first_elem, ⟨ts, dec_size h.c_size⟩)

/-- The rebalancing step of `ExtractMinC`: as `rebalance`, with `SiftC` and the report
list. -/
def rebalanceC (trees : List Tree) (k : Nat) (t : Tree) (es : List Element) (ck : Element)
    (cp : Bool) (rk sz : Nat) (l r : NodePtr) (rep : List Element) :
    Except Failure (List Tree × List Element) :=
  let x := NodePtr.node es ck cp rk sz l r
  if 2 * es.length < sz then
    if ¬ (l = .null ∧ r = .null) then do
      let (x1, rep1) ← NodePtr.SiftC (x.count + 1) x rep
      let ts ← UpdateSuffixMin (trees.set k { t with root := x1 }) k
      pure (ts, rep1)
    else if es = [] then
      if k ≠ 0 then do
        let ts ← UpdateSuffixMin (trees.eraseIdx k) (k - 1)
        pure (ts, rep)
      else pure (trees.eraseIdx k, rep)
    else pure (trees.set k { t with root := x }, rep)
  else pure (trees.set k { t with root := x }, rep)

/-- `SoftHeap::ExtractMinC`: the returned pair and the heap after the call.  The counter
`c_size` is not written. -/
def ExtractMinC (h : SoftHeap) : Except Failure ((Element × List Element) × SoftHeap) :=
  match h.trees with
  | [] => .error .undefined_behaviour
  | front :: _ =>
    match h.trees.findIdx? (fun t => decide (t.addr = front.min_ckey)) with
    | none => .error .undefined_behaviour
    | some k =>
      match h.trees[k]? with
      | none => .error .undefined_behaviour
      | some t =>
        match t.root with
        | .null => .error .undefined_behaviour
        | .node es ck cp rk sz l r =>
          match es.getLast? with
          | none => .error .undefined_behaviour
          | some first_elem => do
            let hit := decide (first_elem = ck)
            let (ts, rep) ← rebalanceC h.trees k t es.dropLast ck (if hit then false else cp)
              rk sz l r (if hit then [first_elem] else [])
            pure ((first_elem, rep), ⟨ts, h.c_size⟩)

end SoftHeap

/-- `n` successive calls of `ExtractMin`: the returned elements in call order and the
heap after the last call. -/
def drain : Nat → SoftHeap → Except Failure (List Element × SoftHeap)
  | 0, h => pure ([], h)
  | n + 1, h => do
    let (e, h1) ← SoftHeap.ExtractMin h
    let (es, h2) ← drain n h1
    pure (e :: es, h2)

/-- A call of `Insert` or of `ExtractMin`. -/
inductive Op where
  | Insert (e : Element) : Op
  | ExtractMin : Op
  deriving DecidableEq

/-- A sequence of calls made one after the other on a heap. -/
def run_ops (inverse_epsilon : Nat) : SoftHeap → List Op → Except Failure SoftHeap
  | h, [] => pure h
  | h, Op.Insert e :: ops => do
    let h1 ← SoftHeap.Insert inverse_epsilon h e
    run_ops inverse_epsilon h1 ops
  | h, Op.ExtractMin :: ops => do
    let (_, h1) ← SoftHeap.ExtractMin h
    run_ops inverse_epsilon h1 ops

/-- Number of `Insert` calls of a sequence. -/
def inserts : List Op → Nat
  | [] => 0
  | Op.Insert _ :: ops => inserts ops + 1
  | Op.ExtractMin :: ops => inserts ops

/-- Number of `ExtractMin` calls of a sequence. -/
def extracts : List Op → Nat
  | [] => 0
  | Op.Insert _ :: ops => extracts ops
  | Op.ExtractMin :: ops => extracts ops + 1

/-- Every `ExtractMin` of the sequence is made on a heap that holds an element, the heap
holding `n` elements at the start. -/
def Feasible : Nat → List Op → Prop
  | _, [] => True
  | n, Op.Insert _ :: ops => Feasible (n + 1) ops
  | n, Op.ExtractMin :: ops => 0 < n ∧ Feasible (n - 1) ops

/-- The same heap with its list nodes at addresses `d` higher: two heaps that are alive
together occupy different addresses. -/
def relocate (d : Nat) (h : SoftHeap) : SoftHeap :=
  ⟨h.trees.map (fun t => ⟨t.addr + d, t.root, t.min_ckey + d⟩), h.c_size⟩

/-! ## Well-formedness and observations -/

namespace NodePtr

/-- The rank stored in a node (0 for `null`). -/
def rk : NodePtr → Nat
  | null => 0
  | node _ _ _ r _ _ _ => r

/-- The target size stored in a node (0 for `null`). -/
def sz : NodePtr → Nat
  | null => 0
  | node _ _ _ _ s _ _ => s

/-- The corrupted key stored in a node (0 for `null`). -/
def ck : NodePtr → Element
  | null => 0
  | node _ c _ _ _ _ _ => c

/-- The buffer of a node (empty for `null`). -/
def buf : NodePtr → List Element
  | null => []
  | node es _ _ _ _ _ _ => es

/-- Neither child is present. -/
def IsLeaf : NodePtr → Prop
  | null => True
  | node _ _ _ _ _ l r => l = null ∧ r = null

/-- Every node of the subtree has a non-empty buffer and a target size of at least 1. -/
def OK : NodePtr → Prop
  | null => True
  | node es _ _ _ s l r => es ≠ [] ∧ 1 ≤ s ∧ l.OK ∧ r.OK

/-- A node about to be sifted: present, target size at least 1, well-formed children;
its own buffer may be empty. -/
def PreOK : NodePtr → Prop
  | null => False
  | node _ _ _ _ s l r => 1 ≤ s ∧ l.OK ∧ r.OK

/-- A root as the forest holds it: present and well-formed. -/
def RootOK (x : NodePtr) : Prop := x ≠ null ∧ x.OK

/-- What `Sift` guarantees of its result `y` on the input `x`: same rank and target size,
the same elements, no more nodes, a non-empty buffer unless `x` was an empty leaf, and
fewer nodes when the loop ran. -/
def SiftPost (x y : NodePtr) : Prop :=
  y.PreOK ∧ y.rk = x.rk ∧ y.sz = x.sz ∧ y.elems.Perm x.elems ∧ y.count ≤ x.count ∧
  (x.buf ≠ [] → y.buf ≠ []) ∧ (¬ x.IsLeaf → y.buf ≠ []) ∧
  (x.buf.length < x.sz → ¬ x.IsLeaf → y.count < x.count)

end NodePtr

/-- All elements held by the trees of a forest, tree by tree. -/
def forest_elems : List Tree → List Element
  | [] => []
  | t :: ts => t.root.elems ++ forest_elems ts

/-- Every root of the forest is present and well-formed. -/
def RootsOK (trees : List Tree) : Prop := ∀ t ∈ trees, t.root.RootOK

/-- Every `min_ckey` designates the tree itself or a tree to its right. -/
def PtrOK : List Tree → Prop
  | [] => True
  | t :: rest => t.min_ckey ∈ (t :: rest).map Tree.addr ∧ PtrOK rest

/-- The heaps the operations build: roots present and well-formed, iterators valid. -/
def WellFormed (h : SoftHeap) : Prop := RootsOK h.trees ∧ PtrOK h.trees

/-- The counter agrees, as a 64-bit `size_t`, with the number of elements held. -/
def SizeOK (h : SoftHeap) : Prop := h.c_size = (forest_elems h.trees).length % 2 ^ 64

/-- The leftmost tree of minimum root `ckey` among `t` and the trees `rest` to its
right. -/
def leftmost_min : Tree → List Tree → Tree
  | t, [] => t
  | t, s :: rest => if (leftmost_min s rest).root.ck < t.root.ck then leftmost_min s rest else t

/-- Suffix-min correctness: every `min_ckey` designates the leftmost tree of minimum root
`ckey` among the tree itself and the trees to its right. -/
def SuffixMinOK : List Tree → Prop
  | [] => True
  | t :: rest => t.min_ckey = (leftmost_min t rest).addr ∧ SuffixMinOK rest

/-- The call does not fail with `EmptyHeapError`. -/
def NoEmptyHeapError {α : Type} (x : Except Failure α) : Prop := x ≠ .error .EmptyHeapError

/-- The ranks of the trees from front to back. -/
def forest_ranks (trees : List Tree) : List Nat := trees.map (fun t => t.root.rk)

/-- The tree ranks are strictly increasing from front to back. -/
def StrictRanks (trees : List Tree) : Prop := (forest_ranks trees).Pairwise (· < ·)

/-! ## The predicates are decidable -/

/-- Deciding `NodePtr.OK`. -/
def NodePtr.decOK : (x : NodePtr) → Decidable x.OK
  | .null => isTrue trivial
  | .node es _ _ _ s l r =>
    letI := NodePtr.decOK l
    letI := NodePtr.decOK r
    inferInstanceAs (Decidable (es ≠ [] ∧ 1 ≤ s ∧ l.OK ∧ r.OK))

instance (x : NodePtr) : Decidable x.OK := NodePtr.decOK x

instance (x : NodePtr) : Decidable x.IsLeaf :=
  match x with
  | .null => isTrue trivial
  | .node _ _ _ _ _ l r => inferInstanceAs (Decidable (l = .null ∧ r = .null))

instance (x : NodePtr) : Decidable x.PreOK :=
  match x with
  | .null => isFalse (fun h => h)
  | .node _ _ _ _ s l r => inferInstanceAs (Decidable (1 ≤ s ∧ l.OK ∧ r.OK))

instance (x : NodePtr) : Decidable x.RootOK :=
  inferInstanceAs (Decidable (x ≠ .null ∧ x.OK))

instance (trees : List Tree) : Decidable (RootsOK trees) :=
  inferInstanceAs (Decidable (∀ t ∈ trees, t.root.RootOK))

/-- Deciding `PtrOK`. -/
def decPtrOK : (l : List Tree) → Decidable (PtrOK l)
  | [] => isTrue trivial
  | t :: rest =>
    letI := decPtrOK rest
    inferInstanceAs (Decidable (t.min_ckey ∈ (t :: rest).map Tree.addr ∧ PtrOK rest))

instance (l : List Tree) : Decidable (PtrOK l) := decPtrOK l

instance (h : SoftHeap) : Decidable (WellFormed h) :=
  inferInstanceAs (Decidable (RootsOK h.trees ∧ PtrOK h.trees))

instance (h : SoftHeap) : Decidable (SizeOK h) :=
  inferInstanceAs (Decidable (h.c_size = (forest_elems h.trees).length % 2 ^ 64))

/-- Deciding `SuffixMinOK`. -/
def decSuffixMinOK : (l : List Tree) → Decidable (SuffixMinOK l)
  | [] => isTrue trivial
  | t :: rest =>
    letI := decSuffixMinOK rest
    inferInstanceAs (Decidable (t.min_ckey = (leftmost_min t rest).addr ∧ SuffixMinOK rest))

instance (l : List Tree) : Decidable (SuffixMinOK l) := decSuffixMinOK l

instance (trees : List Tree) : Decidable (StrictRanks trees) :=
  inferInstanceAs (Decidable ((forest_ranks trees).Pairwise (· < ·)))

/-- Deciding `Feasible`. -/
def decFeasible : (n : Nat) → (ops : List Op) → Decidable (Feasible n ops)
  | _, [] => isTrue trivial
  | n, Op.Insert _ :: ops => decFeasible (n + 1) ops
  | n, Op.ExtractMin :: ops =>
    letI := decFeasible (n - 1) ops
    inferInstanceAs (Decidable (0 < n ∧ Feasible (n - 1) ops))

instance (n : Nat) (ops : List Op) : Decidable (Feasible n ops) := decFeasible n ops

/-- The heap built with `inverse_epsilon = 8` from 5, 3, 8, 1, 9, 2
(`scenario_heap_built`): a tree of rank 1 and a tree of rank 2. -/
def scenario_heap : SoftHeap :=
  ⟨[⟨3, .node [2] 2 true 1 1 (.node [9] 9 true 0 1 .null .null) .null, 2⟩,
    ⟨2, .node [1] 1 true 2 1 (.node [8] 8 true 1 1 .null .null)
      (.node [3] 3 true 1 1 (.node [5] 5 true 0 1 .null .null) .null), 2⟩], 6⟩

/-- The presence flag of the corrupted key stored in a node (`false` for `null`). -/
def NodePtr.flag : NodePtr → Bool
  | .null => false
  | .node _ _ cp _ _ _ _ => cp

/-- `SoftHeap::Combine(tree1, tree2)`, `tree1` at position `i` and `tree2` at position
`j` of the list: `tree1->root = MakeNodePtr(tree1->root, tree2->root)`, then
`trees.erase(tree2)`. -/
def SoftHeap.Combine (inverse_epsilon : Nat) (trees : List Tree) (i j : Nat) :
    Except Failure (List Tree) :=
  match trees[i]? with
  | none => .error .undefined_behaviour
  | some t1 =>
    match trees[j]? with
    | none => .error .undefined_behaviour
    | some t2 => do
      let r ← MakeNodePtr inverse_epsilon t1.root t2.root
      pure ((trees.set i { t1 with root := r }).eraseIdx j)

/-- The left child of a node (`null` for `null`). -/
def NodePtr.left_child : NodePtr → NodePtr
  | .null => .null
  | .node _ _ _ _ _ l _ => l

/-- The right child of a node (`null` for `null`). -/
def NodePtr.right_child : NodePtr → NodePtr
  | .null => .null
  | .node _ _ _ _ _ _ r => r

/-- `n` successive calls of `ExtractMinC`: the returned pairs in call order and the heap
after the last call. -/
def drainC : Nat → SoftHeap → Except Failure (List (Element × List Element) × SoftHeap)
  | 0, h => pure ([], h)
  | n + 1, h => do
    let (p, h1) ← SoftHeap.ExtractMinC h
    let (ps, h2) ← drainC n h1
    pure (p :: ps, h2)

/-- The total number of corrupted elements reported by a sequence of `ExtractMinC` calls:
the sum of the lengths of the returned lists. -/
def total_corrupted (out : List (Element × List Element)) : Nat :=
  (out.map (fun p => p.2.length)).sum

/-- The key `b` is at most the `ckey` of the node pointed to, if there is one. -/
def NodePtr.LowerBound : NodePtr → Element → Prop
  | .null, _ => True
  | .node _ c _ _ _ _ _, b => b ≤ c

/-- Heap order on the corrupted keys: in every node of the subtree the buffer elements are
at most the `ckey`, and the `ckey` is at most the `ckey` of each child. -/
def NodePtr.KeyOrdered : NodePtr → Prop
  | .null => True
  | .node es c _ _ _ l r =>
    (∀ e ∈ es, e ≤ c) ∧ l.LowerBound c ∧ r.LowerBound c ∧ l.KeyOrdered ∧ r.KeyOrdered

/-- Every root of the forest is heap ordered on the corrupted keys. -/
def RootsOrdered (trees : List Tree) : Prop := ∀ t ∈ trees, t.root.KeyOrdered

/-- The lists of roots the carry loop can produce from a list of roots: any number of
fusions of two neighbouring roots of equal rank. -/
inductive Carry (inverse_epsilon : Nat) : List NodePtr → List NodePtr → Prop where
  | stay (L : List NodePtr) : Carry inverse_epsilon L L
  | step (pre : List NodePtr) (x y z : NodePtr) (suf L : List NodePtr) :
      x.rk = y.rk → MakeNodePtr inverse_epsilon x y = .ok z →
      Carry inverse_epsilon (pre ++ z :: suf) L →
      Carry inverse_epsilon (pre ++ x :: y :: suf) L

/-- Every node of the subtree has target size 1 and holds exactly its `ckey`. -/
def NodePtr.Unit : NodePtr → Prop
  | .null => True
  | .node es c _ _ s l r => es = [c] ∧ s = 1 ∧ l.Unit ∧ r.Unit

/-- The weight of a forest: a tree of rank `k` weighs `2 ^ k`. -/
def forest_weight : List NodePtr → Nat
  | [] => 0
  | x :: xs => 2 ^ x.rk + forest_weight xs

/-- Modelled from the spec: `FlatNode` (`flat_node.hpp` is missing), with the fields that
`flat_tree.hpp` reads and writes: the buffer `elements`, the corrupted key `ckey` (the
value `-1` marks a removed slot) and the target size `size`, and the `rank` of section 3.
Indices into `node_heap` are natural numbers: the `int` index arithmetic of the source
agrees with them as long as `2 * idx + 3` fits an `int`. -/
structure FlatNode where
  elements : List Element
  ckey : Element
  rank : Int
  size : Int
  deriving DecidableEq

/-- Modelled from the spec: the ordering `operator>` of `FlatNode` (`flat_node.hpp` is
missing), section 4.8: by `ckey`, ties broken by `rank`. -/
def FlatNode.gt (a b : FlatNode) : Bool :=
  decide (b.ckey < a.ckey ∨ (a.ckey = b.ckey ∧ b.rank < a.rank))

namespace FlatTree

/-- The lambda `IsLeaf` of `FlatTree::Sift`: the node at `idx` has no left slot, or its
left slot is removed and its right slot is missing or removed. -/
def IsLeaf (idx : Nat) (node_heap : List FlatNode) : Except Failure Bool :=
  if node_heap.length < 2 * idx + 2 then pure true
  else
    match node_heap[2 * idx + 1]? with
    | none => .error .undefined_behaviour
    | some left =>
      if left.ckey = -1 then
        if node_heap.length < 2 * idx + 3 then pure true
        else
          match node_heap[2 * idx + 2]? with
          | none => .error .undefined_behaviour
          | some right => pure (decide (right.ckey = -1))
      else pure false

/-- The value `min_child_idx` of `RecursiveSift`, `gt` being `operator>` of `FlatNode`:
the right index when the left slot is missing or removed, or when the right slot is there,
is live and the left node is greater than the right node; the left index otherwise. -/
def min_child_idx (gt : FlatNode → FlatNode → Bool) (idx : Nat) (node_heap : List FlatNode) :
    Except Failure Nat :=
  if node_heap.length < 2 * idx + 2 then pure (2 * idx + 2)
  else
    match node_heap[2 * idx + 1]? with
    | none => .error .undefined_behaviour
    | some left =>
      if left.ckey = -1 then pure (2 * idx + 2)
      else if node_heap.length > 2 * idx + 2 then
        match node_heap[2 * idx + 2]? with
        | none => .error .undefined_behaviour
        | some right =>
          if right.ckey ≠ -1 ∧ gt left right = true then pure (2 * idx + 2)
          else pure (2 * idx + 1)
      else pure (2 * idx + 1)

/-- The node at `idx` after one iteration of the loop of `RecursiveSift`: the buffer of
the chosen child `c` is appended and its `ckey` taken over. -/
def pulled (nd c : FlatNode) : FlatNode :=
  { nd with elements := nd.elements ++ c.elements, ckey := c.ckey }

/-- The chosen child `c` when it is a leaf: marked removed.  Its buffer has been moved
away when the buffer of the parent `nd` was empty, and copied otherwise. -/
def removed (nd c : FlatNode) : FlatNode :=
  { c with elements := if nd.elements = [] then [] else c.elements, ckey := -1 }

/-- The chosen child `c` when it is not a leaf: its buffer is cleared. -/
def emptied (c : FlatNode) : FlatNode := { c with elements := [] }

/-- The lambda `RecursiveSift` of `FlatTree::Sift`.  While the buffer is shorter than the
target size and the node is not a leaf: the buffer of the chosen child is appended (moved
when the buffer is empty), its `ckey` taken over, and the child is marked removed when it
is a leaf, or else emptied and sifted.  The first argument bounds the nesting of loop
iterations and recursive calls. -/
def RecursiveSift (gt : FlatNode → FlatNode → Bool) :
    Nat → Nat → List FlatNode → Except Failure (List FlatNode)
  | 0, _, _ => .error .no_return
  | fuel + 1, idx, node_heap =>
    match node_heap[idx]? with
    | none => .error .undefined_behaviour
    | some nd =>
      if (nd.elements.length : Int) < nd.size then
        IsLeaf idx node_heap >>= fun leaf =>
        if leaf then pure node_heap
        else
          min_child_idx gt idx node_heap >>= fun mc =>
          match node_heap[mc]? with
          | none => .error .undefined_behaviour
          | some c =>
            IsLeaf mc (node_heap.set idx (pulled nd c)) >>= fun cleaf =>
            (if cleaf then pure ((node_heap.set idx (pulled nd c)).set mc (removed nd c))
            else RecursiveSift gt fuel mc
              ((node_heap.set idx (pulled nd c)).set mc (emptied c))) >>= fun h2 =>
            RecursiveSift gt fuel idx h2
      else pure node_heap

/-- The loop after `std::make_heap` in `FlatTree::Sift`: while the front slot is removed,
`std::pop_heap` (here `ph`) and `pop_back`.  The first argument bounds the number of
iterations. -/
def trim (ph : List FlatNode → List FlatNode) : Nat → List FlatNode →
    Except Failure (List FlatNode)
  | 0, _ => .error .no_return
  | fuel + 1, node_heap =>
    match node_heap[0]? with
    | none => .error .undefined_behaviour
    | some top =>
      if top.ckey = -1 then trim ph fuel (ph node_heap).dropLast
      else pure node_heap

/-- `FlatTree::Sift`: `RecursiveSift` from the root, `std::make_heap` (here `mh`) on the
whole vector, and the trimming loop.  `gt` is `operator>` of `FlatNode`, which
`std::greater<>` calls. -/
def Sift (gt : FlatNode → FlatNode → Bool) (mh ph : List FlatNode → List FlatNode)
    (fuel : Nat) (node_heap : List FlatNode) : Except Failure (List FlatNode) :=
  RecursiveSift gt fuel 0 node_heap >>= fun h1 => trim ph fuel (mh h1)

end FlatTree

/-- The heap property that `std::make_heap` with `std::greater<>` establishes: no slot is
smaller than its parent slot `(i - 1) / 2`, that is, no parent is greater than its child. -/
def IsMinHeap (gt : FlatNode → FlatNode → Bool) (l : List FlatNode) : Prop :=
  ∀ i nd p, 1 ≤ i → l[i]? = some nd → l[(i - 1) / 2]? = some p → ¬ gt p nd = true

/-- The contract of `std::make_heap(first, last, std::greater<>())`: the elements are
rearranged into a heap. -/
def MakeHeapSpec (gt : FlatNode → FlatNode → Bool) (mh : List FlatNode → List FlatNode) :
    Prop :=
  ∀ l, (mh l).Perm l ∧ IsMinHeap gt (mh l)

/-- The contract of `std::pop_heap(first, last, std::greater<>())` on a non-empty heap:
the front goes to the back and the rest is rearranged into a heap. -/
def PopHeapSpec (gt : FlatNode → FlatNode → Bool) (ph : List FlatNode → List FlatNode) :
    Prop :=
  ∀ a l, IsMinHeap gt (a :: l) → ∃ l1, ph (a :: l) = l1 ++ [a] ∧ l1.Perm l ∧ IsMinHeap gt l1

/-- One `std::make_heap`: the ascending sort under the node ordering. -/
def make_heap_sorted (l : List FlatNode) : List FlatNode :=
  l.insertionSort (fun a b => FlatNode.gt a b = false)

/-- One `std::pop_heap`: the front goes to the back, the rest is sorted. -/
def pop_heap_sorted : List FlatNode → List FlatNode
  | [] => []
  | a :: l => make_heap_sorted l ++ [a]

/-- The number of slots that are not marked removed. -/
def live_count (l : List FlatNode) : Nat := l.countP (fun nd => decide (nd.ckey ≠ -1))

/-- The order of `std::pair<int, int>`: by the first component, then by the second.  The
second component is an index into the input vector, a natural number here: the `int`
index arithmetic of the source agrees with it as long as `2 * index + 2` fits an `int`. -/
def pair_le (a b : Int × Nat) : Bool :=
  decide (a.1 < b.1 ∨ (a.1 = b.1 ∧ a.2 ≤ b.2))

/-- `top()` of the `std::priority_queue` of pairs under `std::greater<>`, the queue holding
the pairs of the list: the least pair, `none` for the empty queue. -/
def pq_top : List (Int × Nat) → Option (Int × Nat)
  | [] => none
  | a :: q =>
    match pq_top q with
    | none => some a
    | some b => if pair_le a b then some a else some b

/-- The guarded `min_heap.emplace(make_pair(input_heap.at(i), i))` of
`standard_heap_selection`. -/
def push_child (input_heap : List Int) (min_heap : List (Int × Nat)) (i : Nat) :
    Except Failure (List (Int × Nat)) :=
  if i < input_heap.length then
    match input_heap[i]? with
    | some v => pure ((v, i) :: min_heap)
    | none => .error .undefined_behaviour
  else pure min_heap

/-- The `while (k_elements.size() < k)` loop of `standard_heap_selection`, the first
argument being `k - k_elements.size()`: read and pop the top (undefined on an empty
queue), append its value, and push the two children of its index that exist. -/
def selection_loop (input_heap : List Int) :
    Nat → List (Int × Nat) → List Int → Except Failure (List Int)
  | 0, _, k_elements => pure k_elements
  | n + 1, min_heap, k_elements =>
    match pq_top min_heap with
    | none => .error .undefined_behaviour
    | some m =>
      push_child input_heap (min_heap.erase m) (m.2 * 2 + 1) >>= fun q1 =>
      push_child input_heap q1 (m.2 * 2 + 2) >>= fun q2 =>
      selection_loop input_heap n q2 (k_elements ++ [m.1])

/-- `selection_algorithm::standard_heap_selection(input_heap, k)`; `input_heap.front()` is
undefined on an empty vector. -/
def standard_heap_selection (input_heap : List Int) (k : Nat) : Except Failure (List Int) :=
  match input_heap with
  | [] => .error .undefined_behaviour
  | front :: _ => selection_loop input_heap k [(front, 0)] []

/-- The slot `j` is `a` or lies below `a` in the implicit binary tree, whose slot `p` has
the children `2 * p + 1` and `2 * p + 2`. -/
inductive Desc : Nat → Nat → Prop where
  | self (a : Nat) : Desc a a
  | child (a p j : Nat) : Desc a p → (j = 2 * p + 1 ∨ j = 2 * p + 2) → Desc a j

/-- The state of the loop of `standard_heap_selection` after the indices `P` have been
popped, the queue holding `q` and the indices `pend` waiting to be pushed: the indices of
the queue and the waiting ones are distinct and not popped, every pair of the queue holds
the value at its index, the popped indices are distinct and valid, every index not yet
popped lies below an index of the queue or a waiting one, and the parent of every index
met so far has been popped. -/
def SelInv (input_heap : List Int) (P : List Nat) (q : List (Int × Nat)) (pend : List Nat) :
    Prop :=
  (q.map Prod.snd ++ pend).Nodup ∧ (∀ p ∈ q, input_heap[p.2]? = some p.1) ∧ P.Nodup ∧
  (∀ i ∈ P, i < input_heap.length) ∧ (∀ c ∈ q.map Prod.snd ++ pend, c ∉ P) ∧
  (∀ j, j < input_heap.length → j ∉ P → ∃ c ∈ q.map Prod.snd ++ pend, Desc c j) ∧
  (∀ c ∈ (q.map Prod.snd ++ pend) ++ P, c ≠ 0 → (c - 1) / 2 ∈ P)

/-! ## The node level: `Sift` returns and keeps the elements -/

namespace NodePtr

theorem OK_of_PreOK {y : NodePtr} (h : y.PreOK) (hb : y.buf ≠ []) : y.OK := by
  cases y with
  | null => trivial
  | node es ck cp rk sz l r => exact ⟨hb, h.1, h.2.1, h.2.2⟩

theorem PreOK_of_OK {y : NodePtr} (h : y.OK) (hn : y ≠ null) : y.PreOK := by
  cases y with
  | null => exact absurd rfl hn
  | node es ck cp rk sz l r => exact ⟨h.2.1, h.2.2.1, h.2.2.2⟩

theorem pick_right_child {l r : NodePtr} (h : ¬ (l = null ∧ r = null)) :
    (if pick_right l r then r else l) ≠ null := by
  cases l <;> cases r <;> simp [pick_right] at h ⊢
  split <;> simp

theorem SiftPost_refl {x : NodePtr} (hx : x.PreOK)
    (h : ¬ (x.buf.length < x.sz ∧ ¬ x.IsLeaf)) : SiftPost x x := by
  refine ⟨hx, rfl, rfl, List.Perm.refl _, le_refl _, fun hb => hb, ?_, ?_⟩
  · intro hl
    cases x with
    | null => exact absurd trivial hl
    | node es ck cp rk sz l r =>
      simp only [buf, NodePtr.sz, IsLeaf] at h hl ⊢
      have h1 : 1 ≤ sz := hx.1
      intro he
      apply h
      subst he
      exact ⟨by simpa using h1, hl⟩
  · intro h1 h2
    exact absurd ⟨h1, h2⟩ h

theorem Sift_succ_node (fuel : Nat) (es : List Element) (ck : Element) (cp : Bool)
    (rk sz : Nat) (l r : NodePtr) (ces : List Element) (cck : Element) (ccp : Bool)
    (crk csz : Nat) (cl cr : NodePtr)
    (hc : es.length < sz ∧ ¬ (l = null ∧ r = null))
    (hch : (if pick_right l r then r else l) = node ces cck ccp crk csz cl cr) :
    Sift (fuel + 1) (node es ck cp rk sz l r) =
      (if cl = null ∧ cr = null then pure null
        else Sift fuel (node [] cck ccp crk csz cl cr)) >>= fun c =>
      Sift fuel (if pick_right l r then node (es ++ ces) cck cp rk sz l c
                 else node (es ++ ces) cck cp rk sz c r) := by
  rw [Sift, if_pos hc]
  simp only [hch]
  split <;> rfl

/-- The node obtained by moving the buffer of the chosen child up and replacing that
child by `c`. -/
theorem replace_child (pr : Bool) (es : List Element) (ck : Element) (cp : Bool)
    (rk sz : Nat) (l r : NodePtr) (ces : List Element) (cck : Element) (c0 c : NodePtr)
    (hsz : 1 ≤ sz) (hl : l.OK) (hr : r.OK) (hc0 : (if pr then r else l) = c0)
    (hc : c.OK) (hel : (ces ++ c.elems).Perm c0.elems) (hcnt : c.count < c0.count)
    (hces : ces ≠ []) :
    ∃ x, (if pr then node (es ++ ces) cck cp rk sz l c
            else node (es ++ ces) cck cp rk sz c r) = x ∧
      x.PreOK ∧ x.rk = rk ∧ x.sz = sz ∧ x.buf ≠ [] ∧
      x.elems.Perm (node es ck cp rk sz l r).elems ∧
      x.count < (node es ck cp rk sz l r).count := by
  cases pr
  · simp only [Bool.false_eq_true, if_false] at hc0 ⊢
    subst hc0
    refine ⟨_, rfl, ⟨hsz, hc, hr⟩, rfl, rfl, by simp [buf, hces], ?_, ?_⟩
    · simp only [elems, List.append_assoc]
      refine List.Perm.append_left es ?_
      rw [← List.append_assoc]
      exact List.Perm.append_right _ hel
    · simp only [count]; omega
  · simp only [if_true] at hc0 ⊢
    subst hc0
    refine ⟨_, rfl, ⟨hsz, hl, hc⟩, rfl, rfl, by simp [buf, hces], ?_, ?_⟩
    · simp only [elems, List.append_assoc]
      refine List.Perm.append_left es ?_
      have h1 : (ces ++ (l.elems ++ c.elems)).Perm (l.elems ++ (ces ++ c.elems)) := by
        rw [← List.append_assoc, ← List.append_assoc]
        exact List.Perm.append_right _ List.perm_append_comm
      exact h1.trans (List.Perm.append_left _ hel)
    · simp only [count]; omega

theorem Sift_spec : ∀ (fuel : Nat) (x : NodePtr), x.PreOK → x.count < fuel →
    ∃ y, Sift fuel x = .ok y ∧ SiftPost x y := by
  intro fuel
  induction fuel with
  | zero => intro x _ h; exact absurd h (Nat.not_lt_zero _)
  | succ fuel ih =>
    intro x hx hf
    cases x with
    | null => exact absurd hx (by simp [PreOK])
    | node es ck cp rk sz l r =>
      obtain ⟨hsz, hl, hr⟩ := hx
      by_cases hc : es.length < sz ∧ ¬ (l = null ∧ r = null)
      · -- one iteration of the loop
        have hne := pick_right_child hc.2
        have hcOK : (if pick_right l r then r else l).OK := by split <;> assumption
        have hccnt : (if pick_right l r then r else l).count < (node es ck cp rk sz l r).count := by
          simp only [count]; split <;> omega
        cases hch : (if pick_right l r then r else l) with
        | null => exact absurd hch hne
        | node ces cck ccp crk csz cl cr =>
          rw [hch] at hcOK hccnt
          obtain ⟨hces, hcsz, hclOK, hcrOK⟩ := hcOK
          rw [Sift_succ_node fuel es ck cp rk sz l r ces cck ccp crk csz cl cr hc hch]
          -- the new child
          have hchild : ∃ c, (if cl = null ∧ cr = null then (pure null : Except Failure NodePtr)
              else Sift fuel (node [] cck ccp crk csz cl cr)) = .ok c ∧ c.OK ∧
              (ces ++ c.elems).Perm (node ces cck ccp crk csz cl cr).elems ∧
              c.count < (node ces cck ccp crk csz cl cr).count := by
            by_cases hleaf : cl = null ∧ cr = null
            · refine ⟨null, by rw [if_pos hleaf]; rfl, trivial, ?_, by simp [count]⟩
              simp [elems, hleaf.1, hleaf.2]
            · rw [if_neg hleaf]
              have hpre : (node [] cck ccp crk csz cl cr).PreOK := ⟨hcsz, hclOK, hcrOK⟩
              have hcf : (node [] cck ccp crk csz cl cr).count < fuel := by
                simp only [count] at hccnt hf ⊢; omega
              obtain ⟨c, hceq, hpost⟩ := ih _ hpre hcf
              obtain ⟨p1, _, _, p4, _, _, p7, p8⟩ := hpost
              have hb : c.buf ≠ [] := p7 (by simpa [IsLeaf] using hleaf)
              refine ⟨c, hceq, OK_of_PreOK p1 hb, ?_, ?_⟩
              · simp only [elems] at p4 ⊢
                exact List.Perm.append_left _ (by simpa using p4)
              · have := p8 (by simpa [buf, NodePtr.sz] using hcsz) (by simpa [IsLeaf] using hleaf)
                simpa [count] using this
          obtain ⟨c, hceq, hcok, hcel, hccount⟩ := hchild
          rw [hceq]
          obtain ⟨x1, hx1, q1, q2, q3, q4, q5, q6⟩ :=
            replace_child (pick_right l r) es ck cp rk sz l r ces cck _ c hsz hl hr hch hcok hcel
              hccount hces
          show ∃ y, Sift fuel (if pick_right l r then node (es ++ ces) cck cp rk sz l c
                 else node (es ++ ces) cck cp rk sz c r) = .ok y ∧ _
          rw [hx1]
          obtain ⟨y, hy, r1, r2, r3, r4, r5, r6, _, _⟩ := ih x1 q1 (by omega)
          refine ⟨y, hy, r1, by rw [r2, q2]; rfl, by rw [r3, q3]; rfl, r4.trans q5, by omega,
            fun _ => r6 q4, fun _ => r6 q4, fun _ _ => by omega⟩
      · rw [Sift, if_neg hc]
        exact ⟨_, rfl, SiftPost_refl ⟨hsz, hl, hr⟩ (by simpa [buf, NodePtr.sz, IsLeaf] using hc)⟩

end NodePtr

theorem ok_bind {α β : Type} (a : α) (f : α → Except Failure β) :
    (Except.ok a >>= f) = f a := rfl

theorem error_bind {α β : Type} (e : Failure) (f : α → Except Failure β) :
    ((Except.error e : Except Failure α) >>= f) = Except.error e := rfl

theorem pure_eq_ok {α : Type} (a : α) : (pure a : Except Failure α) = Except.ok a := rfl

theorem target_size_pos (ie : Nat) : ∀ k, 1 ≤ target_size ie k := by
  intro k
  induction k with
  | zero => simp [target_size]
  | succ k ih =>
    rw [target_size]
    split
    · exact le_refl 1
    · omega

namespace NodePtr

theorem leaf_RootOK (e : Element) : (leaf e).RootOK := by
  refine ⟨by simp [leaf], ?_⟩
  simp [leaf, OK]

theorem fuse_spec (ie : Nat) {x y : NodePtr} (hx : x.RootOK) (hy : y.RootOK) :
    ∃ z, fuse ie x y = .ok z ∧ z.RootOK ∧ z.rk = x.rk + 1 ∧
      z.elems.Perm (x.elems ++ y.elems) := by
  cases x with
  | null => exact absurd rfl hx.1
  | node es ck cp rk sz l r =>
    have hpre : (node [] 0 true (rk + 1) (target_size ie (rk + 1))
        (node es ck cp rk sz l r) y).PreOK := ⟨target_size_pos ie _, hx.2, hy.2⟩
    obtain ⟨z, hz, p1, p2, _, p4, _, _, p7, _⟩ := Sift_spec _ _ hpre (Nat.lt_succ_self _)
    refine ⟨z, hz, ⟨?_, OK_of_PreOK p1 (p7 (by simp [IsLeaf]))⟩, p2, ?_⟩
    · intro h; rw [h] at p1; exact p1
    · simpa [elems] using p4

end NodePtr

theorem Tree.rank_eq {t : Tree} (h : t.root ≠ .null) : t.rank = .ok t.root.rk := by
  unfold Tree.rank
  cases hr : t.root with
  | null => exact absurd hr h
  | node es ck cp rk sz l r => rfl

theorem forest_elems_append (l1 l2 : List Tree) :
    forest_elems (l1 ++ l2) = forest_elems l1 ++ forest_elems l2 := by
  induction l1 with
  | nil => rfl
  | cons t l1 ih => simp [forest_elems, ih]

theorem forest_elems_congr : ∀ (l1 l2 : List Tree),
    l1.map Tree.root = l2.map Tree.root → forest_elems l1 = forest_elems l2 := by
  intro l1
  induction l1 with
  | nil => intro l2 h; cases l2 with
    | nil => rfl
    | cons b l2 => simp at h
  | cons a l1 ih => intro l2 h; cases l2 with
    | nil => simp at h
    | cons b l2 =>
      simp only [List.map_cons, List.cons.injEq] at h
      simp [forest_elems, h.1, ih l2 h.2]

theorem RootsOK_congr {l1 l2 : List Tree} (h : l1.map Tree.root = l2.map Tree.root)
    (h1 : RootsOK l1) : RootsOK l2 := by
  intro t ht
  have : t.root ∈ l2.map Tree.root := List.mem_map_of_mem _ ht
  rw [← h] at this
  obtain ⟨s, hs, hst⟩ := List.mem_map.1 this
  rw [← hst]
  exact h1 s hs

theorem PtrOK_drop : ∀ (l : List Tree) (n : Nat), PtrOK l → PtrOK (l.drop n) := by
  intro l
  induction l with
  | nil => intro n _; simp [PtrOK]
  | cons t l ih =>
    intro n h
    cases n with
    | zero => simpa using h
    | succ n => simpa using ih n h.2

theorem PtrOK_mem_addr : ∀ (l : List Tree), PtrOK l → ∀ t ∈ l, t.min_ckey ∈ l.map Tree.addr := by
  intro l
  induction l with
  | nil => intro _ t ht; simp at ht
  | cons s l ih =>
    intro h t ht
    rcases List.mem_cons.1 ht with rfl | ht
    · exact h.1
    · exact List.mem_cons_of_mem _ (ih h.2 t ht)

theorem deref_of_mem {trees : List Tree} {a : Nat} (h : a ∈ trees.map Tree.addr) :
    ∃ m, deref trees a = .ok m ∧ m ∈ trees ∧ m.addr = a := by
  unfold deref
  cases hf : trees.find? (fun t => decide (t.addr = a)) with
  | none =>
    obtain ⟨s, hs, hsa⟩ := List.mem_map.1 h
    have := List.find?_eq_none.1 hf s hs
    simp [hsa] at this
  | some m =>
    exact ⟨m, rfl, List.mem_of_find?_eq_some hf, by simpa using List.find?_some hf⟩

theorem Tree.ckey_ok {t : Tree} (h : t.root ≠ .null) : ∃ k, t.ckey = .ok k := by
  unfold Tree.ckey
  cases hr : t.root with
  | null => exact absurd hr h
  | node es ck cp rk sz l r => exact ⟨ck, rfl⟩

theorem UpdateSuffixMin_at_spec (pre : List Tree) (t : Tree) (suf : List Tree)
    (hroots : ∀ s ∈ pre ++ t :: suf, s.root ≠ .null) (hp : PtrOK suf) :
    ∃ m, UpdateSuffixMin_at (pre ++ t :: suf) pre.length =
        .ok (pre ++ { t with min_ckey := m } :: suf) ∧ m ∈ (t :: suf).map Tree.addr := by
  unfold UpdateSuffixMin_at
  have h0 : (pre ++ t :: suf)[pre.length]? = some t := by
    rw [List.getElem?_append_right (le_refl _)]
    simp
  have h1 : (pre ++ t :: suf)[pre.length + 1]? = suf[0]? := by
    rw [List.getElem?_append_right (by omega)]
    simp
  rw [h0, h1]
  cases suf with
  | nil =>
    refine ⟨t.addr, ?_, by simp⟩
    simp
    rfl
  | cons nx rest =>
    have hmem : nx.min_ckey ∈ (pre ++ t :: nx :: rest).map Tree.addr := by
      have := hp.1
      simp only [List.map_append, List.map_cons, List.mem_append, List.mem_cons] at this ⊢
      tauto
    obtain ⟨m, hm, hmm, _⟩ := deref_of_mem hmem
    obtain ⟨mk, hmk⟩ := Tree.ckey_ok (hroots m hmm)
    obtain ⟨tk, htk⟩ := Tree.ckey_ok (hroots t (by simp))
    refine ⟨if mk ≥ tk then t.addr else nx.min_ckey, ?_, ?_⟩
    · simp only [List.getElem?_cons_zero, hm, hmk, htk, ok_bind, pure_eq_ok]
      simp
    · have := hp.1
      split
      · simp
      · simp only [List.map_cons, List.mem_cons] at this ⊢
        tauto

theorem UpdateSuffixMin_spec : ∀ (pre : List Tree) (t : Tree) (suf : List Tree),
    (∀ s ∈ pre ++ t :: suf, s.root ≠ .null) → PtrOK suf →
    ∃ pre1, UpdateSuffixMin (pre ++ t :: suf) pre.length = .ok (pre1 ++ suf) ∧
      pre1.map Tree.addr = (pre ++ [t]).map Tree.addr ∧
      pre1.map Tree.root = (pre ++ [t]).map Tree.root ∧ PtrOK (pre1 ++ suf) := by
  intro pre
  induction pre using List.reverseRecOn with
  | nil =>
    intro t suf hroots hp
    obtain ⟨m, hm, hmem⟩ := UpdateSuffixMin_at_spec [] t suf hroots hp
    refine ⟨[{ t with min_ckey := m }], ?_, rfl, rfl, ?_⟩
    · simpa [UpdateSuffixMin] using hm
    · exact ⟨hmem, hp⟩
  | append_singleton p s ih =>
    intro t suf hroots hp
    obtain ⟨m, hm, hmem⟩ := UpdateSuffixMin_at_spec (p ++ [s]) t suf hroots hp
    have hlen : (p ++ [s]).length = p.length + 1 := by simp
    rw [hlen] at hm ⊢
    rw [UpdateSuffixMin, hm, ok_bind]
    have hroots1 : ∀ u ∈ p ++ s :: ({ t with min_ckey := m } :: suf), u.root ≠ .null := by
      intro u hu
      have hr := fun v hv => hroots v hv
      simp only [List.mem_append, List.mem_cons, List.mem_singleton, List.not_mem_nil,
        or_false] at hu hr
      rcases hu with hu | rfl | rfl | hu
      · exact hr u (Or.inl (Or.inl hu))
      · exact hr u (Or.inl (Or.inr rfl))
      · exact hr t (Or.inr (Or.inl rfl))
      · exact hr u (Or.inr (Or.inr hu))
    obtain ⟨pre1, h1, h2, h3, h4⟩ := ih s ({ t with min_ckey := m } :: suf) hroots1 ⟨hmem, hp⟩
    refine ⟨pre1 ++ [{ t with min_ckey := m }], ?_, ?_, ?_, ?_⟩
    · simpa using h1
    · simp [h2]
    · simp [h3]
    · simpa using h4

theorem UpdateSuffixMin_ok (trees : List Tree) (i : Nat) (hi : i < trees.length)
    (hroots : ∀ s ∈ trees, s.root ≠ .null) (hp : PtrOK (trees.drop (i + 1))) :
    ∃ ts, UpdateSuffixMin trees i = .ok ts ∧ ts.map Tree.addr = trees.map Tree.addr ∧
      ts.map Tree.root = trees.map Tree.root ∧ PtrOK ts ∧
      ts.drop (i + 1) = trees.drop (i + 1) := by
  have hsplit : trees = trees.take i ++ trees[i] :: trees.drop (i + 1) := by
    simp
  have hlen : (trees.take i).length = i := by simp; omega
  obtain ⟨pre1, h1, h2, h3, h4⟩ := UpdateSuffixMin_spec (trees.take i) trees[i]
    (trees.drop (i + 1)) (by rw [← hsplit]; exact hroots) hp
  rw [← hsplit, hlen] at h1
  have hl1 : pre1.length = i + 1 := by
    have := congrArg List.length h2
    simp only [List.length_map, List.length_append, hlen, List.length_singleton] at this
    exact this
  refine ⟨_, h1, ?_, ?_, h4, ?_⟩
  · conv_rhs => rw [hsplit]
    simp [h2]
  · conv_rhs => rw [hsplit]
    simp [h3]
  · rw [← hl1]; simp

theorem mem_of_getElem? {trees : List Tree} {i : Nat} {t : Tree} (h : trees[i]? = some t) :
    t ∈ trees := by
  obtain ⟨hi, ht⟩ := List.getElem?_eq_some.1 h
  rw [← ht]
  exact List.getElem_mem hi

theorem split_at_two {trees : List Tree} {i : Nat} {t nx : Tree}
    (h0 : trees[i]? = some t) (h1 : trees[i + 1]? = some nx) :
    ∃ pre suf, trees = pre ++ t :: nx :: suf ∧ pre.length = i := by
  obtain ⟨hi, ht⟩ := List.getElem?_eq_some.1 h0
  obtain ⟨hi1, hn⟩ := List.getElem?_eq_some.1 h1
  refine ⟨trees.take i, trees.drop (i + 2), ?_, by simp; omega⟩
  have h2 : trees.drop (i + 1) = nx :: trees.drop (i + 1 + 1) := by
    rw [← hn]; exact List.drop_eq_getElem_cons hi1
  have h3 : trees.drop i = t :: trees.drop (i + 1) := by
    rw [← ht]; exact List.drop_eq_getElem_cons hi
  calc trees = trees.take i ++ trees.drop i := (List.take_append_drop i trees).symm
    _ = _ := by rw [h3, h2]

theorem split_at_last {trees : List Tree} {i : Nat} {t : Tree}
    (h0 : trees[i]? = some t) (h1 : trees[i + 1]? = none) :
    ∃ pre, trees = pre ++ [t] ∧ pre.length = i := by
  obtain ⟨hi, ht⟩ := List.getElem?_eq_some.1 h0
  have hlen : trees.length ≤ i + 1 := by simpa using h1
  refine ⟨trees.take i, ?_, by simp; omega⟩
  have h3 : trees.drop i = t :: trees.drop (i + 1) := by
    rw [← ht]; exact List.drop_eq_getElem_cons hi
  have h4 : trees.drop (i + 1) = [] := List.drop_eq_nil_of_le hlen
  calc trees = trees.take i ++ trees.drop i := (List.take_append_drop i trees).symm
    _ = _ := by rw [h3, h4]

theorem set_erase_mid : ∀ (pre : List Tree) (t nx u : Tree) (suf : List Tree),
    ((pre ++ t :: nx :: suf).set pre.length u).eraseIdx (pre.length + 1) = pre ++ u :: suf := by
  intro pre
  induction pre with
  | nil => intro t nx u suf; rfl
  | cons a pre ih =>
    intro t nx u suf
    simp only [List.cons_append, List.length_cons, List.set_cons_succ, List.eraseIdx_cons_succ, ih]

theorem set_mid : ∀ (pre : List Tree) (t u : Tree) (suf : List Tree),
    (pre ++ t :: suf).set pre.length u = pre ++ u :: suf := by
  intro pre
  induction pre with
  | nil => intro t u suf; rfl
  | cons a pre ih => intro t u suf; simp [List.set, ih]

theorem erase_mid : ∀ (pre : List Tree) (t : Tree) (suf : List Tree),
    (pre ++ t :: suf).eraseIdx pre.length = pre ++ suf := by
  intro pre
  induction pre with
  | nil => intro t suf; rfl
  | cons a pre ih => intro t suf; simp [List.eraseIdx, ih]

theorem drop_mid : ∀ (pre : List Tree) (suf : List Tree) (n : Nat),
    (pre ++ suf).drop (pre.length + n) = suf.drop n := by
  intro pre suf n
  rw [List.drop_append_eq_append_drop]
  simp

theorem RootsOK_append {l1 l2 : List Tree} : RootsOK (l1 ++ l2) ↔ RootsOK l1 ∧ RootsOK l2 := by
  simp only [RootsOK, List.mem_append]
  constructor
  · intro h; exact ⟨fun t ht => h t (Or.inl ht), fun t ht => h t (Or.inr ht)⟩
  · rintro ⟨h1, h2⟩ t (ht | ht)
    · exact h1 t ht
    · exact h2 t ht

theorem RootsOK_cons {t : Tree} {l : List Tree} : RootsOK (t :: l) ↔ t.root.RootOK ∧ RootsOK l := by
  simp [RootsOK]

theorem carry_loop_spec (ie k : Nat) : ∀ (fuel : Nat) (trees : List Tree) (i : Nat),
    RootsOK trees → i ≤ trees.length → 2 * trees.length < fuel + i →
    ∃ ts stop, carry_loop ie k fuel trees i = .ok (ts, stop) ∧ RootsOK ts ∧
      (forest_elems ts).Perm (forest_elems trees) ∧ (trees ≠ [] → ts ≠ []) ∧
      ∀ j, stop = some j → j < ts.length ∧ ∃ n, i + 1 ≤ n ∧ ts.drop (j + 1) = trees.drop n := by
  intro fuel
  induction fuel with
  | zero => intro trees i _ h1 h2; omega
  | succ fuel ih =>
    intro trees i hr hi hf
    rw [carry_loop]
    cases h0 : trees[i]? with
    | none =>
      exact ⟨trees, none, rfl, hr, List.Perm.refl _, id, fun j hj => by cases hj⟩
    | some t =>
      have hilt : i < trees.length := (List.getElem?_eq_some.1 h0).1
      have htm : t ∈ trees := mem_of_getElem? h0
      have htr := Tree.rank_eq (hr t htm).1
      cases h1 : trees[i + 1]? with
      | some nx =>
        have hnm : nx ∈ trees := mem_of_getElem? h1
        have hnr := Tree.rank_eq (hr nx hnm).1
        simp only [htr, hnr, ok_bind]
        by_cases heq : t.root.rk = nx.root.rk
        · rw [if_pos heq]
          obtain ⟨pre, suf, rfl, rfl⟩ := split_at_two h0 h1
          obtain ⟨z, hz, hzok, _, hzel⟩ := NodePtr.fuse_spec ie (hr t htm) (hr nx hnm)
          rw [MakeNodePtr, hz, ok_bind, set_erase_mid]
          have hr1 : RootsOK (pre ++ { t with root := z } :: suf) := by
            rw [RootsOK_append, RootsOK_cons] at hr ⊢
            rw [RootsOK_cons] at hr
            exact ⟨hr.1, hzok, hr.2.2.2⟩
          obtain ⟨ts, stop, h, p1, p2, p3, p4⟩ := ih _ pre.length hr1 (by simp)
            (by simp only [List.length_append, List.length_cons] at hf ⊢; omega)
          refine ⟨ts, stop, h, p1, p2.trans ?_, fun _ => p3 (by simp), ?_⟩
          · simp only [forest_elems_append, forest_elems]
            refine List.Perm.append_left _ ?_
            rw [← List.append_assoc]
            exact List.Perm.append_right _ hzel
          · intro j hj
            obtain ⟨q1, n, q2, q3⟩ := p4 j hj
            refine ⟨q1, n + 1, by omega, ?_⟩
            rw [q3]
            obtain ⟨d, rfl⟩ : ∃ d, n = pre.length + (d + 1) := ⟨n - pre.length - 1, by omega⟩
            rw [drop_mid, show pre.length + (d + 1) + 1 = pre.length + (d + 2) by omega, drop_mid]
            rfl
        · rw [if_neg heq]
          by_cases hk : t.root.rk > k
          · rw [if_pos hk]
            exact ⟨trees, some i, rfl, hr, List.Perm.refl _, id,
              fun j hj => by cases hj; exact ⟨hilt, i + 1, le_refl _, rfl⟩⟩
          · rw [if_neg hk]
            obtain ⟨ts, stop, h, p1, p2, p3, p4⟩ := ih trees (i + 1) hr hilt (by omega)
            refine ⟨ts, stop, h, p1, p2, p3, fun j hj => ?_⟩
            obtain ⟨q1, n, q2, q3⟩ := p4 j hj
            exact ⟨q1, n, by omega, q3⟩
      | none =>
        simp only [htr, ok_bind]
        by_cases hk : t.root.rk > k
        · rw [if_pos hk]
          exact ⟨trees, some i, rfl, hr, List.Perm.refl _, id,
            fun j hj => by cases hj; exact ⟨hilt, i + 1, le_refl _, rfl⟩⟩
        · rw [if_neg hk]
          obtain ⟨ts, stop, h, p1, p2, p3, p4⟩ := ih trees (i + 1) hr hilt (by omega)
          refine ⟨ts, stop, h, p1, p2, p3, fun j hj => ?_⟩
          obtain ⟨q1, n, q2, q3⟩ := p4 j hj
          exact ⟨q1, n, by omega, q3⟩

theorem StrictRanks_cons {t : Tree} {l : List Tree} :
    StrictRanks (t :: l) ↔ (∀ r ∈ forest_ranks l, t.root.rk < r) ∧ StrictRanks l := by
  simp [StrictRanks, forest_ranks]

theorem carry_at_head (ie k : Nat) : ∀ (fuel : Nat) (pre : List Tree) (t : Tree)
    (rest : List Tree), RootsOK (pre ++ t :: rest) → k < t.root.rk → rest.length < fuel →
    ∃ t1 rest1, carry_loop ie k fuel (pre ++ t :: rest) pre.length =
        .ok (pre ++ t1 :: rest1, some pre.length) ∧
      t1.addr = t.addr ∧ t1.min_ckey = t.min_ckey ∧ t1.root.RootOK ∧
      (∃ n, rest1 = rest.drop n) ∧
      (forest_elems (t1 :: rest1)).Perm (forest_elems (t :: rest)) ∧
      (StrictRanks rest → (∀ r ∈ forest_ranks rest, t.root.rk ≤ r) → StrictRanks (t1 :: rest1)) := by
  intro fuel
  induction fuel with
  | zero => intro pre t rest _ _ h; omega
  | succ fuel ih =>
    intro pre t rest hr hk hf
    have h0 : (pre ++ t :: rest)[pre.length]? = some t := by
      rw [List.getElem?_append_right (le_refl _)]; simp
    have h1 : (pre ++ t :: rest)[pre.length + 1]? = rest[0]? := by
      rw [List.getElem?_append_right (by omega)]; simp
    have hrt : t.root.RootOK := (RootsOK_cons.1 (RootsOK_append.1 hr).2).1
    have htr := Tree.rank_eq hrt.1
    rw [carry_loop, h0, h1]
    cases rest with
    | nil =>
      simp only [List.getElem?_nil, htr, ok_bind, if_pos hk]
      refine ⟨t, [], rfl, rfl, rfl, hrt, ⟨0, rfl⟩, List.Perm.refl _, fun _ _ => ?_⟩
      simp [StrictRanks, forest_ranks]
    | cons nx suf =>
      have hrn : nx.root.RootOK :=
        (RootsOK_cons.1 (RootsOK_cons.1 (RootsOK_append.1 hr).2).2).1
      have hnr := Tree.rank_eq hrn.1
      simp only [List.getElem?_cons_zero, htr, hnr, ok_bind]
      by_cases heq : t.root.rk = nx.root.rk
      · rw [if_pos heq]
        obtain ⟨z, hz, hzok, hzrk, hzel⟩ := NodePtr.fuse_spec ie hrt hrn
        rw [MakeNodePtr, hz, ok_bind, set_erase_mid]
        have hr1 : RootsOK (pre ++ { t with root := z } :: suf) := by
          rw [RootsOK_append, RootsOK_cons] at hr ⊢
          rw [RootsOK_cons] at hr
          exact ⟨hr.1, hzok, hr.2.2.2⟩
        obtain ⟨t1, rest1, h, p1, p2, p3, ⟨n, p4⟩, p5, p6⟩ := ih pre { t with root := z } suf hr1
          (by show k < z.rk; omega) (by simp only [List.length_cons] at hf; omega)
        refine ⟨t1, rest1, h, p1, p2, p3, ⟨n + 1, by simpa using p4⟩, p5.trans ?_, ?_⟩
        · simp only [forest_elems]
          rw [← List.append_assoc]
          exact List.Perm.append_right _ hzel
        · intro hs hle
          rw [StrictRanks_cons] at hs
          refine p6 hs.2 ?_
          intro r hr2
          show z.rk ≤ r
          have := hs.1 r hr2
          omega
      · rw [if_neg heq, if_pos hk]
        refine ⟨t, nx :: suf, rfl, rfl, rfl, hrt, ⟨0, rfl⟩, List.Perm.refl _, fun hs hle => ?_⟩
        rw [StrictRanks_cons]
        refine ⟨?_, hs⟩
        rw [StrictRanks_cons] at hs
        intro r hr2
        simp only [forest_ranks, List.map_cons, List.mem_cons] at hr2 hle
        rcases hr2 with rfl | hr2
        · have := hle nx.root.rk (Or.inl rfl)
          omega
        · have h1 := hs.1 r (by simpa [forest_ranks] using hr2)
          have h2 := hle nx.root.rk (Or.inl rfl)
          omega

theorem fresh_addr_PtrOK (t : Tree) (l : List Tree) (h : PtrOK l) (ht : t.min_ckey = t.addr) :
    PtrOK (t :: l) := ⟨by simp [ht], h⟩

theorem PtrOK_congr : ∀ (l1 l2 : List Tree), l1.map Tree.addr = l2.map Tree.addr →
    l1.map Tree.min_ckey = l2.map Tree.min_ckey → PtrOK l1 → PtrOK l2 := by
  intro l1
  induction l1 with
  | nil => intro l2 h _ _; cases l2 with
    | nil => trivial
    | cons b l2 => simp at h
  | cons a l1 ih => intro l2 h h2 hp; cases l2 with
    | nil => simp at h
    | cons b l2 =>
      simp only [List.map_cons, List.cons.injEq] at h h2
      refine ⟨?_, ih l2 h.2 h2.2 hp.2⟩
      have := hp.1
      simp only [List.map_cons, h.1, h.2, h2.1] at this ⊢
      exact this

namespace SoftHeap

theorem Insert_spec (ie : Nat) (h : SoftHeap) (e : Element) (hw : WellFormed h) :
    ∃ h1, Insert ie h e = .ok h1 ∧ WellFormed h1 ∧
      (forest_elems h1.trees).Perm (e :: forest_elems h.trees) ∧
      h1.c_size = inc_size h.c_size ∧ (StrictRanks h.trees → StrictRanks h1.trees) := by
  obtain ⟨ts, c⟩ := h
  obtain ⟨hr, hp⟩ := hw
  simp only at hr hp
  cases ts with
  | nil =>
    refine ⟨_, rfl, ⟨?_, ?_⟩, ?_, rfl, fun _ => ?_⟩
    · intro t ht
      simp only [List.mem_singleton] at ht
      subst ht
      exact NodePtr.leaf_RootOK e
    · exact ⟨by simp, trivial⟩
    · simp [forest_elems, NodePtr.leaf, NodePtr.elems]
    · simp [StrictRanks, forest_ranks]
  | cons first rest =>
    have hrf : first.root.RootOK := (RootsOK_cons.1 hr).1
    have hrr : RootsOK rest := (RootsOK_cons.1 hr).2
    simp only [Insert, Tree.rank_eq hrf.1, ok_bind]
    by_cases h0 : first.root.rk = 0
    · rw [if_pos h0]
      obtain ⟨z, hz, hzok, hzrk, hzel⟩ := NodePtr.fuse_spec ie hrf (NodePtr.leaf_RootOK e)
      rw [MakeNodePtr, hz, ok_bind]
      have hr1 : RootsOK ([] ++ { first with root := z } :: rest) := RootsOK_cons.2 ⟨hzok, hrr⟩
      obtain ⟨t1, rest1, hc, p1, p2, p3, ⟨n, p4⟩, p5, p6⟩ :=
        carry_at_head ie 0 (2 * ({ first with root := z } :: rest).length + 1) []
          { first with root := z } rest hr1 (by show 0 < z.rk; omega)
          (by simp only [List.length_cons]; omega)
      simp only [List.nil_append, List.length_nil] at hc
      rw [hc, ok_bind]
      have hr2 : RootsOK (t1 :: rest1) := by
        refine RootsOK_cons.2 ⟨p3, ?_⟩
        intro t ht
        rw [p4] at ht
        exact hrr t (List.mem_of_mem_drop ht)
      obtain ⟨ts2, hu, q1, q2, q3, _⟩ := UpdateSuffixMin_ok (t1 :: rest1) 0 (by simp)
        (fun s hs => (hr2 s hs).1) (by
          rw [p4]
          show PtrOK (List.drop n rest)
          exact PtrOK_drop _ _ hp.2)
      simp only [hu, ok_bind]
      refine ⟨_, rfl, ⟨RootsOK_congr q2.symm hr2, q3⟩, ?_, rfl, fun hs => ?_⟩
      · simp only
        rw [forest_elems_congr _ _ q2]
        refine p5.trans ?_
        simp only [forest_elems]
        have h1 : (z.elems ++ forest_elems rest).Perm
            ((first.root.elems ++ (NodePtr.leaf e).elems) ++ forest_elems rest) :=
          List.Perm.append_right _ hzel
        refine h1.trans ?_
        simp only [NodePtr.leaf, NodePtr.elems, List.append_nil, List.append_assoc]
        exact @List.perm_middle _ e first.root.elems (forest_elems rest)
      · simp only
        have hs1 := StrictRanks_cons.1 hs
        have : StrictRanks (t1 :: rest1) := p6 hs1.2 (by
          intro r hr3
          show z.rk ≤ r
          have := hs1.1 r hr3
          omega)
        unfold StrictRanks forest_ranks at this ⊢
        have e1 : List.map (fun t => t.root.rk) ts2 = List.map (fun t => t.root.rk) (t1 :: rest1) := by
          have := congrArg (List.map NodePtr.rk) q2
          simpa [List.map_map] using this
        rw [e1]; exact this
    · rw [if_neg h0]
      refine ⟨_, rfl, ⟨?_, ?_⟩, ?_, rfl, fun hs => ?_⟩
      · exact RootsOK_cons.2 ⟨NodePtr.leaf_RootOK e, hr⟩
      · exact ⟨by simp, hp⟩
      · simp [forest_elems, NodePtr.leaf, NodePtr.elems]
      · rw [StrictRanks_cons]
        refine ⟨?_, hs⟩
        have hs1 := StrictRanks_cons.1 hs
        intro r hr3
        simp only [forest_ranks, List.map_cons, List.mem_cons] at hr3
        show 0 < r
        rcases hr3 with rfl | hr3
        · omega
        · have := hs1.1 r (by simpa [forest_ranks] using hr3)
          omega

end SoftHeap

theorem NodePtr.rk_node (es : List Element) (ck : Element) (cp : Bool) (rk sz : Nat)
    (l r : NodePtr) : (NodePtr.node es ck cp rk sz l r).rk = rk := rfl

theorem forest_ranks_congr {l1 l2 : List Tree} (h : l1.map Tree.root = l2.map Tree.root) :
    forest_ranks l1 = forest_ranks l2 := by
  have := congrArg (List.map NodePtr.rk) h
  simpa [forest_ranks, List.map_map] using this

theorem PtrOK_suffix (pre suf : List Tree) (h : PtrOK (pre ++ suf)) : PtrOK suf := by
  have := PtrOK_drop _ pre.length h
  simpa using this

namespace SoftHeap

theorem rebalance_spec (pre suf : List Tree) (t : Tree) (es : List Element) (ck : Element)
    (cp : Bool) (rk sz : Nat) (l r : NodePtr)
    (hr : RootsOK pre ∧ RootsOK suf) (hp : PtrOK (pre ++ t :: suf))
    (hx : (NodePtr.node es ck cp rk sz l r).PreOK) :
    ∃ ts, rebalance (pre ++ t :: suf) pre.length t es ck cp rk sz l r = .ok ts ∧
      RootsOK ts ∧ PtrOK ts ∧
      (forest_elems ts).Perm (forest_elems pre ++ ((NodePtr.node es ck cp rk sz l r).elems ++
        forest_elems suf)) ∧
      (StrictRanks (pre ++ { t with root := NodePtr.node es ck cp rk sz l r } :: suf) →
        StrictRanks ts) := by
  have hps : PtrOK suf := by
    have := PtrOK_suffix (pre ++ [t]) suf (by simpa using hp)
    exact this
  have hsame : ∀ (x1 : NodePtr), x1.RootOK → x1.rk = rk →
      x1.elems.Perm (NodePtr.node es ck cp rk sz l r).elems →
      ∀ ts, ts.map Tree.addr = (pre ++ { t with root := x1 } :: suf).map Tree.addr →
        ts.map Tree.root = (pre ++ { t with root := x1 } :: suf).map Tree.root → PtrOK ts →
        RootsOK ts ∧ PtrOK ts ∧
        (forest_elems ts).Perm (forest_elems pre ++ ((NodePtr.node es ck cp rk sz l r).elems ++
          forest_elems suf)) ∧
        (StrictRanks (pre ++ { t with root := NodePtr.node es ck cp rk sz l r } :: suf) →
          StrictRanks ts) := by
    intro x1 hx1 hrk hel ts _ hroot hpt
    refine ⟨RootsOK_congr hroot.symm ?_, hpt, ?_, ?_⟩
    · exact RootsOK_append.2 ⟨hr.1, RootsOK_cons.2 ⟨hx1, hr.2⟩⟩
    · rw [forest_elems_congr _ _ hroot, forest_elems_append]
      exact List.Perm.append_left _ (List.Perm.append_right _ hel)
    · intro hs
      unfold StrictRanks at hs ⊢
      rw [forest_ranks_congr hroot]
      simp only [forest_ranks, List.map_append, List.map_cons, NodePtr.rk_node] at hs ⊢
      rw [hrk]
      exact hs
  have hplain : (NodePtr.node es ck cp rk sz l r).buf ≠ [] →
      ∃ ts, (pure ((pre ++ t :: suf).set pre.length
          { t with root := NodePtr.node es ck cp rk sz l r }) : Except Failure (List Tree)) =
          .ok ts ∧ RootsOK ts ∧ PtrOK ts ∧
        (forest_elems ts).Perm (forest_elems pre ++ ((NodePtr.node es ck cp rk sz l r).elems ++
          forest_elems suf)) ∧
        (StrictRanks (pre ++ { t with root := NodePtr.node es ck cp rk sz l r } :: suf) →
          StrictRanks ts) := by
    intro hb
    rw [set_mid]
    refine ⟨_, rfl, hsame _ ⟨by simp, NodePtr.OK_of_PreOK hx hb⟩ rfl (List.Perm.refl _) _ rfl rfl ?_⟩
    exact PtrOK_congr _ _ (by simp) (by simp) hp
  unfold rebalance
  simp only
  by_cases h2 : 2 * es.length < sz
  · rw [if_pos h2]
    by_cases hleaf : l = .null ∧ r = .null
    · rw [if_neg (not_not.2 hleaf)]
      by_cases he : es = []
      · rw [if_pos he]
        have hel : (NodePtr.node es ck cp rk sz l r).elems = [] := by
          simp [NodePtr.elems, he, hleaf.1, hleaf.2]
        rw [hel, erase_mid]
        have hstrict : StrictRanks (pre ++ { t with root := NodePtr.node es ck cp rk sz l r } :: suf) →
            StrictRanks (pre ++ suf) := by
          intro hs
          unfold StrictRanks forest_ranks at hs ⊢
          refine List.Pairwise.sublist ?_ hs
          simp only [List.map_append, List.map_cons]
          exact List.Sublist.append_left (List.sublist_cons_self _ _) _
        by_cases hk : pre.length ≠ 0
        · rw [if_pos hk]
          have hi : pre.length - 1 < (pre ++ suf).length := by
            simp only [List.length_append]; omega
          have hd : (pre ++ suf).drop (pre.length - 1 + 1) = suf := by
            rw [show pre.length - 1 + 1 = pre.length by omega]; simp
          obtain ⟨ts, hu, _, q2, q3, _⟩ := UpdateSuffixMin_ok (pre ++ suf) (pre.length - 1) hi
            (fun s hs => ((RootsOK_append.2 hr) s hs).1) (by rw [hd]; exact hps)
          refine ⟨ts, hu, RootsOK_congr q2.symm (RootsOK_append.2 hr), q3, ?_, fun hs => ?_⟩
          · rw [forest_elems_congr _ _ q2, forest_elems_append]; simp
          · have := hstrict hs
            unfold StrictRanks at this ⊢
            rw [forest_ranks_congr q2]; exact this
        · rw [if_neg hk]
          have hpre : pre = [] := List.eq_nil_of_length_eq_zero (not_not.1 hk)
          subst hpre
          refine ⟨suf, rfl, hr.2, hps, by simp [forest_elems], fun hs => ?_⟩
          simpa using hstrict hs
      · rw [if_neg he]
        exact hplain he
    · rw [if_pos hleaf]
      obtain ⟨x1, hs1, p1, p2, _, p4, _, _, p7, _⟩ :=
        NodePtr.Sift_spec ((NodePtr.node es ck cp rk sz l r).count + 1) _ hx (Nat.lt_succ_self _)
      have hx1 : x1.RootOK := by
        refine ⟨?_, NodePtr.OK_of_PreOK p1 (p7 (by simpa [NodePtr.IsLeaf] using hleaf))⟩
        intro h; rw [h] at p1; exact p1
      rw [hs1, ok_bind, set_mid]
      obtain ⟨ts, hu, q1, q2, q3, _⟩ := UpdateSuffixMin_ok (pre ++ { t with root := x1 } :: suf)
        pre.length (by simp)
        (fun s hs => ((RootsOK_append.2 ⟨hr.1, RootsOK_cons.2 ⟨hx1, hr.2⟩⟩) s hs).1)
        (by
          have : (pre ++ { t with root := x1 } :: suf).drop (pre.length + 1) = suf := by
            rw [drop_mid]; rfl
          rw [this]; exact hps)
      exact ⟨ts, hu, hsame x1 hx1 p2 p4 ts q1 q2 q3⟩
  · rw [if_neg h2]
    refine hplain ?_
    intro hb
    simp only [NodePtr.buf] at hb
    subst hb
    have := hx.1
    simp at h2
    omega

theorem ExtractMin_spec (h : SoftHeap) (hw : WellFormed h) (hne : h.trees ≠ []) :
    ∃ e h1, ExtractMin h = .ok (e, h1) ∧ WellFormed h1 ∧
      (e :: forest_elems h1.trees).Perm (forest_elems h.trees) ∧
      h1.c_size = dec_size h.c_size ∧ (StrictRanks h.trees → StrictRanks h1.trees) := by
  obtain ⟨trees, c⟩ := h
  obtain ⟨hr, hp⟩ := hw
  simp only at hr hp hne
  cases htrees : trees with
  | nil => exact absurd htrees hne
  | cons front rest =>
    rw [← htrees]
    have hfm : front.min_ckey ∈ trees.map Tree.addr := by
      have hp1 : PtrOK (front :: rest) := htrees ▸ hp
      rw [htrees]; exact hp1.1
    unfold ExtractMin
    simp only
    rw [htrees]
    simp only
    rw [← htrees]
    cases hfi : trees.findIdx? (fun t => decide (t.addr = front.min_ckey)) with
    | none =>
      exfalso
      obtain ⟨s, hs, hsa⟩ := List.mem_map.1 hfm
      have := List.findIdx?_eq_none_iff.1 hfi s hs
      simp [hsa] at this
    | some k =>
      obtain ⟨hk, _, _⟩ := List.findIdx?_eq_some_iff_getElem.1 hfi
      have hget : trees[k]? = some trees[k] := List.getElem?_eq_getElem hk
      have hsplit : trees = trees.take k ++ trees[k] :: trees.drop (k + 1) := by simp
      have hlen : (trees.take k).length = k := by simp; omega
      simp only [hget]
      have hroot := hr trees[k] (List.getElem_mem hk)
      cases hx : trees[k].root with
      | null => exact absurd hx hroot.1
      | node es0 ck cp rk sz l r =>
        simp only
        rw [hx] at hroot
        have hes : es0 ≠ [] := hroot.2.1
        obtain ⟨es, e, rfl⟩ : ∃ es e, es0 = es ++ [e] :=
          ⟨es0.dropLast, es0.getLast hes, (List.dropLast_concat_getLast hes).symm⟩
        simp only [List.getLast?_concat, List.dropLast_concat]
        have hr2 : RootsOK (trees.take k) ∧ RootsOK (trees.drop (k + 1)) := by
          rw [hsplit] at hr
          have := RootsOK_append.1 hr
          exact ⟨this.1, (RootsOK_cons.1 this.2).2⟩
        obtain ⟨ts, hts, p1, p2, p3, p4⟩ := rebalance_spec (trees.take k) (trees.drop (k + 1))
          trees[k] es ck cp rk sz l r hr2 (by rw [← hsplit]; exact hp)
          ⟨hroot.2.2.1, hroot.2.2.2.1, hroot.2.2.2.2⟩
        rw [← hsplit, hlen] at hts
        rw [hts, ok_bind]
        refine ⟨e, _, rfl, ⟨p1, p2⟩, ?_, rfl, fun hs => ?_⟩
        · simp only
          have e1 : forest_elems trees = forest_elems (trees.take k) ++
              ((NodePtr.node (es ++ [e]) ck cp rk sz l r).elems ++
                forest_elems (trees.drop (k + 1))) := by
            conv_lhs => rw [hsplit]
            rw [forest_elems_append, forest_elems, hx]
          rw [e1]
          refine (List.Perm.cons e p3).trans ?_
          refine List.perm_middle.symm.trans (List.Perm.append_left _ ?_)
          have hX : (e :: (NodePtr.node es ck cp rk sz l r).elems).Perm
              (NodePtr.node (es ++ [e]) ck cp rk sz l r).elems := by
            simp only [NodePtr.elems, List.append_assoc, List.singleton_append]
            exact List.perm_middle.symm
          exact List.Perm.append_right _ hX
        · simp only
          apply p4
          have e2 : forest_ranks (trees.take k ++
              { trees[k] with root := NodePtr.node es ck cp rk sz l r } :: trees.drop (k + 1)) =
              forest_ranks trees := by
            conv_rhs => rw [hsplit]
            simp only [forest_ranks, List.map_append, List.map_cons, hx, NodePtr.rk_node]
          unfold StrictRanks
          rw [e2]
          exact hs

end SoftHeap

theorem forest_elems_perm {l1 l2 : List Tree} (h : l1.Perm l2) :
    (forest_elems l1).Perm (forest_elems l2) := by
  induction h with
  | nil => exact List.Perm.refl _
  | cons t _ ih => exact List.Perm.append_left _ ih
  | swap a b l =>
    simp only [forest_elems]
    rw [← List.append_assoc, ← List.append_assoc]
    exact List.Perm.append_right _ List.perm_append_comm
  | trans _ _ ih1 ih2 => exact ih1.trans ih2

theorem RootsOK_perm {l1 l2 : List Tree} (h : l1.Perm l2) (h1 : RootsOK l1) : RootsOK l2 :=
  fun t ht => h1 t (h.symm.subset ht)

theorem list_merge_spec : ∀ (fuel : Nat) (l1 l2 : List Tree), RootsOK l1 → RootsOK l2 →
    l1.length + l2.length ≤ fuel →
    ∃ m, list_merge fuel l1 l2 = .ok m ∧ m.Perm (l1 ++ l2) ∧ (PtrOK l1 → PtrOK l2 → PtrOK m) := by
  intro fuel
  induction fuel with
  | zero =>
    intro l1 l2 _ _ hf
    have h1 : l1 = [] := List.eq_nil_of_length_eq_zero (by omega)
    have h2 : l2 = [] := List.eq_nil_of_length_eq_zero (by omega)
    subst h1 h2
    exact ⟨[], by simp [list_merge, pure_eq_ok], List.Perm.refl _, fun _ _ => trivial⟩
  | succ fuel ih =>
    intro l1 l2 hr1 hr2 hf
    cases l1 with
    | nil => exact ⟨l2, by simp [list_merge, pure_eq_ok], by simp, fun _ h => h⟩
    | cons a l1 =>
      cases l2 with
      | nil => exact ⟨a :: l1, by simp [list_merge, pure_eq_ok], by simp, fun h _ => h⟩
      | cons b l2 =>
        have hra := Tree.rank_eq (RootsOK_cons.1 hr1).1.1
        have hrb := Tree.rank_eq (RootsOK_cons.1 hr2).1.1
        rw [list_merge]
        simp only [hra, hrb, ok_bind]
        simp only [List.length_cons] at hf
        by_cases hlt : b.root.rk < a.root.rk
        · rw [if_pos hlt]
          obtain ⟨m, hm, hperm, hptr⟩ := ih (a :: l1) l2 hr1 (RootsOK_cons.1 hr2).2
            (by simp only [List.length_cons]; omega)
          rw [hm, ok_bind]
          refine ⟨b :: m, rfl, ?_, fun h1 h2 => ⟨?_, hptr h1 h2.2⟩⟩
          · exact (List.Perm.cons b hperm).trans (@List.perm_middle _ b (a :: l1) l2).symm
          · have := h2.1
            simp only [List.map_cons, List.mem_cons, List.mem_map] at this ⊢
            rcases this with h | ⟨s, hs, hsa⟩
            · exact Or.inl h
            · exact Or.inr ⟨s, hperm.symm.subset (by simp [hs]), hsa⟩
        · rw [if_neg hlt]
          obtain ⟨m, hm, hperm, hptr⟩ := ih l1 (b :: l2) (RootsOK_cons.1 hr1).2 hr2
            (by simp only [List.length_cons]; omega)
          rw [hm, ok_bind]
          refine ⟨a :: m, rfl, List.Perm.cons a hperm, fun h1 h2 => ⟨?_, hptr h1.2 h2⟩⟩
          have := h1.1
          simp only [List.map_cons, List.mem_cons, List.mem_map] at this ⊢
          rcases this with h | ⟨s, hs, hsa⟩
          · exact Or.inl h
          · exact Or.inr ⟨s, hperm.symm.subset (by simp [hs]), hsa⟩

namespace SoftHeap

theorem rank_ok (ts : List Tree) (c : Nat) (hr : RootsOK ts) (hne : ts ≠ []) :
    ∃ k, rank ⟨ts, c⟩ = .ok k := by
  unfold rank
  simp only
  cases hl : ts.getLast? with
  | none => exact absurd (List.getLast?_eq_none_iff.1 hl) hne
  | some t =>
    obtain ⟨ys, rfl⟩ := List.getLast?_eq_some_iff.1 hl
    exact ⟨_, Tree.rank_eq (hr t (by simp)).1⟩

theorem meld_into_spec (ie : Nat) (ts ps : List Tree) (h1 : RootsOK ts ∧ PtrOK ts)
    (h2 : RootsOK ps ∧ PtrOK ps) (hne : ps ≠ []) :
    ∃ r, meld_into ie ts ps = .ok r ∧ RootsOK r ∧ PtrOK r ∧
      (forest_elems r).Perm (forest_elems ts ++ forest_elems ps) := by
  obtain ⟨k, hk⟩ := rank_ok ps 0 h2.1 hne
  obtain ⟨m, hm, hperm, hptr⟩ := list_merge_spec _ ts ps h1.1 h2.1 (le_refl _)
  have hmr : RootsOK m := RootsOK_perm hperm.symm (RootsOK_append.2 ⟨h1.1, h2.1⟩)
  have hmne : m ≠ [] := by
    intro h
    rw [h] at hperm
    have := hperm.length_eq
    cases ps with
    | nil => exact hne rfl
    | cons p ps => simp only [List.length_nil, List.length_append, List.length_cons] at this; omega
  obtain ⟨ts1, stop, hc, p1, p2, p3, p4⟩ := carry_loop_spec ie k (2 * m.length + 1) m 0 hmr
    (Nat.zero_le _) (by omega)
  have hel : (forest_elems ts1).Perm (forest_elems ts ++ forest_elems ps) := by
    refine p2.trans ?_
    rw [← forest_elems_append]
    exact forest_elems_perm hperm
  unfold meld_into
  rw [hk, ok_bind, hm, ok_bind, hc, ok_bind]
  simp only
  cases stop with
  | some j =>
    obtain ⟨q1, n, _, q3⟩ := p4 j rfl
    obtain ⟨r, hu, _, u2, u3, _⟩ := UpdateSuffixMin_ok ts1 j q1 (fun s hs => (p1 s hs).1)
      (by rw [q3]; exact PtrOK_drop _ _ (hptr h1.2 h2.2))
    refine ⟨r, hu, RootsOK_congr u2.symm p1, u3, ?_⟩
    rw [forest_elems_congr _ _ u2]; exact hel
  | none =>
    have hlen : ts1.length = (ts1.length - 1) + 1 := by
      have := List.length_pos.2 (p3 hmne); omega
    obtain ⟨r, hu, _, u2, u3, _⟩ := UpdateSuffixMin_ok ts1 (ts1.length - 1) (by omega)
      (fun s hs => (p1 s hs).1)
      (by rw [← hlen, List.drop_length]; trivial)
    refine ⟨r, ?_, RootsOK_congr u2.symm p1, u3, ?_⟩
    · rw [hlen]; exact hu
    · rw [forest_elems_congr _ _ u2]; exact hel

theorem Meld_spec (ie : Nat) (h P : SoftHeap) (hw : WellFormed h) (hP : WellFormed P)
    (hne : P.trees ≠ []) :
    ∃ h1, Meld ie h P = .ok (h1, ⟨[], P.c_size⟩) ∧ WellFormed h1 ∧
      (forest_elems h1.trees).Perm (forest_elems h.trees ++ forest_elems P.trees) ∧
      h1.c_size = h.c_size := by
  have hsw : ∃ sw : Bool, meld_swap h P = .ok sw ∧ (sw = true → h.trees ≠ []) := by
    unfold meld_swap
    by_cases hl : h.trees.length ≠ 0
    · rw [if_pos hl]
      have hhne : h.trees ≠ [] := fun hh => hl (by rw [hh]; rfl)
      obtain ⟨pr, hpr⟩ := rank_ok P.trees P.c_size hP.1 hne
      obtain ⟨r, hr⟩ := rank_ok h.trees h.c_size hw.1 hhne
      refine ⟨decide (pr > r), ?_, fun _ => hhne⟩
      show (rank ⟨P.trees, P.c_size⟩ >>= fun pr => rank ⟨h.trees, h.c_size⟩ >>= fun r =>
        pure (decide (pr > r))) = _
      rw [hpr, ok_bind, hr, ok_bind]; rfl
    · rw [if_neg hl]; exact ⟨false, rfl, fun hf => by cases hf⟩
  obtain ⟨sw, hsw1, hsw2⟩ := hsw
  unfold Meld
  rw [hsw1, ok_bind]
  cases sw with
  | false =>
    obtain ⟨r, hm, q1, q2, q3⟩ := meld_into_spec ie h.trees P.trees hw hP hne
    simp only [Bool.false_eq_true, if_false, hm, ok_bind]
    exact ⟨⟨r, h.c_size⟩, rfl, ⟨q1, q2⟩, q3, rfl⟩
  | true =>
    obtain ⟨r, hm, q1, q2, q3⟩ := meld_into_spec ie P.trees h.trees hP hw (hsw2 rfl)
    simp only [if_true, hm, ok_bind]
    exact ⟨⟨r, h.c_size⟩, rfl, ⟨q1, q2⟩, q3.trans List.perm_append_comm, rfl⟩

end SoftHeap

namespace SoftHeap

theorem singleton_WellFormed (e : Element) : WellFormed (singleton e) := by
  refine ⟨?_, ?_⟩
  · intro t ht
    simp only [singleton, List.mem_singleton] at ht
    subst ht
    exact NodePtr.leaf_RootOK e
  · exact ⟨by simp [singleton], trivial⟩

theorem singleton_elems (e : Element) : forest_elems (singleton e).trees = [e] := by
  simp [singleton, forest_elems, NodePtr.leaf, NodePtr.elems]

theorem singleton_SizeOK (e : Element) : SizeOK (singleton e) := by
  unfold SizeOK
  rw [singleton_elems]
  rfl

theorem SizeOK_inc {h h1 : SoftHeap} {e : Element} (hs : SizeOK h)
    (hel : (forest_elems h1.trees).Perm (e :: forest_elems h.trees))
    (hc : h1.c_size = inc_size h.c_size) : SizeOK h1 := by
  unfold SizeOK inc_size at *
  rw [hc, hs, hel.length_eq, List.length_cons]
  omega

theorem SizeOK_dec {h h1 : SoftHeap} {e : Element} (hs : SizeOK h)
    (hel : (e :: forest_elems h1.trees).Perm (forest_elems h.trees))
    (hc : h1.c_size = dec_size h.c_size) : SizeOK h1 := by
  unfold SizeOK dec_size at *
  rw [hc, hs, ← hel.length_eq, List.length_cons]
  omega

theorem insert_all_spec (ie : Nat) : ∀ (es : List Element) (h : SoftHeap), WellFormed h →
    ∃ h1, es.foldlM (Insert ie) h = .ok h1 ∧ WellFormed h1 ∧
      (forest_elems h1.trees).Perm (es ++ forest_elems h.trees) ∧
      (SizeOK h → SizeOK h1) ∧ (StrictRanks h.trees → StrictRanks h1.trees) := by
  intro es
  induction es with
  | nil => intro h hw; exact ⟨h, rfl, hw, List.Perm.refl _, id, id⟩
  | cons e es ih =>
    intro h hw
    obtain ⟨h1, hi, hw1, hel1, hc1, hs1⟩ := Insert_spec ie h e hw
    obtain ⟨h2, hf, hw2, hel2, hc2, hs2⟩ := ih h1 hw1
    refine ⟨h2, ?_, hw2, ?_, fun hs => hc2 (SizeOK_inc hs hel1 hc1), fun hs => hs2 (hs1 hs)⟩
    · rw [List.foldlM_cons, hi]; exact hf
    · refine hel2.trans ((List.Perm.append_left es hel1).trans ?_)
      exact List.perm_middle

theorem of_range_spec (ie : Nat) (x : Element) (xs : List Element) :
    ∃ h, of_range ie (x :: xs) = .ok h ∧ WellFormed h ∧
      (forest_elems h.trees).Perm (x :: xs) ∧ SizeOK h ∧ StrictRanks h.trees := by
  obtain ⟨h, hf, hw, hel, hc, hs⟩ := insert_all_spec ie xs (singleton x) (singleton_WellFormed x)
  refine ⟨h, hf, hw, ?_, hc (singleton_SizeOK x), hs ?_⟩
  · rw [singleton_elems] at hel
    exact hel.trans List.perm_append_comm
  · simp [StrictRanks, forest_ranks, singleton]

theorem trees_nil_of_elems_nil {h : SoftHeap} (hw : WellFormed h)
    (he : forest_elems h.trees = []) : h.trees = [] := by
  cases ht : h.trees with
  | nil => rfl
  | cons t rest =>
    exfalso
    rw [ht] at he
    have hr := hw.1 t (by rw [ht]; simp)
    simp only [forest_elems, List.append_eq_nil] at he
    cases hx : t.root with
    | null => exact hr.1 hx
    | node es ck cp rk sz l r =>
      rw [hx] at hr he
      have := hr.2.1
      simp only [NodePtr.elems, List.append_eq_nil] at he
      exact this he.1.1

end SoftHeap

theorem drain_spec : ∀ (n : Nat) (h : SoftHeap), WellFormed h → SizeOK h →
    (forest_elems h.trees).length = n →
    ∃ out h1, drain n h = .ok (out, h1) ∧ out.Perm (forest_elems h.trees) ∧
      h1.trees = [] ∧ h1.c_size = 0 := by
  intro n
  induction n with
  | zero =>
    intro h hw hs hn
    have he : forest_elems h.trees = [] := List.eq_nil_of_length_eq_zero hn
    refine ⟨[], h, rfl, by rw [he], SoftHeap.trees_nil_of_elems_nil hw he, ?_⟩
    unfold SizeOK at hs
    rw [hs, he]; rfl
  | succ n ih =>
    intro h hw hs hn
    have hne : h.trees ≠ [] := by
      intro hh; rw [hh] at hn; simp [forest_elems] at hn
    obtain ⟨e, h1, hx, hw1, hel, hc, _⟩ := SoftHeap.ExtractMin_spec h hw hne
    have hn1 : (forest_elems h1.trees).length = n := by
      have := hel.length_eq
      simp only [List.length_cons] at this
      omega
    obtain ⟨out, h2, hd, hp, ht, hz⟩ := ih h1 hw1 (SoftHeap.SizeOK_dec hs hel hc) hn1
    refine ⟨e :: out, h2, ?_, (List.Perm.cons e hp).trans hel, ht, hz⟩
    rw [drain, hx, ok_bind]
    simp only [hd, ok_bind]
    rfl

theorem run_ops_spec (ie : Nat) : ∀ (ops : List Op) (h : SoftHeap) (n : Nat), WellFormed h →
    SizeOK h → (forest_elems h.trees).length = n → Feasible n ops →
    ∃ h1, run_ops ie h ops = .ok h1 ∧ WellFormed h1 ∧ SizeOK h1 ∧
      (forest_elems h1.trees).length + extracts ops = n + inserts ops := by
  intro ops
  induction ops with
  | nil => intro h n hw hs hn _; exact ⟨h, rfl, hw, hs, by simp [extracts, inserts, hn]⟩
  | cons op ops ih =>
    intro h n hw hs hn hf
    cases op with
    | Insert e =>
      obtain ⟨h1, hi, hw1, hel1, hc1, _⟩ := SoftHeap.Insert_spec ie h e hw
      have hn1 : (forest_elems h1.trees).length = n + 1 := by
        rw [hel1.length_eq, List.length_cons, hn]
      obtain ⟨h2, hr, hw2, hs2, hcount⟩ := ih h1 (n + 1) hw1 (SoftHeap.SizeOK_inc hs hel1 hc1) hn1 hf
      refine ⟨h2, ?_, hw2, hs2, ?_⟩
      · rw [run_ops, hi, ok_bind]; exact hr
      · simp only [extracts, inserts]; omega
    | ExtractMin =>
      obtain ⟨hpos, hf1⟩ := hf
      have hne : h.trees ≠ [] := by
        intro hh; rw [hh] at hn; simp [forest_elems] at hn; omega
      obtain ⟨e, h1, hx, hw1, hel, hc, _⟩ := SoftHeap.ExtractMin_spec h hw hne
      have hn1 : (forest_elems h1.trees).length = n - 1 := by
        have := hel.length_eq
        simp only [List.length_cons] at this
        omega
      obtain ⟨h2, hr, hw2, hs2, hcount⟩ := ih h1 (n - 1) hw1 (SoftHeap.SizeOK_dec hs hel hc) hn1 hf1
      refine ⟨h2, ?_, hw2, hs2, ?_⟩
      · rw [run_ops, hx, ok_bind]; exact hr
      · simp only [extracts, inserts]; omega

theorem run_ops_feasible (ie : Nat) : ∀ (ops : List Op) (h : SoftHeap) (n : Nat),
    WellFormed h → (forest_elems h.trees).length = n →
    (∃ h1, run_ops ie h ops = .ok h1) → Feasible n ops := by
  intro ops
  induction ops with
  | nil => intro h n _ _ _; trivial
  | cons op ops ih =>
    intro h n hw hn hrun
    obtain ⟨h2, hr⟩ := hrun
    cases op with
    | Insert e =>
      obtain ⟨h1, hi, hw1, hel1, _, _⟩ := SoftHeap.Insert_spec ie h e hw
      rw [run_ops, hi, ok_bind] at hr
      exact ih h1 (n + 1) hw1 (by rw [hel1.length_eq, List.length_cons, hn]) ⟨h2, hr⟩
    | ExtractMin =>
      by_cases hne : h.trees = []
      · exfalso
        have : SoftHeap.ExtractMin h = .error .undefined_behaviour := by
          unfold SoftHeap.ExtractMin
          rw [hne]
        rw [run_ops, this] at hr
        cases hr
      · obtain ⟨e, h1, hx, hw1, hel, _, _⟩ := SoftHeap.ExtractMin_spec h hw hne
        have hlen := hel.length_eq
        simp only [List.length_cons] at hlen
        rw [run_ops, hx, ok_bind] at hr
        exact ⟨by omega, ih h1 (n - 1) hw1 (by omega) ⟨h2, hr⟩⟩

theorem map_ok {α β : Type} (f : α → β) (a : α) :
    Except.map f (Except.ok a : Except Failure α) = Except.ok (f a) := rfl

theorem map_error {α β : Type} (f : α → β) (e : Failure) :
    Except.map f (Except.error e : Except Failure α) = Except.error e := rfl

namespace NodePtr

theorem SiftC_fst : ∀ (fuel : Nat) (x : NodePtr) (rep : List Element),
    (SiftC fuel x rep).map Prod.fst = Sift fuel x := by
  intro fuel
  induction fuel with
  | zero => intro x rep; rfl
  | succ fuel ih =>
    intro x rep
    cases x with
    | null => rfl
    | node es ck cp rk sz l r =>
      rw [SiftC, Sift]
      by_cases hc : es.length < sz ∧ ¬ (l = null ∧ r = null)
      · rw [if_pos hc, if_pos hc]
        cases hch : (if pick_right l r then r else l) with
        | null => rfl
        | node ces cck ccp crk csz cl cr =>
          simp only
          by_cases hleaf : cl = null ∧ cr = null
          · simp only [if_pos hleaf, pure_eq_ok, ok_bind]
            exact ih _ _
          · simp only [if_neg hleaf]
            have h1 := ih (node [] cck ccp crk csz cl cr) (rep ++ ces)
            cases h2 : SiftC fuel (node [] cck ccp crk csz cl cr) (rep ++ ces) with
            | error e =>
              rw [h2, map_error] at h1
              rw [← h1]
              rfl
            | ok p =>
              rw [h2, map_ok] at h1
              rw [← h1, ok_bind, ok_bind]
              exact ih _ _
      · rw [if_neg hc, if_neg hc]
        rfl

end NodePtr

namespace SoftHeap

theorem rebalanceC_fst (trees : List Tree) (k : Nat) (t : Tree) (es : List Element)
    (ck : Element) (cp : Bool) (rk sz : Nat) (l r : NodePtr) (rep : List Element) :
    (rebalanceC trees k t es ck cp rk sz l r rep).map Prod.fst =
      rebalance trees k t es ck cp rk sz l r := by
  unfold rebalanceC rebalance
  simp only
  by_cases h2 : 2 * es.length < sz
  · simp only [if_pos h2]
    by_cases hleaf : l = .null ∧ r = .null
    · simp only [if_neg (not_not.2 hleaf)]
      by_cases he : es = []
      · simp only [if_pos he]
        by_cases hk : k ≠ 0
        · simp only [if_pos hk]
          cases UpdateSuffixMin (trees.eraseIdx k) (k - 1) <;> rfl
        · simp only [if_neg hk]; rfl
      · simp only [if_neg he]; rfl
    · simp only [if_pos hleaf]
      have h1 := NodePtr.SiftC_fst ((NodePtr.node es ck cp rk sz l r).count + 1)
        (NodePtr.node es ck cp rk sz l r) rep
      cases h3 : NodePtr.SiftC ((NodePtr.node es ck cp rk sz l r).count + 1)
          (NodePtr.node es ck cp rk sz l r) rep with
      | error e =>
        rw [h3, map_error] at h1
        rw [← h1]; rfl
      | ok p =>
        rw [h3, map_ok] at h1
        rw [← h1, ok_bind, ok_bind]
        cases UpdateSuffixMin (trees.set k { t with root := p.1 }) k <;> rfl
  · simp only [if_neg h2]; rfl

end SoftHeap

theorem NoEmptyHeapError_bind {α β : Type} {x : Except Failure α} {f : α → Except Failure β}
    (hx : NoEmptyHeapError x) (hf : ∀ a, NoEmptyHeapError (f a)) : NoEmptyHeapError (x >>= f) := by
  cases x with
  | error e =>
    rw [error_bind]
    intro h
    apply hx
    cases h
    rfl
  | ok a => rw [ok_bind]; exact hf a

theorem NoEmptyHeapError_ok {α : Type} (a : α) :
    NoEmptyHeapError (Except.ok a : Except Failure α) := by
  intro h; cases h

theorem NoEmptyHeapError_ub {α : Type} :
    NoEmptyHeapError (Except.error Failure.undefined_behaviour : Except Failure α) := by
  intro h; cases h

theorem NoEmptyHeapError_of_map {α β : Type} {x : Except Failure α} {f : α → β}
    (h : NoEmptyHeapError (x.map f)) : NoEmptyHeapError x := by
  intro hx
  apply h
  rw [hx]
  rfl

namespace NodePtr

theorem Sift_NoEmptyHeapError : ∀ (fuel : Nat) (x : NodePtr), NoEmptyHeapError (Sift fuel x) := by
  intro fuel
  induction fuel with
  | zero => intro x h; cases h
  | succ fuel ih =>
    intro x
    cases x with
    | null => intro h; cases h
    | node es ck cp rk sz l r =>
      by_cases hc : es.length < sz ∧ ¬ (l = null ∧ r = null)
      · cases hch : (if pick_right l r then r else l) with
        | null =>
          rw [Sift, if_pos hc]
          simp only [hch]
          exact NoEmptyHeapError_ub
        | node ces cck ccp crk csz cl cr =>
          rw [Sift_succ_node fuel es ck cp rk sz l r ces cck ccp crk csz cl cr hc hch]
          refine NoEmptyHeapError_bind ?_ (fun c => ih _)
          split
          · exact NoEmptyHeapError_ok _
          · exact ih _
      · rw [Sift, if_neg hc]
        exact NoEmptyHeapError_ok _

end NodePtr

theorem Tree.ckey_NoEmptyHeapError (t : Tree) : NoEmptyHeapError t.ckey := by
  unfold Tree.ckey
  split
  · exact NoEmptyHeapError_ub
  · exact NoEmptyHeapError_ok _

theorem deref_NoEmptyHeapError (trees : List Tree) (a : Nat) : NoEmptyHeapError (deref trees a) := by
  unfold deref
  split
  · exact NoEmptyHeapError_ub
  · exact NoEmptyHeapError_ok _

theorem UpdateSuffixMin_at_NoEmptyHeapError (trees : List Tree) (i : Nat) :
    NoEmptyHeapError (UpdateSuffixMin_at trees i) := by
  unfold UpdateSuffixMin_at
  split
  · exact NoEmptyHeapError_ub
  · split
    · exact NoEmptyHeapError_ok _
    · refine NoEmptyHeapError_bind (deref_NoEmptyHeapError _ _) (fun m => ?_)
      refine NoEmptyHeapError_bind (Tree.ckey_NoEmptyHeapError _) (fun mk => ?_)
      exact NoEmptyHeapError_bind (Tree.ckey_NoEmptyHeapError _) (fun tk => NoEmptyHeapError_ok _)

theorem UpdateSuffixMin_NoEmptyHeapError : ∀ (i : Nat) (trees : List Tree),
    NoEmptyHeapError (UpdateSuffixMin trees i) := by
  intro i
  induction i with
  | zero => intro trees; exact UpdateSuffixMin_at_NoEmptyHeapError trees 0
  | succ i ih =>
    intro trees
    rw [UpdateSuffixMin]
    exact NoEmptyHeapError_bind (UpdateSuffixMin_at_NoEmptyHeapError _ _) (fun ts => ih ts)

namespace SoftHeap

theorem rebalance_NoEmptyHeapError (trees : List Tree) (k : Nat) (t : Tree) (es : List Element)
    (ck : Element) (cp : Bool) (rk sz : Nat) (l r : NodePtr) :
    NoEmptyHeapError (rebalance trees k t es ck cp rk sz l r) := by
  unfold rebalance
  simp only
  split
  · split
    · exact NoEmptyHeapError_bind (NodePtr.Sift_NoEmptyHeapError _ _)
        (fun x1 => UpdateSuffixMin_NoEmptyHeapError _ _)
    · split
      · split
        · exact UpdateSuffixMin_NoEmptyHeapError _ _
        · exact NoEmptyHeapError_ok _
      · exact NoEmptyHeapError_ok _
  · exact NoEmptyHeapError_ok _

theorem ExtractMin_NoEmptyHeapError (h : SoftHeap) : NoEmptyHeapError (ExtractMin h) := by
  unfold ExtractMin
  split
  · exact NoEmptyHeapError_ub
  · split
    · exact NoEmptyHeapError_ub
    · split
      · exact NoEmptyHeapError_ub
      · split
        · exact NoEmptyHeapError_ub
        · split
          · exact NoEmptyHeapError_ub
          · exact NoEmptyHeapError_bind (rebalance_NoEmptyHeapError _ _ _ _ _ _ _ _ _ _)
              (fun ts => NoEmptyHeapError_ok _)

theorem ExtractMinC_NoEmptyHeapError (h : SoftHeap) : NoEmptyHeapError (ExtractMinC h) := by
  unfold ExtractMinC
  split
  · exact NoEmptyHeapError_ub
  · split
    · exact NoEmptyHeapError_ub
    · split
      · exact NoEmptyHeapError_ub
      · split
        · exact NoEmptyHeapError_ub
        · split
          · exact NoEmptyHeapError_ub
          · refine NoEmptyHeapError_bind (NoEmptyHeapError_of_map (f := Prod.fst) ?_)
              (fun ts => NoEmptyHeapError_ok _)
            rw [rebalanceC_fst]
            exact rebalance_NoEmptyHeapError _ _ _ _ _ _ _ _ _ _

theorem ExtractMinC_spec (h : SoftHeap) (hw : WellFormed h) (hne : h.trees ≠ []) :
    ∃ e rep h1, ExtractMinC h = .ok ((e, rep), h1) ∧ WellFormed h1 ∧
      (e :: forest_elems h1.trees).Perm (forest_elems h.trees) ∧
      h1.c_size = h.c_size ∧ ∃ h2, ExtractMin h = .ok (e, h2) := by
  obtain ⟨e0, h0, hex, _⟩ := ExtractMin_spec h hw hne
  have hex0 := hex
  obtain ⟨trees, c⟩ := h
  obtain ⟨hr, hp⟩ := hw
  simp only at hr hp hne
  cases htrees : trees with
  | nil => exact absurd htrees hne
  | cons front rest =>
    rw [← htrees]
    have hfm : front.min_ckey ∈ trees.map Tree.addr := by
      have hp1 : PtrOK (front :: rest) := htrees ▸ hp
      rw [htrees]; exact hp1.1
    unfold ExtractMin at hex
    unfold ExtractMinC
    simp only at hex ⊢
    rw [htrees] at hex ⊢
    simp only at hex ⊢
    rw [← htrees] at hex ⊢
    cases hfi : trees.findIdx? (fun t => decide (t.addr = front.min_ckey)) with
    | none =>
      exfalso
      obtain ⟨s, hs, hsa⟩ := List.mem_map.1 hfm
      have := List.findIdx?_eq_none_iff.1 hfi s hs
      simp [hsa] at this
    | some k =>
      obtain ⟨hk, _, _⟩ := List.findIdx?_eq_some_iff_getElem.1 hfi
      have hget : trees[k]? = some trees[k] := List.getElem?_eq_getElem hk
      have hsplit : trees = trees.take k ++ trees[k] :: trees.drop (k + 1) := by simp
      have hlen : (trees.take k).length = k := by simp; omega
      rw [hfi] at hex
      simp only [hget] at hex ⊢
      have hroot := hr trees[k] (List.getElem_mem hk)
      cases hx : trees[k].root with
      | null => exact absurd hx hroot.1
      | node es0 ck cp rk sz l r =>
        rw [hx] at hex
        simp only at hex ⊢
        rw [hx] at hroot
        have hes : es0 ≠ [] := hroot.2.1
        obtain ⟨es, e, rfl⟩ : ∃ es e, es0 = es ++ [e] :=
          ⟨es0.dropLast, es0.getLast hes, (List.dropLast_concat_getLast hes).symm⟩
        simp only [List.getLast?_concat, List.dropLast_concat] at hex ⊢
        have hr2 : RootsOK (trees.take k) ∧ RootsOK (trees.drop (k + 1)) := by
          rw [hsplit] at hr
          have := RootsOK_append.1 hr
          exact ⟨this.1, (RootsOK_cons.1 this.2).2⟩
        obtain ⟨ts, hts, p1, p2, p3, _⟩ := rebalance_spec (trees.take k) (trees.drop (k + 1))
          trees[k] es ck (if decide (e = ck) then false else cp) rk sz l r hr2
          (by rw [← hsplit]; exact hp) ⟨hroot.2.2.1, hroot.2.2.2.1, hroot.2.2.2.2⟩
        rw [← hsplit, hlen] at hts
        have hfst := rebalanceC_fst trees k trees[k] es ck (if decide (e = ck) then false else cp)
          rk sz l r (if decide (e = ck) then [e] else [])
        rw [hts] at hfst
        cases hc : rebalanceC trees k trees[k] es ck (if decide (e = ck) then false else cp)
          rk sz l r (if decide (e = ck) then [e] else []) with
        | error err => rw [hc, map_error] at hfst; cases hfst
        | ok p =>
          rw [hc, map_ok] at hfst
          have hp1 : p.1 = ts := by cases hfst; rfl
          rw [ok_bind]
          refine ⟨e, p.2, ⟨p.1, c⟩, rfl, ?_, ?_, rfl, ?_⟩
          · rw [hp1]; exact ⟨p1, p2⟩
          · simp only
            rw [hp1]
            have e1 : forest_elems trees = forest_elems (trees.take k) ++
                ((NodePtr.node (es ++ [e]) ck cp rk sz l r).elems ++
                  forest_elems (trees.drop (k + 1))) := by
              conv_lhs => rw [hsplit]
              rw [forest_elems_append, forest_elems, hx]
            rw [e1]
            refine (List.Perm.cons e p3).trans ?_
            refine List.perm_middle.symm.trans (List.Perm.append_left _ ?_)
            have hX : (e :: (NodePtr.node es ck (if decide (e = ck) then false else cp)
                rk sz l r).elems).Perm (NodePtr.node (es ++ [e]) ck cp rk sz l r).elems := by
              simp only [NodePtr.elems, List.append_assoc, List.singleton_append]
              exact List.perm_middle.symm
            exact List.Perm.append_right _ hX
          · cases hrb : rebalance trees k trees[k] es ck cp rk sz l r with
            | error err => rw [hrb] at hex; cases hex
            | ok ts0 =>
              rw [hrb, ok_bind] at hex
              cases hex
              exact ⟨_, hex0⟩

end SoftHeap

theorem empty_WellFormed : WellFormed SoftHeap.empty :=
  ⟨fun t ht => by simp [SoftHeap.empty] at ht, trivial⟩

/-- C1 (drain completeness).  For every non-empty sequence `xs`, the heap built from `xs`
(by the range constructor, or by `Insert` calls on the empty heap) exists, `xs.length`
successive `ExtractMin` calls all return, the heap ends with `Size = 0` and an empty tree
sequence, and the multiset of the returned elements is the multiset of `xs`. -/
theorem drain_completeness (inverse_epsilon : Nat) (xs : List Element) (hn : 1 ≤ xs.length) :
    (∃ h out h1, SoftHeap.of_range inverse_epsilon xs = .ok h ∧
      drain xs.length h = .ok (out, h1) ∧ h1.size = 0 ∧ h1.trees = [] ∧
      (out : Multiset Element) = (xs : Multiset Element)) ∧
    (∃ h out h1, xs.foldlM (SoftHeap.Insert inverse_epsilon) SoftHeap.empty = .ok h ∧
      drain xs.length h = .ok (out, h1) ∧ h1.size = 0 ∧ h1.trees = [] ∧
      (out : Multiset Element) = (xs : Multiset Element)) := by
  constructor
  · cases xs with
    | nil => simp at hn
    | cons x xs =>
      obtain ⟨h, hb, hw, hel, hs, _⟩ := SoftHeap.of_range_spec inverse_epsilon x xs
      obtain ⟨out, h1, hd, hp, ht, hz⟩ := drain_spec (x :: xs).length h hw hs hel.length_eq
      exact ⟨h, out, h1, hb, hd, hz, ht, Multiset.coe_eq_coe.2 (hp.trans hel)⟩
  · obtain ⟨h, hb, hw, hel, hs, _⟩ :=
      SoftHeap.insert_all_spec inverse_epsilon xs SoftHeap.empty empty_WellFormed
    have hel1 : (forest_elems h.trees).Perm xs := by
      simpa [SoftHeap.empty, forest_elems] using hel
    obtain ⟨out, h1, hd, hp, ht, hz⟩ := drain_spec xs.length h hw (hs rfl) hel1.length_eq
    exact ⟨h, out, h1, hb, hd, hz, ht, Multiset.coe_eq_coe.2 (hp.trans hel1)⟩

/-- Witness of C1 at `inverse_epsilon = 8` and the elements 5, 3, 8, 1, 9, 2. -/
theorem drain_completeness_witness :
    1 ≤ [5, 3, 8, 1, 9, 2].length ∧
    (∃ h out h1, SoftHeap.of_range 8 [5, 3, 8, 1, 9, 2] = .ok h ∧
      drain [5, 3, 8, 1, 9, 2].length h = .ok (out, h1) ∧ h1.size = 0 ∧ h1.trees = [] ∧
      (out : Multiset Element) = (([5, 3, 8, 1, 9, 2] : List Element) : Multiset Element)) :=
  ⟨by decide, (drain_completeness 8 [5, 3, 8, 1, 9, 2] (by decide)).1⟩

/-- C2 (suffix-min after Insert), failing input.  The heap built from 1, 2 has one tree, of
rank 1 and root `ckey` 1, with a correct `min_ckey`.  `Insert 10` finds no rank-0 tree,
puts the new leaf in front and sets its `min_ckey` to itself: afterwards the front tree's
`min_ckey` designates the new leaf (root `ckey` 10) although the tree to its right has
root `ckey` 1, so suffix-min correctness fails at the front. -/
theorem insert_prepend_suffix_min :
    ∃ h h1, SoftHeap.of_range 8 [1, 2] = .ok h ∧ SuffixMinOK h.trees ∧
      StrictRanks h.trees ∧ SoftHeap.Insert 8 h 10 = .ok h1 ∧
      h1.trees.map (fun t => (t.addr, t.min_ckey, t.root.ck, t.root.rk)) =
        [(2, 2, 10, 0), (1, 1, 1, 1)] ∧
      ¬ SuffixMinOK h1.trees := by
  refine ⟨⟨[⟨1, .node [1] 1 true 1 1 .null (.node [2] 2 true 0 1 .null .null), 1⟩], 2⟩,
    ⟨[⟨2, .node [10] 10 true 0 1 .null .null, 2⟩,
      ⟨1, .node [1] 1 true 1 1 .null (.node [2] 2 true 0 1 .null .null), 1⟩], 3⟩,
    rfl, ?_, ?_, rfl, rfl, ?_⟩
  · decide
  · decide
  · decide

/-- C3 (rank uniqueness after Meld), failing input.  The heap built from 1, 2, 3 has
ranks 0, 1 and the heap built from 4, ..., 10 has ranks 0, 1, 2, both strictly increasing.
After `Meld` the receiver has ranks 2, 1, 2: the carry loop fuses the first two of three
adjacent rank-1 trees and stops at once, the new rank 2 exceeding `p_rank = 1`. -/
theorem meld_rank_order :
    ∃ a b r, SoftHeap.of_range 8 [1, 2, 3] = .ok a ∧
      SoftHeap.of_range 8 [4, 5, 6, 7, 8, 9, 10] = .ok b ∧
      forest_ranks a.trees = [0, 1] ∧ forest_ranks b.trees = [0, 1, 2] ∧
      StrictRanks a.trees ∧ StrictRanks b.trees ∧
      SoftHeap.Meld 8 a (relocate 100 b) = .ok r ∧
      forest_ranks r.1.trees = [2, 1, 2] ∧ ¬ StrictRanks r.1.trees ∧
      ¬ (forest_ranks r.1.trees).Nodup := by
  obtain ⟨a, ha⟩ : ∃ a, SoftHeap.of_range 8 [1, 2, 3] = .ok a := ⟨_, rfl⟩
  obtain ⟨b, hb⟩ : ∃ b, SoftHeap.of_range 8 [4, 5, 6, 7, 8, 9, 10] = .ok b := ⟨_, rfl⟩
  obtain ⟨r, hr⟩ : ∃ r, SoftHeap.Meld 8 a (relocate 100 b) = .ok r := by
    cases ha; cases hb; exact ⟨_, rfl⟩
  have h1 : forest_ranks a.trees = [0, 1] := by cases ha; rfl
  have h2 : forest_ranks b.trees = [0, 1, 2] := by cases hb; rfl
  have h3 : forest_ranks r.1.trees = [2, 1, 2] := by cases ha; cases hb; cases hr; rfl
  refine ⟨a, b, r, ha, hb, h1, h2, ?_, ?_, hr, h3, ?_, ?_⟩
  · unfold StrictRanks; rw [h1]; decide
  · unfold StrictRanks; rw [h2]; decide
  · unfold StrictRanks; rw [h3]; decide
  · rw [h3]; decide

theorem Nodup_of_StrictRanks {trees : List Tree} (h : StrictRanks trees) :
    (forest_ranks trees).Nodup :=
  List.Pairwise.imp (fun hab => Nat.ne_of_lt hab) h

/-- C4 (rank order under Insert and ExtractMin).  For a well-formed heap whose tree ranks
are strictly increasing from front to back, `Insert e` returns for every `e` and
`ExtractMin` returns when the heap has a tree, and in both results the tree ranks are
strictly increasing, so no two trees share a rank. -/
theorem rank_order_preserved (inverse_epsilon : Nat) (h : SoftHeap) (hw : WellFormed h)
    (hs : StrictRanks h.trees) :
    (∀ e, ∃ h1, SoftHeap.Insert inverse_epsilon h e = .ok h1 ∧ StrictRanks h1.trees ∧
      (forest_ranks h1.trees).Nodup) ∧
    (h.trees ≠ [] → ∃ e h1, SoftHeap.ExtractMin h = .ok (e, h1) ∧ StrictRanks h1.trees ∧
      (forest_ranks h1.trees).Nodup) := by
  constructor
  · intro e
    obtain ⟨h1, hi, _, _, _, hs1⟩ := SoftHeap.Insert_spec inverse_epsilon h e hw
    exact ⟨h1, hi, hs1 hs, Nodup_of_StrictRanks (hs1 hs)⟩
  · intro hne
    obtain ⟨e, h1, hx, _, _, _, hs1⟩ := SoftHeap.ExtractMin_spec h hw hne
    exact ⟨e, h1, hx, hs1 hs, Nodup_of_StrictRanks (hs1 hs)⟩

/-- Witness of C4 at the heap holding the single element 5. -/
theorem rank_order_preserved_witness :
    WellFormed (SoftHeap.singleton 5) ∧ StrictRanks (SoftHeap.singleton 5).trees ∧
    (∀ e, ∃ h1, SoftHeap.Insert 8 (SoftHeap.singleton 5) e = .ok h1 ∧ StrictRanks h1.trees ∧
      (forest_ranks h1.trees).Nodup) ∧
    ((SoftHeap.singleton 5).trees ≠ [] →
      ∃ e h1, SoftHeap.ExtractMin (SoftHeap.singleton 5) = .ok (e, h1) ∧
        StrictRanks h1.trees ∧ (forest_ranks h1.trees).Nodup) :=
  ⟨by decide, by decide,
    rank_order_preserved 8 (SoftHeap.singleton 5) (by decide) (by decide)⟩

/-- C5 (size bookkeeping for Insert and ExtractMin).  From the heap of one element, every
sequence of calls in which each `ExtractMin` finds the heap holding an element returns,
with `j ≤ 1 + i` and `Size = 1 + i - j` as a 64-bit `size_t`, hence exactly `1 + i - j`
whenever that number fits a `size_t`; no other sequence of calls returns; a heap built
from a range of `n` elements has `Size = n` in the same sense. -/
theorem size_bookkeeping (inverse_epsilon : Nat) :
    (∀ (e : Element) (ops : List Op), Feasible 1 ops →
      ∃ h, run_ops inverse_epsilon (SoftHeap.singleton e) ops = .ok h ∧
        extracts ops ≤ 1 + inserts ops ∧
        h.size = (1 + inserts ops - extracts ops) % 2 ^ 64 ∧
        (1 + inserts ops - extracts ops < 2 ^ 64 →
          h.size = 1 + inserts ops - extracts ops)) ∧
    (∀ (e : Element) (ops : List Op),
      (∃ h, run_ops inverse_epsilon (SoftHeap.singleton e) ops = .ok h) → Feasible 1 ops) ∧
    (∀ (x : Element) (xs : List Element),
      ∃ h, SoftHeap.of_range inverse_epsilon (x :: xs) = .ok h ∧
        h.size = (xs.length + 1) % 2 ^ 64 ∧
        (xs.length + 1 < 2 ^ 64 → h.size = xs.length + 1)) := by
  constructor
  · intro e ops hf
    obtain ⟨h, hr, _, hs, hc⟩ := run_ops_spec inverse_epsilon ops (SoftHeap.singleton e) 1
      (SoftHeap.singleton_WellFormed e) (SoftHeap.singleton_SizeOK e)
      (by rw [SoftHeap.singleton_elems]; rfl) hf
    have hlen : (forest_elems h.trees).length = 1 + inserts ops - extracts ops := by omega
    have hsz : h.size = (1 + inserts ops - extracts ops) % 2 ^ 64 := by
      rw [← hlen]; exact hs
    exact ⟨h, hr, by omega, hsz, fun hlt => by rw [hsz]; exact Nat.mod_eq_of_lt hlt⟩
  · constructor
    · intro e ops hrun
      exact run_ops_feasible inverse_epsilon ops (SoftHeap.singleton e) 1
        (SoftHeap.singleton_WellFormed e) (by rw [SoftHeap.singleton_elems]; rfl) hrun
    · intro x xs
      obtain ⟨h, hb, _, hel, hs, _⟩ := SoftHeap.of_range_spec inverse_epsilon x xs
      have hsz : h.size = (xs.length + 1) % 2 ^ 64 := by
        have := hel.length_eq
        rw [List.length_cons] at this
        rw [← this]; exact hs
      exact ⟨h, hb, hsz, fun hlt => by rw [hsz]; exact Nat.mod_eq_of_lt hlt⟩

/-- Witness of C5: from the heap of 5, the calls `Insert 3`, `ExtractMin`, `ExtractMin`. -/
theorem size_bookkeeping_witness :
    Feasible 1 [Op.Insert 3, Op.ExtractMin, Op.ExtractMin] ∧
    ∃ h, run_ops 8 (SoftHeap.singleton 5) [Op.Insert 3, Op.ExtractMin, Op.ExtractMin] = .ok h ∧
      extracts [Op.Insert 3, Op.ExtractMin, Op.ExtractMin] ≤
        1 + inserts [Op.Insert 3, Op.ExtractMin, Op.ExtractMin] ∧
      h.size = (1 + inserts [Op.Insert 3, Op.ExtractMin, Op.ExtractMin] -
        extracts [Op.Insert 3, Op.ExtractMin, Op.ExtractMin]) % 2 ^ 64 ∧
      (1 + inserts [Op.Insert 3, Op.ExtractMin, Op.ExtractMin] -
          extracts [Op.Insert 3, Op.ExtractMin, Op.ExtractMin] < 2 ^ 64 →
        h.size = 1 + inserts [Op.Insert 3, Op.ExtractMin, Op.ExtractMin] -
          extracts [Op.Insert 3, Op.ExtractMin, Op.ExtractMin]) :=
  ⟨by decide, (size_bookkeeping 8).1 5 [Op.Insert 3, Op.ExtractMin, Op.ExtractMin]
    (by decide)⟩

/-- C6 (size bookkeeping for Meld), failing input.  Melding the heap of 2 into the heap
of 1 leaves a receiver that holds both elements while its `Size` is still 1: `Meld` does
not write `c_size`. -/
theorem meld_size_unchanged :
    (SoftHeap.Meld 8 (SoftHeap.singleton 1) (relocate 100 (SoftHeap.singleton 2))).map
        (fun p => (p.1.size, forest_elems p.1.trees)) = .ok (1, [1, 2]) ∧
      (SoftHeap.singleton 1).size + (relocate 100 (SoftHeap.singleton 2)).size = 2 :=
  ⟨rfl, rfl⟩

/-- C7 (size bookkeeping for ExtractMinC), failing input.  On the heap of 5, `ExtractMinC`
returns 5 and leaves no tree, and `Size` is still 1, while `ExtractMin` on the same heap
leaves `Size = 0`: `ExtractMinC` does not write `c_size`. -/
theorem extract_min_c_size_unchanged :
    (SoftHeap.ExtractMinC (SoftHeap.singleton 5)).map (fun p => (p.1.1, p.2.trees, p.2.size)) =
        .ok (5, [], 1) ∧
      (SoftHeap.ExtractMin (SoftHeap.singleton 5)).map (fun p => (p.1, p.2.trees, p.2.size)) =
        .ok (5, [], 0) ∧
      (SoftHeap.singleton 5).size = 1 :=
  ⟨rfl, rfl, rfl⟩

/-- C8, counterexample.  On the empty heap neither `ExtractMin` nor `ExtractMinC` fails
with `EmptyHeapError`: both read `trees.front()` of an empty list. -/
theorem extract_min_empty_not_error :
    SoftHeap.ExtractMin SoftHeap.empty ≠ .error .EmptyHeapError ∧
    SoftHeap.ExtractMinC SoftHeap.empty ≠ .error .EmptyHeapError ∧
    SoftHeap.ExtractMin SoftHeap.empty = .error .undefined_behaviour ∧
    SoftHeap.ExtractMinC SoftHeap.empty = .error .undefined_behaviour := by
  refine ⟨?_, ?_, rfl, rfl⟩
  · intro h; cases h
  · intro h; cases h

/-- C8, amended.  `ExtractMin` and `ExtractMinC` never fail with `EmptyHeapError`; on a heap
with no trees their behaviour is undefined, whatever the counter; on a well-formed heap
with at least one tree both return. -/
theorem extract_min_failure :
    (∀ h : SoftHeap, SoftHeap.ExtractMin h ≠ .error .EmptyHeapError ∧
      SoftHeap.ExtractMinC h ≠ .error .EmptyHeapError) ∧
    (∀ c : Nat, SoftHeap.ExtractMin ⟨[], c⟩ = .error .undefined_behaviour ∧
      SoftHeap.ExtractMinC ⟨[], c⟩ = .error .undefined_behaviour) ∧
    (∀ h : SoftHeap, WellFormed h → h.trees ≠ [] →
      (∃ r, SoftHeap.ExtractMin h = .ok r) ∧ ∃ r, SoftHeap.ExtractMinC h = .ok r) := by
  refine ⟨fun h => ⟨SoftHeap.ExtractMin_NoEmptyHeapError h, SoftHeap.ExtractMinC_NoEmptyHeapError h⟩,
    fun c => ⟨rfl, rfl⟩, fun h hw hne => ?_⟩
  obtain ⟨e, rep, h1, hc, _, _, _, h2, hx⟩ := SoftHeap.ExtractMinC_spec h hw hne
  exact ⟨⟨_, hx⟩, ⟨_, hc⟩⟩

/-- Witness of the amended C8 at the heap holding the single element 5. -/
theorem extract_min_failure_witness :
    WellFormed (SoftHeap.singleton 5) ∧ (SoftHeap.singleton 5).trees ≠ [] ∧
    (∃ r, SoftHeap.ExtractMin (SoftHeap.singleton 5) = .ok r) ∧
    ∃ r, SoftHeap.ExtractMinC (SoftHeap.singleton 5) = .ok r :=
  ⟨by decide, by decide,
    extract_min_failure.2.2 (SoftHeap.singleton 5) (by decide) (by decide)⟩

/-- C9 (Meld identity), failing input.  `Meld` with an argument that has no trees does not
complete, whatever the receiver: `P.rank()` reads `P.trees.back()` of an empty list. -/
theorem meld_empty_argument (inverse_epsilon : Nat) (h : SoftHeap) (c : Nat) :
    SoftHeap.Meld inverse_epsilon h ⟨[], c⟩ = .error .undefined_behaviour := by
  unfold SoftHeap.Meld SoftHeap.meld_swap
  by_cases hl : h.trees.length ≠ 0
  · rw [if_pos hl]; rfl
  · rw [if_neg hl]
    have : h.trees = [] := List.eq_nil_of_length_eq_zero (not_not.1 hl)
    rw [this]
    rfl

/-- C10 (Meld loses and duplicates no element).  For two well-formed heaps, the argument
having at least one tree (the receiver may have none), `Meld` returns, and the multiset of
the elements held by the receiver afterwards is the sum of the multisets held by the two
heaps before, whichever of them has the larger rank. -/
theorem meld_keeps_elements (inverse_epsilon : Nat) (h P : SoftHeap) (hw : WellFormed h)
    (hP : WellFormed P) (hPne : P.trees ≠ []) :
    ∃ h1 P1, SoftHeap.Meld inverse_epsilon h P = .ok (h1, P1) ∧
      (forest_elems h1.trees : Multiset Element) =
        (forest_elems h.trees : Multiset Element) + (forest_elems P.trees : Multiset Element) := by
  obtain ⟨h1, hm, _, hel, _⟩ := SoftHeap.Meld_spec inverse_epsilon h P hw hP hPne
  refine ⟨h1, _, hm, ?_⟩
  rw [Multiset.coe_add]
  exact Multiset.coe_eq_coe.2 hel

/-- Witness of C10: the heap of 1 melded with the heap of 4 placed elsewhere. -/
theorem meld_keeps_elements_witness :
    WellFormed (SoftHeap.singleton 1) ∧ WellFormed (relocate 100 (SoftHeap.singleton 4)) ∧
    (relocate 100 (SoftHeap.singleton 4)).trees ≠ [] ∧
    ∃ h1 P1, SoftHeap.Meld 8 (SoftHeap.singleton 1) (relocate 100 (SoftHeap.singleton 4)) =
        .ok (h1, P1) ∧
      (forest_elems h1.trees : Multiset Element) =
        (forest_elems (SoftHeap.singleton 1).trees : Multiset Element) +
          (forest_elems (relocate 100 (SoftHeap.singleton 4)).trees : Multiset Element) :=
  ⟨by decide, by decide, by decide,
    meld_keeps_elements 8 (SoftHeap.singleton 1) (relocate 100 (SoftHeap.singleton 4))
      (by decide) (by decide) (by decide)⟩

/-- C11 (Meld consumes its argument), failing input.  After melding the heap of 2 into the
heap of 1, and after melding the heap built from 4, 5 (whose rank is larger, so that the
lists are swapped) into the heap of 1, the argument has no trees, but its `Size` is what it
was before the call, 1 and 2: `Meld` does not write the argument's `c_size`. -/
theorem meld_argument_size :
    (SoftHeap.Meld 8 (SoftHeap.singleton 1) (relocate 100 (SoftHeap.singleton 2))).map
        (fun p => (p.2.trees, p.2.size)) = .ok ([], 1) ∧
    (SoftHeap.of_range 8 [4, 5] >>= fun b =>
      (SoftHeap.Meld 8 (SoftHeap.singleton 1) (relocate 100 b)).map
        (fun p => (forest_ranks p.1.trees, p.2.trees, p.2.size))) = .ok ([0, 1], [], 2) :=
  ⟨rfl, rfl⟩

/-- C13 (suffix-min after Meld), failing input.  The heap built from 101, 102, 100 (ranks
0, 1) and the heap built from 9, 10, 7, 8, 5, 6, 4 (ranks 0, 1, 2) both have strictly
increasing ranks and correct `min_ckey` iterators.  After `Meld` the receiver has ranks
2, 1, 2 and root keys 4, 101, 7; the loop returned at the front, so the middle tree still
designates itself although the tree to its right has the smaller root `ckey` 7. -/
theorem meld_suffix_min :
    ∃ a b r, SoftHeap.of_range 8 [101, 102, 100] = .ok a ∧
      SoftHeap.of_range 8 [9, 10, 7, 8, 5, 6, 4] = .ok b ∧
      StrictRanks a.trees ∧ StrictRanks (relocate 100 b).trees ∧
      SuffixMinOK a.trees ∧ SuffixMinOK (relocate 100 b).trees ∧
      SoftHeap.Meld 8 a (relocate 100 b) = .ok r ∧
      r.1.trees.map (fun t => (t.addr, t.min_ckey, t.root.ck, t.root.rk)) =
        [(104, 104, 4, 2), (1, 1, 101, 1), (102, 102, 7, 2)] ∧
      ¬ SuffixMinOK r.1.trees := by
  obtain ⟨a, ha⟩ : ∃ a, SoftHeap.of_range 8 [101, 102, 100] = .ok a := ⟨_, rfl⟩
  obtain ⟨b, hb⟩ : ∃ b, SoftHeap.of_range 8 [9, 10, 7, 8, 5, 6, 4] = .ok b := ⟨_, rfl⟩
  obtain ⟨r, hr⟩ : ∃ r, SoftHeap.Meld 8 a (relocate 100 b) = .ok r := by
    cases ha; cases hb; exact ⟨_, rfl⟩
  refine ⟨a, b, r, ha, hb, ?_, ?_, ?_, ?_, hr, ?_, ?_⟩
  · cases ha; decide
  · cases hb; decide
  · cases ha; decide
  · cases hb; decide
  · cases ha; cases hb; cases hr; rfl
  · cases ha; cases hb; cases hr; decide

/-- C14 (concrete scenario).  With `inverse_epsilon = 8`, after inserting 5, 3, 8, 1, 9, 2
in that order (by the range constructor, or by `Insert` calls on the empty heap) the first
`ExtractMin` returns 1, and six successive `ExtractMin` calls return 1, 2, 3, 5, 8, 9,
whose multiset is `{1, 2, 3, 5, 8, 9}`, and leave no tree. -/
theorem concrete_scenario :
    (SoftHeap.of_range 8 [5, 3, 8, 1, 9, 2] >>= fun h =>
      (SoftHeap.ExtractMin h).map (fun p => p.1)) = .ok 1 ∧
    (SoftHeap.of_range 8 [5, 3, 8, 1, 9, 2] >>= fun h =>
      (drain 6 h).map (fun p => (p.1, p.2.trees))) = .ok ([1, 2, 3, 5, 8, 9], []) ∧
    (([5, 3, 8, 1, 9, 2] : List Element).foldlM (SoftHeap.Insert 8) SoftHeap.empty >>= fun h =>
      (SoftHeap.ExtractMin h).map (fun p => p.1)) = .ok 1 ∧
    (([5, 3, 8, 1, 9, 2] : List Element).foldlM (SoftHeap.Insert 8) SoftHeap.empty >>= fun h =>
      (drain 6 h).map (fun p => (p.1, p.2.trees))) = .ok ([1, 2, 3, 5, 8, 9], []) ∧
    (([1, 2, 3, 5, 8, 9] : List Element) : Multiset Element) = {1, 2, 3, 5, 8, 9} :=
  ⟨rfl, rfl, rfl, rfl, rfl⟩

theorem Tree.ckey_eq {t : Tree} (h : t.root ≠ .null) : t.ckey = .ok t.root.ck := by
  unfold Tree.ckey
  cases hr : t.root with
  | null => exact absurd hr h
  | node es ck cp rk sz l r => rfl

theorem leftmost_min_mem : ∀ (rest : List Tree) (t : Tree), leftmost_min t rest ∈ t :: rest := by
  intro rest
  induction rest with
  | nil => intro t; simp [leftmost_min]
  | cons s rest ih =>
    intro t
    rw [leftmost_min]
    split
    · exact List.mem_cons_of_mem _ (ih s)
    · exact List.mem_cons_self _ _

theorem leftmost_min_addr (t : Tree) (m : Nat) (rest : List Tree) :
    (leftmost_min { t with min_ckey := m } rest).addr = (leftmost_min t rest).addr := by
  cases rest with
  | nil => rfl
  | cons s rest =>
    simp only [leftmost_min]
    split <;> rfl

theorem find_of_nodup : ∀ (l : List Tree), (l.map Tree.addr).Nodup → ∀ m ∈ l,
    l.find? (fun t => decide (t.addr = m.addr)) = some m := by
  intro l
  induction l with
  | nil => intro _ m hm; simp at hm
  | cons s l ih =>
    intro hnd m hm
    simp only [List.map_cons, List.nodup_cons] at hnd
    rcases List.mem_cons.1 hm with rfl | hm
    · simp
    · have hne : s.addr ≠ m.addr := by
        intro h
        exact hnd.1 (h ▸ List.mem_map_of_mem _ hm)
      rw [List.find?_cons_of_neg _ (by simpa using hne)]
      exact ih hnd.2 m hm

theorem SuffixMinOK_PtrOK : ∀ (l : List Tree), SuffixMinOK l → PtrOK l := by
  intro l
  induction l with
  | nil => intro _; trivial
  | cons t rest ih =>
    intro h
    refine ⟨?_, ih h.2⟩
    rw [h.1]
    exact List.mem_map_of_mem _ (leftmost_min_mem rest t)

theorem SuffixMinOK_drop : ∀ (l : List Tree) (n : Nat), SuffixMinOK l → SuffixMinOK (l.drop n) := by
  intro l
  induction l with
  | nil => intro n _; simp [SuffixMinOK]
  | cons t l ih =>
    intro n h
    cases n with
    | zero => simpa using h
    | succ n => simpa using ih n h.2

theorem SuffixMinOK_suffix (pre suf : List Tree) (h : SuffixMinOK (pre ++ suf)) :
    SuffixMinOK suf := by
  have := SuffixMinOK_drop _ pre.length h
  simpa using this

/-- One pass of `UpdateSuffixMin` writes the address of the leftmost minimum. -/
theorem UpdateSuffixMin_at_exact (pre : List Tree) (t : Tree) (suf : List Tree)
    (hroots : ∀ s ∈ pre ++ t :: suf, s.root ≠ .null)
    (hnd : ((pre ++ t :: suf).map Tree.addr).Nodup) (hs : SuffixMinOK suf) :
    UpdateSuffixMin_at (pre ++ t :: suf) pre.length =
      .ok (pre ++ { t with min_ckey := (leftmost_min t suf).addr } :: suf) := by
  unfold UpdateSuffixMin_at
  have h0 : (pre ++ t :: suf)[pre.length]? = some t := by
    rw [List.getElem?_append_right (le_refl _)]
    simp
  have h1 : (pre ++ t :: suf)[pre.length + 1]? = suf[0]? := by
    rw [List.getElem?_append_right (by omega)]
    simp
  rw [h0, h1]
  cases suf with
  | nil => simp [leftmost_min, pure_eq_ok, set_mid]
  | cons nx rest =>
    have hm : leftmost_min nx rest ∈ pre ++ t :: nx :: rest := by
      have := leftmost_min_mem rest nx
      simp only [List.mem_append, List.mem_cons] at this ⊢
      tauto
    have hd : deref (pre ++ t :: nx :: rest) nx.min_ckey = .ok (leftmost_min nx rest) := by
      unfold deref
      rw [hs.1, find_of_nodup _ hnd _ hm]
      rfl
    simp only [List.getElem?_cons_zero, hd, ok_bind, Tree.ckey_eq (hroots _ hm),
      Tree.ckey_eq (hroots t (by simp)), pure_eq_ok, set_mid]
    congr 3
    rw [leftmost_min, hs.1]
    by_cases hlt : (leftmost_min nx rest).root.ck < t.root.ck
    · rw [if_pos hlt, if_neg (not_le.2 hlt)]
    · rw [if_neg hlt, if_pos (not_lt.1 hlt)]

theorem UpdateSuffixMin_exact : ∀ (pre : List Tree) (t : Tree) (suf : List Tree),
    (∀ s ∈ pre ++ t :: suf, s.root ≠ .null) → ((pre ++ t :: suf).map Tree.addr).Nodup →
    SuffixMinOK suf →
    ∃ pre1, UpdateSuffixMin (pre ++ t :: suf) pre.length = .ok (pre1 ++ suf) ∧
      pre1.map Tree.addr = (pre ++ [t]).map Tree.addr ∧
      pre1.map Tree.root = (pre ++ [t]).map Tree.root ∧ SuffixMinOK (pre1 ++ suf) := by
  intro pre
  induction pre using List.reverseRecOn with
  | nil =>
    intro t suf hroots hnd hs
    have hm := UpdateSuffixMin_at_exact [] t suf hroots hnd hs
    refine ⟨[{ t with min_ckey := (leftmost_min t suf).addr }], ?_, rfl, rfl, ?_⟩
    · simpa [UpdateSuffixMin] using hm
    · exact ⟨(leftmost_min_addr t _ suf).symm, hs⟩
  | append_singleton p s ih =>
    intro t suf hroots hnd hs
    have hm := UpdateSuffixMin_at_exact (p ++ [s]) t suf hroots hnd hs
    have hlen : (p ++ [s]).length = p.length + 1 := by simp
    rw [hlen] at hm ⊢
    rw [UpdateSuffixMin, hm, ok_bind]
    have hroots1 : ∀ u ∈ p ++ s :: ({ t with min_ckey := (leftmost_min t suf).addr } :: suf),
        u.root ≠ .null := by
      intro u hu
      have hr := fun v hv => hroots v hv
      simp only [List.mem_append, List.mem_cons, List.mem_singleton, List.not_mem_nil,
        or_false] at hu hr
      rcases hu with hu | rfl | rfl | hu
      · exact hr u (Or.inl (Or.inl hu))
      · exact hr u (Or.inl (Or.inr rfl))
      · exact hr t (Or.inr (Or.inl rfl))
      · exact hr u (Or.inr (Or.inr hu))
    have hnd1 : ((p ++ s :: ({ t with min_ckey := (leftmost_min t suf).addr } :: suf)).map
        Tree.addr).Nodup := by
      simpa using hnd
    obtain ⟨pre1, h1, h2, h3, h4⟩ := ih s ({ t with min_ckey := (leftmost_min t suf).addr } :: suf)
      hroots1 hnd1 ⟨(leftmost_min_addr t _ suf).symm, hs⟩
    refine ⟨pre1 ++ [{ t with min_ckey := (leftmost_min t suf).addr }], ?_, ?_, ?_, ?_⟩
    · simpa using h1
    · simp [h2]
    · simp [h3]
    · simpa using h4

theorem UpdateSuffixMin_suffix_min (trees : List Tree) (i : Nat) (hi : i < trees.length)
    (hroots : ∀ s ∈ trees, s.root ≠ .null) (hnd : (trees.map Tree.addr).Nodup)
    (hs : SuffixMinOK (trees.drop (i + 1))) :
    ∃ ts, UpdateSuffixMin trees i = .ok ts ∧ SuffixMinOK ts ∧
      ts.drop (i + 1) = trees.drop (i + 1) ∧ ts.map Tree.addr = trees.map Tree.addr ∧
      ts.map Tree.root = trees.map Tree.root := by
  have hsplit : trees = trees.take i ++ trees[i] :: trees.drop (i + 1) := by
    simp
  have hlen : (trees.take i).length = i := by simp; omega
  obtain ⟨pre1, h1, h2, h3, h4⟩ := UpdateSuffixMin_exact (trees.take i) trees[i]
    (trees.drop (i + 1)) (by rw [← hsplit]; exact hroots) (by rw [← hsplit]; exact hnd) hs
  rw [← hsplit, hlen] at h1
  have hl1 : pre1.length = i + 1 := by
    have := congrArg List.length h2
    simp only [List.length_map, List.length_append, hlen, List.length_singleton] at this
    exact this
  refine ⟨_, h1, h4, ?_, ?_, ?_⟩
  · rw [← hl1]; simp
  · conv_rhs => rw [hsplit]
    simp [h2]
  · conv_rhs => rw [hsplit]
    simp [h3]

theorem keeps_self_iff (pre : List Tree) (t nx : Tree) (rest : List Tree)
    (hnd : ((pre ++ t :: nx :: rest).map Tree.addr).Nodup)
    (hs : SuffixMinOK (pre ++ t :: nx :: rest)) :
    t.min_ckey = t.addr ↔ t.root.ck ≤ (leftmost_min nx rest).root.ck := by
  have h1 := (SuffixMinOK_suffix pre _ hs).1
  rw [leftmost_min] at h1
  constructor
  · intro h
    by_contra hlt
    rw [if_pos (not_le.1 hlt), h] at h1
    have hm := leftmost_min_mem rest nx
    have hnd1 : ((t :: nx :: rest).map Tree.addr).Nodup := by
      rw [List.map_append] at hnd
      exact (List.nodup_append.1 hnd).2.1
    rw [List.map_cons, List.nodup_cons] at hnd1
    exact hnd1.1 (h1 ▸ List.mem_map_of_mem _ hm)
  · intro h
    rw [if_neg (not_lt.2 h)] at h1
    exact h1

/-- C20 (`UpdateSuffixMin` with the leftmost tie-break).  In a forest whose roots are
present and whose list nodes have distinct addresses, if every tree to the right of
position `i` has a correct `min_ckey`, then `UpdateSuffixMin` at `i` returns; every tree
of the result (those from the front up to `i` included) designates the leftmost tree of
minimum root `ckey` among itself and the trees to its right, a tree with a right
neighbour designating itself exactly when its root `ckey` is at most the minimum to its
right; and the trees to the right of `i`, like all addresses and roots, are unchanged. -/
theorem update_suffix_min_correct (trees : List Tree) (i : Nat) (hi : i < trees.length)
    (hroots : ∀ s ∈ trees, s.root ≠ .null) (hnd : (trees.map Tree.addr).Nodup)
    (hright : SuffixMinOK (trees.drop (i + 1))) :
    ∃ ts, UpdateSuffixMin trees i = .ok ts ∧ SuffixMinOK ts ∧
      ts.drop (i + 1) = trees.drop (i + 1) ∧ ts.map Tree.addr = trees.map Tree.addr ∧
      ts.map Tree.root = trees.map Tree.root ∧
      (∀ pre t nx rest, ts = pre ++ t :: nx :: rest →
        (t.min_ckey = t.addr ↔ t.root.ck ≤ (leftmost_min nx rest).root.ck)) := by
  obtain ⟨ts, h1, h2, h3, h4, h5⟩ := UpdateSuffixMin_suffix_min trees i hi hroots hnd hright
  refine ⟨ts, h1, h2, h3, h4, h5, ?_⟩
  intro pre t nx rest he
  subst he
  exact keeps_self_iff pre t nx rest (by rw [h4]; exact hnd) h2

/-- Witness of C20: a forest of two trees whose second tree designates itself, updated at
the front. -/
theorem update_suffix_min_correct_witness :
    0 < [(⟨2, NodePtr.leaf 7, 2⟩ : Tree), ⟨1, NodePtr.leaf 3, 1⟩].length ∧
    (∀ s ∈ [(⟨2, NodePtr.leaf 7, 2⟩ : Tree), ⟨1, NodePtr.leaf 3, 1⟩], s.root ≠ .null) ∧
    ([(⟨2, NodePtr.leaf 7, 2⟩ : Tree), ⟨1, NodePtr.leaf 3, 1⟩].map Tree.addr).Nodup ∧
    SuffixMinOK ([(⟨2, NodePtr.leaf 7, 2⟩ : Tree), ⟨1, NodePtr.leaf 3, 1⟩].drop (0 + 1)) ∧
    ∃ ts, UpdateSuffixMin [(⟨2, NodePtr.leaf 7, 2⟩ : Tree), ⟨1, NodePtr.leaf 3, 1⟩] 0 = .ok ts ∧
      SuffixMinOK ts ∧
      ts.drop (0 + 1) = [(⟨2, NodePtr.leaf 7, 2⟩ : Tree), ⟨1, NodePtr.leaf 3, 1⟩].drop (0 + 1) ∧
      ts.map Tree.addr = [(⟨2, NodePtr.leaf 7, 2⟩ : Tree), ⟨1, NodePtr.leaf 3, 1⟩].map Tree.addr ∧
      ts.map Tree.root = [(⟨2, NodePtr.leaf 7, 2⟩ : Tree), ⟨1, NodePtr.leaf 3, 1⟩].map Tree.root ∧
      (∀ pre t nx rest, ts = pre ++ t :: nx :: rest →
        (t.min_ckey = t.addr ↔ t.root.ck ≤ (leftmost_min nx rest).root.ck)) :=
  ⟨by decide, by decide, by decide, by decide,
    update_suffix_min_correct [⟨2, NodePtr.leaf 7, 2⟩, ⟨1, NodePtr.leaf 3, 1⟩] 0
      (by decide) (by decide) (by decide) (by decide)⟩

theorem split_at_index (L : List Tree) (k : Nat) (hk : k < L.length) :
    L = L.take k ++ L[k] :: L.drop (k + 1) := by
  simp

namespace SoftHeap

/-- The steps of `ExtractMin` and `ExtractMinC` up to the rebalancing, on a heap with
present roots and a valid front iterator. -/
theorem ExtractMin_decomp (h : SoftHeap) (hr : RootsOK h.trees) (hp : PtrOK h.trees)
    (hne : h.trees ≠ []) :
    ∃ front rest pre t suf es e ck cp rk sz l r,
      h.trees = front :: rest ∧ h.trees = pre ++ t :: suf ∧ t.addr = front.min_ckey ∧
      (∀ s ∈ pre, s.addr ≠ front.min_ckey) ∧
      t.root = .node (es ++ [e]) ck cp rk sz l r ∧
      ExtractMin h = (rebalance h.trees pre.length t es ck cp rk sz l r >>= fun ts =>
        pure (e, ⟨ts, dec_size h.c_size⟩)) ∧
      ExtractMinC h = (rebalanceC h.trees pre.length t es ck
        (if decide (e = ck) then false else cp) rk sz l r
        (if decide (e = ck) then [e] else []) >>= fun p =>
          pure ((e, p.2), ⟨p.1, h.c_size⟩)) := by
  obtain ⟨trees, c⟩ := h
  simp only at hr hp hne
  cases trees with
  | nil => exact absurd rfl hne
  | cons front rest =>
    have hfm : front.min_ckey ∈ (front :: rest).map Tree.addr := hp.1
    cases hfi : (front :: rest).findIdx? (fun t => decide (t.addr = front.min_ckey)) with
    | none =>
      exfalso
      obtain ⟨s, hs, hsa⟩ := List.mem_map.1 hfm
      have := List.findIdx?_eq_none_iff.1 hfi s hs
      simp [hsa] at this
    | some k =>
      obtain ⟨hk, hpk, hbefore⟩ := List.findIdx?_eq_some_iff_getElem.1 hfi
      have hget : (front :: rest)[k]? = some (front :: rest)[k] := List.getElem?_eq_getElem hk
      have hsplit := split_at_index (front :: rest) k hk
      have hlen : ((front :: rest).take k).length = k := by
        rw [List.length_take]; omega
      have hroot := hr (front :: rest)[k] (List.getElem_mem hk)
      cases hx : (front :: rest)[k].root with
      | null => exact absurd hx hroot.1
      | node es0 ck cp rk sz l r =>
        rw [hx] at hroot
        have hes : es0 ≠ [] := hroot.2.1
        obtain ⟨es, e, rfl⟩ : ∃ es e, es0 = es ++ [e] :=
          ⟨es0.dropLast, es0.getLast hes, (List.dropLast_concat_getLast hes).symm⟩
        refine ⟨front, rest, (front :: rest).take k, (front :: rest)[k],
          (front :: rest).drop (k + 1), es, e, ck, cp, rk, sz, l, r, rfl, hsplit,
          by simpa using hpk, ?_, hx, ?_, ?_⟩
        · intro s hs
          obtain ⟨j, hj, rfl⟩ := List.mem_take_iff_getElem.1 hs
          have := hbefore j (by omega)
          simpa using this
        · unfold ExtractMin
          simp only [hfi, hget, hx, List.getLast?_concat, List.dropLast_concat, hlen]
        · unfold ExtractMinC
          simp only [hfi, hget, hx, List.getLast?_concat, List.dropLast_concat, hlen]

end SoftHeap

theorem scenario_heap_built : SoftHeap.of_range 8 [5, 3, 8, 1, 9, 2] = .ok scenario_heap := rfl

theorem leftmost_min_congr : ∀ (l1 l2 : List Tree) (a b : Tree),
    a.addr = b.addr → a.root.ck = b.root.ck → l1.map Tree.addr = l2.map Tree.addr →
    l1.map (fun t => t.root.ck) = l2.map (fun t => t.root.ck) →
    (leftmost_min a l1).addr = (leftmost_min b l2).addr ∧
      (leftmost_min a l1).root.ck = (leftmost_min b l2).root.ck := by
  intro l1
  induction l1 with
  | nil =>
    intro l2 a b ha hc h1 _
    cases l2 with
    | nil => exact ⟨ha, hc⟩
    | cons s l2 => simp at h1
  | cons s l1 ih =>
    intro l2 a b ha hc h1 h2
    cases l2 with
    | nil => simp at h1
    | cons u l2 =>
      simp only [List.map_cons, List.cons.injEq] at h1 h2
      obtain ⟨e1, e2⟩ := ih l2 s u h1.1 h2.1 h1.2 h2.2
      simp only [leftmost_min]
      rw [e2, hc]
      split
      · exact ⟨e1, e2⟩
      · exact ⟨ha, hc⟩

theorem SuffixMinOK_congr : ∀ (l1 l2 : List Tree), l1.map Tree.addr = l2.map Tree.addr →
    l1.map Tree.min_ckey = l2.map Tree.min_ckey →
    l1.map (fun t => t.root.ck) = l2.map (fun t => t.root.ck) →
    SuffixMinOK l1 → SuffixMinOK l2 := by
  intro l1
  induction l1 with
  | nil =>
    intro l2 h1 _ _ _
    cases l2 with
    | nil => trivial
    | cons s l2 => simp at h1
  | cons a l1 ih =>
    intro l2 h1 h2 h3 hs
    cases l2 with
    | nil => simp at h1
    | cons b l2 =>
      simp only [List.map_cons, List.cons.injEq] at h1 h2 h3
      refine ⟨?_, ih l2 h1.2 h2.2 h3.2 hs.2⟩
      rw [← h2.1, hs.1]
      exact (leftmost_min_congr l1 l2 a b h1.1 h3.1 h1.2 h3.2).1

namespace SoftHeap

theorem rebalance_suffix_min (pre suf : List Tree) (t : Tree) (es : List Element)
    (ck : Element) (cp : Bool) (rk sz : Nat) (l r : NodePtr)
    (hr : RootsOK pre ∧ RootsOK suf) (hnd : ((pre ++ t :: suf).map Tree.addr).Nodup)
    (hs : SuffixMinOK (pre ++ t :: suf)) (hck : t.root.ck = ck)
    (hx : (NodePtr.node es ck cp rk sz l r).PreOK) :
    ∃ ts, rebalance (pre ++ t :: suf) pre.length t es ck cp rk sz l r = .ok ts ∧
      SuffixMinOK ts ∧ (ts.map Tree.addr).Nodup := by
  have hss : SuffixMinOK suf := by
    have := SuffixMinOK_suffix (pre ++ [t]) suf (by simpa using hs)
    exact this
  have hnd2 : ((pre ++ suf).map Tree.addr).Nodup := by
    refine List.Nodup.sublist ?_ hnd
    simp only [List.map_append, List.map_cons]
    exact List.Sublist.append_left (List.sublist_cons_self _ _) _
  have hplain : ∃ ts, (pure ((pre ++ t :: suf).set pre.length
        { t with root := NodePtr.node es ck cp rk sz l r }) : Except Failure (List Tree)) =
        .ok ts ∧ SuffixMinOK ts ∧ (ts.map Tree.addr).Nodup := by
    rw [set_mid]
    refine ⟨_, rfl, SuffixMinOK_congr _ _ (by simp) (by simp) ?_ hs, by simpa using hnd⟩
    simp only [List.map_append, List.map_cons, hck]
    rfl
  unfold rebalance
  simp only
  by_cases h2 : 2 * es.length < sz
  · rw [if_pos h2]
    by_cases hleaf : l = .null ∧ r = .null
    · rw [if_neg (not_not.2 hleaf)]
      by_cases he : es = []
      · rw [if_pos he, erase_mid]
        by_cases hk : pre.length ≠ 0
        · rw [if_pos hk]
          have hi : pre.length - 1 < (pre ++ suf).length := by
            simp only [List.length_append]; omega
          have hd : (pre ++ suf).drop (pre.length - 1 + 1) = suf := by
            rw [show pre.length - 1 + 1 = pre.length by omega]; simp
          obtain ⟨ts, hu, q1, _, q3, _⟩ := UpdateSuffixMin_suffix_min (pre ++ suf)
            (pre.length - 1) hi (fun s hs => ((RootsOK_append.2 hr) s hs).1) hnd2
            (by rw [hd]; exact hss)
          exact ⟨ts, hu, q1, by rw [q3]; exact hnd2⟩
        · rw [if_neg hk]
          have hpre : pre = [] := List.eq_nil_of_length_eq_zero (not_not.1 hk)
          subst hpre
          exact ⟨suf, rfl, hss, by simpa using hnd2⟩
      · rw [if_neg he]
        exact hplain
    · rw [if_pos hleaf]
      obtain ⟨x1, hs1, p1, _, _, _, _, _, p7, _⟩ :=
        NodePtr.Sift_spec ((NodePtr.node es ck cp rk sz l r).count + 1) _ hx (Nat.lt_succ_self _)
      have hx1 : x1.RootOK := by
        refine ⟨?_, NodePtr.OK_of_PreOK p1 (p7 (by simpa [NodePtr.IsLeaf] using hleaf))⟩
        intro h; rw [h] at p1; exact p1
      rw [hs1, ok_bind, set_mid]
      obtain ⟨ts, hu, q1, _, q3, _⟩ := UpdateSuffixMin_suffix_min
        (pre ++ { t with root := x1 } :: suf) pre.length (by simp)
        (fun s hs => ((RootsOK_append.2 ⟨hr.1, RootsOK_cons.2 ⟨hx1, hr.2⟩⟩) s hs).1)
        (by simpa using hnd)
        (by
          have : (pre ++ { t with root := x1 } :: suf).drop (pre.length + 1) = suf := by
            rw [drop_mid]; rfl
          rw [this]; exact hss)
      exact ⟨ts, hu, q1, by rw [q3]; simpa using hnd⟩
  · rw [if_neg h2]
    exact hplain

end SoftHeap

/-- C12 (suffix-min after ExtractMin).  For a heap with at least one tree whose roots are
well-formed, whose list nodes have distinct addresses and whose `min_ckey` iterators are
all correct, `ExtractMin` returns, and in the heap it leaves every tree designates the
leftmost tree of minimum root `ckey` among itself and the trees to its right, whichever
branch was taken (root sifted, tree erased with or without a predecessor, nothing
rebalanced); the addresses stay distinct. -/
theorem extract_min_suffix_min (h : SoftHeap) (hr : RootsOK h.trees)
    (hnd : (h.trees.map Tree.addr).Nodup) (hs : SuffixMinOK h.trees) (hne : h.trees ≠ []) :
    ∃ e h1, SoftHeap.ExtractMin h = .ok (e, h1) ∧ SuffixMinOK h1.trees ∧
      (h1.trees.map Tree.addr).Nodup := by
  obtain ⟨front, rest, pre, t, suf, es, e, ck, cp, rk, sz, l, r, _, hsplit, _, _, hx, hex, _⟩ :=
    SoftHeap.ExtractMin_decomp h hr (SuffixMinOK_PtrOK _ hs) hne
  rw [hsplit] at hr hnd hs hex
  have hroot := hr t (by simp)
  rw [hx] at hroot
  obtain ⟨ts, hts, q1, q2⟩ := SoftHeap.rebalance_suffix_min pre suf t es ck cp rk sz l r
    ⟨(RootsOK_append.1 hr).1, (RootsOK_cons.1 (RootsOK_append.1 hr).2).2⟩ hnd hs
    (by rw [hx]; rfl) ⟨hroot.2.2.1, hroot.2.2.2.1, hroot.2.2.2.2⟩
  rw [hts, ok_bind] at hex
  exact ⟨e, _, hex, q1, q2⟩

/-- Witness of C12 at the heap built from 5, 3, 8, 1, 9, 2, where `ExtractMin` sifts the
root of the second tree. -/
theorem extract_min_suffix_min_witness :
    RootsOK scenario_heap.trees ∧ (scenario_heap.trees.map Tree.addr).Nodup ∧
    SuffixMinOK scenario_heap.trees ∧ scenario_heap.trees ≠ [] ∧
    ∃ e h1, SoftHeap.ExtractMin scenario_heap = .ok (e, h1) ∧ SuffixMinOK h1.trees ∧
      (h1.trees.map Tree.addr).Nodup :=
  ⟨by decide, by decide, by decide, by decide,
    extract_min_suffix_min scenario_heap (by decide) (by decide) (by decide) (by decide)⟩

namespace NodePtr

theorem Sift_flag : ∀ (fuel : Nat) (x y : NodePtr), Sift fuel x = .ok y → y.flag = x.flag := by
  intro fuel
  induction fuel with
  | zero => intro x y h; cases h
  | succ fuel ih =>
    intro x y h
    cases x with
    | null => cases h
    | node es ck cp rk sz l r =>
      by_cases hc : es.length < sz ∧ ¬ (l = null ∧ r = null)
      · cases hch : (if pick_right l r then r else l) with
        | null =>
          rw [Sift, if_pos hc] at h
          simp only [hch] at h
          cases h
        | node ces cck ccp crk csz cl cr =>
          rw [Sift_succ_node fuel es ck cp rk sz l r ces cck ccp crk csz cl cr hc hch] at h
          cases hchild : (if cl = null ∧ cr = null then (pure null : Except Failure NodePtr)
              else Sift fuel (node [] cck ccp crk csz cl cr)) with
          | error err => rw [hchild] at h; cases h
          | ok c =>
            rw [hchild, ok_bind] at h
            have := ih _ _ h
            rw [this]
            split <;> rfl
      · rw [Sift, if_neg hc] at h
        cases h
        rfl

theorem SiftC_prefix : ∀ (fuel : Nat) (x y : NodePtr) (rep rep1 : List Element),
    SiftC fuel x rep = .ok (y, rep1) → rep <+: rep1 := by
  intro fuel
  induction fuel with
  | zero => intro x y rep rep1 h; cases h
  | succ fuel ih =>
    intro x y rep rep1 h
    cases x with
    | null => cases h
    | node es ck cp rk sz l r =>
      rw [SiftC] at h
      by_cases hc : es.length < sz ∧ ¬ (l = null ∧ r = null)
      · rw [if_pos hc] at h
        cases hch : (if pick_right l r then r else l) with
        | null => simp only [hch] at h; cases h
        | node ces cck ccp crk csz cl cr =>
          simp only [hch] at h
          by_cases hleaf : cl = null ∧ cr = null
          · simp only [if_pos hleaf, pure_eq_ok, ok_bind] at h
            exact (List.prefix_append rep ces).trans (ih _ _ _ _ h)
          · simp only [if_neg hleaf] at h
            cases h2 : SiftC fuel (node [] cck ccp crk csz cl cr) (rep ++ ces) with
            | error err => rw [h2] at h; cases h
            | ok p =>
              rw [h2, ok_bind] at h
              obtain ⟨c, rep2⟩ := p
              exact ((List.prefix_append rep ces).trans (ih _ _ _ _ h2)).trans (ih _ _ _ _ h)
      · rw [if_neg hc] at h
        cases h
        exact List.prefix_refl _

theorem SiftC_flag (fuel : Nat) (x y : NodePtr) (rep rep1 : List Element)
    (h : SiftC fuel x rep = .ok (y, rep1)) : y.flag = x.flag := by
  have h1 := SiftC_fst fuel x rep
  rw [h, map_ok] at h1
  exact Sift_flag fuel x y h1.symm

end NodePtr

theorem map_set_same {β : Type} (f : Tree → β) : ∀ (l : List Tree) (i : Nat) (t u : Tree),
    l[i]? = some t → f u = f t → (l.set i u).map f = l.map f := by
  intro l
  induction l with
  | nil => intro i t u h _; simp at h
  | cons a l ih =>
    intro i t u h hf
    cases i with
    | zero =>
      simp only [List.getElem?_cons_zero, Option.some.injEq] at h
      subst h
      simp [hf]
    | succ i =>
      simp only [List.getElem?_cons_succ] at h
      simp only [List.set_cons_succ, List.map_cons, ih i t u h hf]

theorem UpdateSuffixMin_at_roots (trees ts : List Tree) (i : Nat)
    (h : UpdateSuffixMin_at trees i = .ok ts) :
    ts.map Tree.root = trees.map Tree.root ∧ ts.map Tree.addr = trees.map Tree.addr := by
  unfold UpdateSuffixMin_at at h
  cases h0 : trees[i]? with
  | none => rw [h0] at h; cases h
  | some t =>
    have key : ∀ m : Nat, ((trees.set i { t with min_ckey := m }).map Tree.root = trees.map Tree.root) ∧
        ((trees.set i { t with min_ckey := m }).map Tree.addr = trees.map Tree.addr) :=
      fun m => ⟨map_set_same Tree.root trees i t _ h0 rfl, map_set_same Tree.addr trees i t _ h0 rfl⟩
    rw [h0] at h
    simp only at h
    cases h1 : trees[i + 1]? with
    | none =>
      rw [h1] at h
      cases h
      exact key _
    | some nx =>
      rw [h1] at h
      simp only at h
      cases hd : deref trees nx.min_ckey with
      | error err => rw [hd] at h; cases h
      | ok m =>
        rw [hd, ok_bind] at h
        cases hm : m.ckey with
        | error err => rw [hm] at h; cases h
        | ok mk =>
          rw [hm, ok_bind] at h
          cases htk : t.ckey with
          | error err => rw [htk] at h; cases h
          | ok tk =>
            rw [htk, ok_bind] at h
            cases h
            exact key _

theorem UpdateSuffixMin_roots : ∀ (i : Nat) (trees ts : List Tree),
    UpdateSuffixMin trees i = .ok ts →
    ts.map Tree.root = trees.map Tree.root ∧ ts.map Tree.addr = trees.map Tree.addr := by
  intro i
  induction i with
  | zero => intro trees ts h; exact UpdateSuffixMin_at_roots trees ts 0 h
  | succ i ih =>
    intro trees ts h
    rw [UpdateSuffixMin] at h
    cases h1 : UpdateSuffixMin_at trees (i + 1) with
    | error err => rw [h1] at h; cases h
    | ok ts1 =>
      rw [h1, ok_bind] at h
      have a := UpdateSuffixMin_at_roots trees ts1 (i + 1) h1
      have b := ih ts1 ts h
      exact ⟨b.1.trans a.1, b.2.trans a.2⟩

namespace SoftHeap

theorem getElem?_of_maps (ts : List Tree) (pre suf : List Tree) (t1 : Tree)
    (hroot : ts.map Tree.root = (pre ++ t1 :: suf).map Tree.root)
    (haddr : ts.map Tree.addr = (pre ++ t1 :: suf).map Tree.addr) :
    ∃ T1, ts[pre.length]? = some T1 ∧ T1.addr = t1.addr ∧ T1.root = t1.root := by
  have h1 : (ts.map Tree.root)[pre.length]? = some t1.root := by
    rw [hroot, List.map_append, List.getElem?_append_right (by simp)]
    simp
  have h2 : (ts.map Tree.addr)[pre.length]? = some t1.addr := by
    rw [haddr, List.map_append, List.getElem?_append_right (by simp)]
    simp
  rw [List.getElem?_map] at h1 h2
  cases hT : ts[pre.length]? with
  | none => rw [hT] at h1; simp at h1
  | some T1 =>
    rw [hT] at h1 h2
    simp only [Option.map_some', Option.some.injEq] at h1 h2
    exact ⟨T1, rfl, h2, h1⟩

theorem rebalanceC_shape (pre suf : List Tree) (t : Tree) (es : List Element) (ck : Element)
    (cp : Bool) (rk sz : Nat) (l r : NodePtr) (rep0 rep : List Element) (ts : List Tree)
    (h : rebalanceC (pre ++ t :: suf) pre.length t es ck cp rk sz l r rep0 = .ok (ts, rep)) :
    rep0 <+: rep ∧
    (ts.length = (pre ++ t :: suf).length →
      ∃ T1, ts[pre.length]? = some T1 ∧ T1.addr = t.addr ∧ T1.root.flag = cp) ∧
    (¬ (2 * es.length < sz ∧ ¬ (l = .null ∧ r = .null)) → rep = rep0) := by
  have hplain : ∀ (x : NodePtr), x.flag = cp →
      (pure ((pre ++ t :: suf).set pre.length { t with root := x }, rep0) :
        Except Failure (List Tree × List Element)) = .ok (ts, rep) →
      rep0 <+: rep ∧
      (ts.length = (pre ++ t :: suf).length →
        ∃ T1, ts[pre.length]? = some T1 ∧ T1.addr = t.addr ∧ T1.root.flag = cp) ∧
      (¬ (2 * es.length < sz ∧ ¬ (l = .null ∧ r = .null)) → rep = rep0) := by
    intro x hx h1
    rw [set_mid] at h1
    cases h1
    refine ⟨List.prefix_refl _, fun _ => ?_, fun _ => rfl⟩
    refine ⟨{ t with root := x }, ?_, rfl, hx⟩
    rw [List.getElem?_append_right (le_refl _)]
    simp
  unfold rebalanceC at h
  simp only at h
  by_cases h2 : 2 * es.length < sz
  · rw [if_pos h2] at h
    by_cases hleaf : l = .null ∧ r = .null
    · rw [if_neg (not_not.2 hleaf)] at h
      by_cases he : es = []
      · rw [if_pos he, erase_mid] at h
        by_cases hk : pre.length ≠ 0
        · rw [if_pos hk] at h
          cases hu : UpdateSuffixMin (pre ++ suf) (pre.length - 1) with
          | error err => rw [hu] at h; cases h
          | ok ts1 =>
            rw [hu, ok_bind] at h
            cases h
            have hl := congrArg List.length (UpdateSuffixMin_roots _ _ _ hu).1
            simp only [List.length_map, List.length_append] at hl
            refine ⟨List.prefix_refl _, fun hlen => ?_, fun _ => rfl⟩
            simp only [List.length_append, List.length_cons] at hlen
            omega
        · rw [if_neg hk] at h
          cases h
          refine ⟨List.prefix_refl _, fun hlen => ?_, fun _ => rfl⟩
          simp only [List.length_append, List.length_cons] at hlen
          omega
      · rw [if_neg he] at h
        exact hplain (NodePtr.node es ck cp rk sz l r) rfl h
    · rw [if_pos hleaf] at h
      cases hs : NodePtr.SiftC ((NodePtr.node es ck cp rk sz l r).count + 1)
          (NodePtr.node es ck cp rk sz l r) rep0 with
      | error err => rw [hs] at h; cases h
      | ok p =>
        obtain ⟨x1, rep1⟩ := p
        rw [hs, ok_bind, set_mid] at h
        simp only at h
        cases hu : UpdateSuffixMin (pre ++ { t with root := x1 } :: suf) pre.length with
        | error err => rw [hu] at h; cases h
        | ok ts1 =>
          rw [hu, ok_bind] at h
          cases h
          have hmaps := UpdateSuffixMin_roots _ _ _ hu
          obtain ⟨T1, hT, ha, hr⟩ := getElem?_of_maps ts pre suf { t with root := x1 }
            hmaps.1 hmaps.2
          refine ⟨NodePtr.SiftC_prefix _ _ _ _ _ hs, fun _ => ⟨T1, hT, ha, ?_⟩,
            fun hn => absurd ⟨h2, hleaf⟩ hn⟩
          rw [hr]
          exact NodePtr.SiftC_flag _ _ _ _ _ hs
  · rw [if_neg h2] at h
    exact hplain (NodePtr.node es ck cp rk sz l r) rfl h

end SoftHeap

/-- C17 (ExtractMinC refines ExtractMin in the returned element).  Whenever both calls
return on the same heap state, the first component of the result of `ExtractMinC` is the
element returned by `ExtractMin`; and on every well-formed heap with at least one tree
both calls do return. -/
theorem extract_min_c_same_element (h : SoftHeap) :
    (∀ r1 r2, SoftHeap.ExtractMinC h = .ok r1 → SoftHeap.ExtractMin h = .ok r2 →
      r1.1.1 = r2.1) ∧
    (WellFormed h → h.trees ≠ [] →
      ∃ e rep h1 h2, SoftHeap.ExtractMinC h = .ok ((e, rep), h1) ∧
        SoftHeap.ExtractMin h = .ok (e, h2)) := by
  constructor
  · intro r1 r2 h1 h2
    unfold SoftHeap.ExtractMinC at h1
    unfold SoftHeap.ExtractMin at h2
    split at h1
    · cases h1
    · split at h1
      · cases h1
      · split at h1
        · cases h1
        · split at h1
          · cases h1
          · split at h1
            · cases h1
            · rename_i e1 _ _ e2 _ _ e3 _ _ _ _ _ _ _ _ e4 _ _ e5
              rw [e1] at e2 e3 h2
              simp only [e2, e3, e4, e5] at h2
              rw [e1] at h1
              simp only at h1
              cases hb : SoftHeap.rebalance _ _ _ _ _ _ _ _ _ _ with
              | error err => rw [hb] at h2; cases h2
              | ok ts =>
                rw [hb, ok_bind] at h2
                cases h2
                cases hc : SoftHeap.rebalanceC _ _ _ _ _ _ _ _ _ _ _ with
                | error err => rw [hc] at h1; cases h1
                | ok p =>
                  rw [hc, ok_bind] at h1
                  cases h1
                  rfl
  · intro hw hne
    obtain ⟨e, rep, h1, hc, _, _, _, h2, hx⟩ := SoftHeap.ExtractMinC_spec h hw hne
    exact ⟨e, rep, h1, h2, hc, hx⟩

/-- Witness of C17 at the heap built from 5, 3, 8, 1, 9, 2. -/
theorem extract_min_c_same_element_witness :
    WellFormed scenario_heap ∧ scenario_heap.trees ≠ [] ∧
    ∃ e rep h1 h2, SoftHeap.ExtractMinC scenario_heap = .ok ((e, rep), h1) ∧
      SoftHeap.ExtractMin scenario_heap = .ok (e, h2) :=
  ⟨by decide, by decide, (extract_min_c_same_element scenario_heap).2 (by decide) (by decide)⟩

/-- C18 (corruption report of ExtractMinC).  On a well-formed heap with at least one tree,
`ExtractMinC` returns the last element `e` of the buffer of the root of the tree `T`
designated by the front `min_ckey`.  If `e` equals that root's `ckey`, the returned list
starts with `e` and, unless `T` was erased, the root left in `T`'s slot has its presence
flag cleared.  If `e` differs from the `ckey`, the rebalancing starts from the empty list
and the unchanged flag: the root left in `T`'s slot keeps the flag, and the list is empty
when no sift takes place. -/
theorem extract_min_c_report (h : SoftHeap) (hw : WellFormed h) (hne : h.trees ≠ []) :
    ∃ front rest pre T suf es e ck cp rk sz l r rep h1,
      h.trees = front :: rest ∧ h.trees = pre ++ T :: suf ∧ T.addr = front.min_ckey ∧
      (∀ s ∈ pre, s.addr ≠ front.min_ckey) ∧
      T.root = .node (es ++ [e]) ck cp rk sz l r ∧
      SoftHeap.ExtractMinC h = .ok ((e, rep), h1) ∧
      (e = ck → rep.head? = some e ∧
        (h1.trees.length = h.trees.length →
          ∃ T1, h1.trees[pre.length]? = some T1 ∧ T1.addr = T.addr ∧ T1.root.flag = false)) ∧
      (e ≠ ck →
        SoftHeap.rebalanceC h.trees pre.length T es ck cp rk sz l r [] = .ok (h1.trees, rep) ∧
        (h1.trees.length = h.trees.length →
          ∃ T1, h1.trees[pre.length]? = some T1 ∧ T1.addr = T.addr ∧ T1.root.flag = cp) ∧
        (¬ (2 * es.length < sz ∧ ¬ (l = .null ∧ r = .null)) → rep = [])) := by
  obtain ⟨front, rest, pre, T, suf, es, e, ck, cp, rk, sz, l, r, h1, hsplit, h3, h4, hx, _, hc⟩ :=
    SoftHeap.ExtractMin_decomp h hw.1 hw.2 hne
  obtain ⟨e0, rep0, hh, hok, _⟩ := SoftHeap.ExtractMinC_spec h hw hne
  rw [hc] at hok
  cases hrb : SoftHeap.rebalanceC h.trees pre.length T es ck
      (if decide (e = ck) then false else cp) rk sz l r
      (if decide (e = ck) then [e] else []) with
  | error err => rw [hrb] at hok; cases hok
  | ok p =>
    obtain ⟨ts, rep⟩ := p
    rw [hrb, ok_bind] at hok
    refine ⟨front, rest, pre, T, suf, es, e, ck, cp, rk, sz, l, r, rep, ⟨ts, h.c_size⟩, h1,
      hsplit, h3, h4, hx, by rw [hc, hrb]; rfl, ?_, ?_⟩
    · intro heq
      rw [hsplit] at hrb
      simp only [heq, decide_True, if_true] at hrb
      obtain ⟨q1, q2, _⟩ := SoftHeap.rebalanceC_shape pre suf T es ck false rk sz l r [ck] rep ts hrb
      obtain ⟨tl, rfl⟩ := q1
      refine ⟨by simp [heq], fun hlen => q2 (by rw [← hsplit]; exact hlen)⟩
    · intro hne1
      simp only [hne1, decide_False, Bool.false_eq_true, if_false] at hrb
      refine ⟨hrb, ?_⟩
      rw [hsplit] at hrb
      obtain ⟨_, q2, q3⟩ := SoftHeap.rebalanceC_shape pre suf T es ck cp rk sz l r [] rep ts hrb
      exact ⟨fun hlen => q2 (by rw [← hsplit]; exact hlen), q3⟩

/-- Witness of C18 at the heap built from 5, 3, 8, 1, 9, 2. -/
theorem extract_min_c_report_witness :
    WellFormed scenario_heap ∧ scenario_heap.trees ≠ [] ∧
    ∃ front rest pre T suf es e ck cp rk sz l r rep h1,
      scenario_heap.trees = front :: rest ∧ scenario_heap.trees = pre ++ T :: suf ∧
      T.addr = front.min_ckey ∧ (∀ s ∈ pre, s.addr ≠ front.min_ckey) ∧
      T.root = .node (es ++ [e]) ck cp rk sz l r ∧
      SoftHeap.ExtractMinC scenario_heap = .ok ((e, rep), h1) ∧
      (e = ck → rep.head? = some e ∧
        (h1.trees.length = scenario_heap.trees.length →
          ∃ T1, h1.trees[pre.length]? = some T1 ∧ T1.addr = T.addr ∧ T1.root.flag = false)) ∧
      (e ≠ ck →
        SoftHeap.rebalanceC scenario_heap.trees pre.length T es ck cp rk sz l r [] =
          .ok (h1.trees, rep) ∧
        (h1.trees.length = scenario_heap.trees.length →
          ∃ T1, h1.trees[pre.length]? = some T1 ∧ T1.addr = T.addr ∧ T1.root.flag = cp) ∧
        (¬ (2 * es.length < sz ∧ ¬ (l = .null ∧ r = .null)) → rep = [])) :=
  ⟨by decide, by decide, extract_min_c_report scenario_heap (by decide) (by decide)⟩

/-- C16, counterexample.  Combining the one-leaf trees of 1 and of 2 leaves a root whose
left child is absent: the buffer of the leaf of 1 has moved into the new root and the
drained leaf is gone, so the children are not the two original roots. -/
theorem combine_children_counterexample :
    SoftHeap.Combine 8 [⟨1, NodePtr.leaf 1, 1⟩, ⟨2, NodePtr.leaf 2, 2⟩] 0 1 =
      .ok [⟨1, .node [1] 1 true 1 1 .null (NodePtr.leaf 2), 1⟩] ∧
    ¬ ((NodePtr.node [1] 1 true 1 1 .null (NodePtr.leaf 2)).left_child = NodePtr.leaf 1 ∧
       (NodePtr.node [1] 1 true 1 1 .null (NodePtr.leaf 2)).right_child = NodePtr.leaf 2) :=
  ⟨rfl, by decide⟩

/-- C16, amended (Combine correctness).  For two adjacent trees with well-formed roots,
`Combine` returns: `tree1` keeps its slot, address and `min_ckey`, and its root becomes the
result `z` of sifting the fresh node of rank one above that of `tree1` whose children are
the two original roots; the slot of `tree2` is gone and every other tree is unchanged;
`z` has rank `k + 1` and holds exactly the elements of the two original roots, so that the
element count of the combined tree is the sum of the two counts. -/
theorem combine_correct (inverse_epsilon : Nat) (pre suf : List Tree) (t1 t2 : Tree)
    (h1 : t1.root.RootOK) (h2 : t2.root.RootOK) :
    ∃ z, SoftHeap.Combine inverse_epsilon (pre ++ t1 :: t2 :: suf) pre.length (pre.length + 1) =
        .ok (pre ++ { t1 with root := z } :: suf) ∧
      NodePtr.Sift ((NodePtr.node [] 0 true (t1.root.rk + 1)
          (target_size inverse_epsilon (t1.root.rk + 1)) t1.root t2.root).count + 1)
        (NodePtr.node [] 0 true (t1.root.rk + 1)
          (target_size inverse_epsilon (t1.root.rk + 1)) t1.root t2.root) = .ok z ∧
      z.RootOK ∧ z.rk = t1.root.rk + 1 ∧
      z.elems.Perm (t1.root.elems ++ t2.root.elems) ∧
      z.elems.length = t1.root.elems.length + t2.root.elems.length := by
  obtain ⟨z, hz, hzok, hzrk, hzel⟩ := NodePtr.fuse_spec inverse_epsilon h1 h2
  refine ⟨z, ?_, ?_, hzok, hzrk, hzel, by rw [hzel.length_eq, List.length_append]⟩
  · have e1 : (pre ++ t1 :: t2 :: suf)[pre.length]? = some t1 := by
      rw [List.getElem?_append_right (le_refl _)]
      simp
    have e2 : (pre ++ t1 :: t2 :: suf)[pre.length + 1]? = some t2 := by
      rw [List.getElem?_append_right (by omega)]
      simp
    rw [SoftHeap.Combine]
    simp only [e1, e2]
    rw [MakeNodePtr, hz, ok_bind, set_erase_mid]
    rfl
  · cases hx : t1.root with
    | null => exact absurd hx h1.1
    | node es ck cp rk sz l r =>
      rw [hx] at hz
      exact hz

/-- Witness of C16: the two rightmost trees of a three-tree forest. -/
theorem combine_correct_witness :
    (NodePtr.leaf 1).RootOK ∧ (NodePtr.leaf 2).RootOK ∧
    ∃ z, SoftHeap.Combine 8 ([⟨3, NodePtr.leaf 7, 3⟩] ++ ⟨1, NodePtr.leaf 1, 1⟩ ::
          ⟨2, NodePtr.leaf 2, 2⟩ :: []) [(⟨3, NodePtr.leaf 7, 3⟩ : Tree)].length
          ([(⟨3, NodePtr.leaf 7, 3⟩ : Tree)].length + 1) =
        .ok ([⟨3, NodePtr.leaf 7, 3⟩] ++
          { (⟨1, NodePtr.leaf 1, 1⟩ : Tree) with root := z } :: []) ∧
      NodePtr.Sift ((NodePtr.node [] 0 true ((NodePtr.leaf 1).rk + 1)
          (target_size 8 ((NodePtr.leaf 1).rk + 1)) (NodePtr.leaf 1) (NodePtr.leaf 2)).count + 1)
        (NodePtr.node [] 0 true ((NodePtr.leaf 1).rk + 1)
          (target_size 8 ((NodePtr.leaf 1).rk + 1)) (NodePtr.leaf 1) (NodePtr.leaf 2)) = .ok z ∧
      z.RootOK ∧ z.rk = (NodePtr.leaf 1).rk + 1 ∧
      z.elems.Perm ((NodePtr.leaf 1).elems ++ (NodePtr.leaf 2).elems) ∧
      z.elems.length = (NodePtr.leaf 1).elems.length + (NodePtr.leaf 2).elems.length :=
  ⟨by decide, by decide,
    combine_correct 8 [⟨3, NodePtr.leaf 7, 3⟩] [] ⟨1, NodePtr.leaf 1, 1⟩ ⟨2, NodePtr.leaf 2, 2⟩
      (by decide) (by decide)⟩

namespace NodePtr

theorem LowerBound_mono {x : NodePtr} {a b : Element} (h : x.LowerBound b) (hab : a ≤ b) :
    x.LowerBound a := by
  cases x with
  | null => trivial
  | node es ck cp rk sz l r => exact le_trans hab h

theorem pick_bound {l r : NodePtr} {ces : List Element} {cck : Element} {ccp : Bool}
    {crk csz : Nat} {cl cr : NodePtr}
    (h : (if pick_right l r then r else l) = node ces cck ccp crk csz cl cr) :
    l.LowerBound cck ∧ r.LowerBound cck := by
  cases l with
  | null =>
    simp only [pick_right, if_true] at h
    subst h
    exact ⟨trivial, le_refl _⟩
  | node les lck lcp lrk lsz ll lr =>
    cases r with
    | null =>
      simp only [pick_right, Bool.false_eq_true, if_false] at h
      cases h
      exact ⟨le_refl _, trivial⟩
    | node res rck rcp rrk rsz rl rr =>
      simp only [pick_right, decide_eq_true_eq] at h
      by_cases hlt : rck < lck
      · rw [if_pos hlt] at h
        cases h
        exact ⟨le_of_lt hlt, le_refl _⟩
      · rw [if_neg hlt] at h
        cases h
        exact ⟨le_refl _, not_lt.1 hlt⟩

/-- Sifting keeps the heap order on the corrupted keys, and a lower bound of the keys
of the two children stays a lower bound of the key of the result. -/
theorem Sift_ordered : ∀ (fuel : Nat) (b : Element) (es : List Element) (ck : Element)
    (cp : Bool) (rk sz : Nat) (l r y : NodePtr),
    Sift fuel (node es ck cp rk sz l r) = .ok y →
    l.KeyOrdered → r.KeyOrdered → (∀ e ∈ es, l.LowerBound e ∧ r.LowerBound e) →
    l.LowerBound b → r.LowerBound b →
    (¬ (es.length < sz ∧ ¬ (l = null ∧ r = null)) →
      (∀ e ∈ es, e ≤ ck) ∧ b ≤ ck ∧ l.LowerBound ck ∧ r.LowerBound ck) →
    y.KeyOrdered ∧ y.LowerBound b := by
  intro fuel
  induction fuel with
  | zero => intro b es ck cp rk sz l r y h; cases h
  | succ fuel ih =>
    intro b es ck cp rk sz l r y h hl hr hes hbl hbr hstop
    by_cases hc : es.length < sz ∧ ¬ (l = null ∧ r = null)
    · have hne := pick_right_child hc.2
      have hcord : (if pick_right l r then r else l).KeyOrdered := by split <;> assumption
      have hcb : (if pick_right l r then r else l).LowerBound b := by split <;> assumption
      have hces : ∀ e ∈ es, (if pick_right l r then r else l).LowerBound e := by
        intro e he
        split
        · exact (hes e he).2
        · exact (hes e he).1
      cases hch : (if pick_right l r then r else l) with
      | null => exact absurd hch hne
      | node ces cck ccp crk csz cl cr =>
        rw [hch] at hcord hcb hces
        obtain ⟨o1, o2, o3, o4, o5⟩ := hcord
        obtain ⟨pl, pr⟩ := pick_bound hch
        rw [Sift_succ_node fuel es ck cp rk sz l r ces cck ccp crk csz cl cr hc hch] at h
        have hchild : ∀ c, (if cl = null ∧ cr = null then (pure null : Except Failure NodePtr)
            else Sift fuel (node [] cck ccp crk csz cl cr)) = .ok c →
            c.KeyOrdered ∧ c.LowerBound cck := by
          intro c hceq
          by_cases hleaf : cl = null ∧ cr = null
          · rw [if_pos hleaf] at hceq
            cases hceq
            exact ⟨trivial, trivial⟩
          · rw [if_neg hleaf] at hceq
            exact ih cck [] cck ccp crk csz cl cr c hceq o4 o5 (by simp) o2 o3
              (fun _ => ⟨by simp, le_refl _, o2, o3⟩)
        cases hceq : (if cl = null ∧ cr = null then (pure null : Except Failure NodePtr)
            else Sift fuel (node [] cck ccp crk csz cl cr)) with
        | error err => rw [hceq] at h; cases h
        | ok c =>
          rw [hceq, ok_bind] at h
          obtain ⟨c1, c2⟩ := hchild c hceq
          have hmem : ∀ e ∈ es ++ ces, e ≤ cck := by
            intro e he
            rcases List.mem_append.1 he with he | he
            · exact hces e he
            · exact o1 e he
          cases hpr : pick_right l r with
          | true =>
            rw [hpr] at h
            simp only [if_true] at h
            refine ih b (es ++ ces) cck cp rk sz l c y h hl c1 ?_ hbl (LowerBound_mono c2 hcb)
              (fun _ => ⟨hmem, hcb, pl, c2⟩)
            intro e he
            exact ⟨LowerBound_mono pl (hmem e he), LowerBound_mono c2 (hmem e he)⟩
          | false =>
            rw [hpr] at h
            simp only [Bool.false_eq_true, if_false] at h
            refine ih b (es ++ ces) cck cp rk sz c r y h c1 hr ?_ (LowerBound_mono c2 hcb) hbr
              (fun _ => ⟨hmem, hcb, c2, pr⟩)
            intro e he
            exact ⟨LowerBound_mono c2 (hmem e he), LowerBound_mono pr (hmem e he)⟩
    · rw [Sift, if_neg hc] at h
      cases h
      obtain ⟨s1, s2, s3, s4⟩ := hstop hc
      exact ⟨⟨s1, s3, s4, hl, hr⟩, s2⟩

/-- A heap-ordered node stays heap ordered under `Sift`. -/
theorem Sift_KeyOrdered (fuel : Nat) (x y : NodePtr) (hx : x.KeyOrdered)
    (h : Sift fuel x = .ok y) : y.KeyOrdered := by
  cases x with
  | null => cases fuel <;> cases h
  | node es ck cp rk sz l r =>
    obtain ⟨o1, o2, o3, o4, o5⟩ := hx
    refine (Sift_ordered fuel ck es ck cp rk sz l r y h o4 o5 ?_ o2 o3
      (fun _ => ⟨o1, le_refl _, o2, o3⟩)).1
    intro e he
    exact ⟨LowerBound_mono o2 (o1 e he), LowerBound_mono o3 (o1 e he)⟩

theorem fuse_KeyOrdered (ie : Nat) (x y z : NodePtr) (hx : x.KeyOrdered) (hy : y.KeyOrdered)
    (h : fuse ie x y = .ok z) : z.KeyOrdered := by
  cases x with
  | null => cases h
  | node es ck cp rk sz l r =>
    simp only [fuse] at h
    have hno : ¬ ¬ (([] : List Element).length < target_size ie (rk + 1) ∧
        ¬ (node es ck cp rk sz l r = null ∧ y = null)) := by
      intro hno
      exact absurd ⟨by simpa using target_size_pos ie (rk + 1), by simp⟩ hno
    cases y with
    | null =>
      exact (Sift_ordered _ ck [] 0 true (rk + 1) (target_size ie (rk + 1)) _ _ z h
        hx hy (by simp) (le_refl _) trivial (fun hn => absurd hn hno)).1
    | node yes yck ycp yrk ysz yl yr =>
      exact (Sift_ordered _ (min ck yck) [] 0 true (rk + 1) (target_size ie (rk + 1)) _ _ z h
        hx hy (by simp) (min_le_left _ _) (min_le_right _ _) (fun hn => absurd hn hno)).1

end NodePtr

theorem bind_ok_inv {α β : Type} {x : Except Failure α} {f : α → Except Failure β} {b : β}
    (h : (x >>= f) = .ok b) : ∃ a, x = .ok a ∧ f a = .ok b := by
  cases x with
  | error e => cases h
  | ok a => exact ⟨a, rfl, h⟩

theorem Tree.rank_inv {t : Tree} {k : Nat} (h : t.rank = .ok k) :
    t.root ≠ .null ∧ k = t.root.rk := by
  rw [Tree.rank] at h
  cases hr : t.root with
  | null => rw [hr] at h; cases h
  | node es ck cp rk sz l r =>
    rw [hr] at h
    cases h
    exact ⟨by simp, rfl⟩

/-- The carry loop only fuses neighbouring roots of equal rank. -/
theorem carry_loop_Carry (ie k : Nat) : ∀ (fuel : Nat) (trees : List Tree) (i : Nat)
    (ts : List Tree) (stop : Option Nat), carry_loop ie k fuel trees i = .ok (ts, stop) →
    Carry ie (trees.map Tree.root) (ts.map Tree.root) := by
  intro fuel
  induction fuel with
  | zero => intro trees i ts stop h; cases h
  | succ fuel ih =>
    intro trees i ts stop h
    rw [carry_loop] at h
    cases h0 : trees[i]? with
    | none =>
      simp only [h0] at h
      cases h
      exact Carry.stay _
    | some t =>
      cases h1 : trees[i + 1]? with
      | some nx =>
        simp only [h0, h1] at h
        obtain ⟨rk, hrk, h⟩ := bind_ok_inv h
        obtain ⟨nrk, hnrk, h⟩ := bind_ok_inv h
        obtain ⟨_, rfl⟩ := Tree.rank_inv hrk
        obtain ⟨_, rfl⟩ := Tree.rank_inv hnrk
        by_cases heq : t.root.rk = nx.root.rk
        · rw [if_pos heq] at h
          obtain ⟨z, hz, h⟩ := bind_ok_inv h
          obtain ⟨pre, suf, rfl, rfl⟩ := split_at_two h0 h1
          rw [set_erase_mid] at h
          have := ih _ _ _ _ h
          simp only [List.map_append, List.map_cons] at this ⊢
          exact Carry.step _ _ _ z _ _ heq hz this
        · rw [if_neg heq] at h
          by_cases hk : t.root.rk > k
          · rw [if_pos hk] at h
            cases h
            exact Carry.stay _
          · rw [if_neg hk] at h
            exact ih _ _ _ _ h
      | none =>
        simp only [h0, h1] at h
        obtain ⟨rk, hrk, h⟩ := bind_ok_inv h
        obtain ⟨_, rfl⟩ := Tree.rank_inv hrk
        by_cases hk : t.root.rk > k
        · rw [if_pos hk] at h
          cases h
          exact Carry.stay _
        · rw [if_neg hk] at h
          exact ih _ _ _ _ h

/-- The roots after `Insert`: the new leaf is put somewhere among the old roots, and
neighbouring roots of equal rank are fused. -/
theorem SoftHeap.Insert_roots (ie : Nat) (h h1 : SoftHeap) (e : Element)
    (hi : SoftHeap.Insert ie h e = .ok h1) :
    ∃ pre suf, h.trees.map Tree.root = pre ++ suf ∧
      Carry ie (pre ++ NodePtr.leaf e :: suf) (h1.trees.map Tree.root) := by
  rw [SoftHeap.Insert] at hi
  cases htrees : h.trees with
  | nil =>
    simp only [htrees] at hi
    cases hi
    exact ⟨[], [], rfl, Carry.stay _⟩
  | cons first rest =>
    simp only [htrees] at hi
    obtain ⟨rk, hrk, hi⟩ := bind_ok_inv hi
    obtain ⟨_, rfl⟩ := Tree.rank_inv hrk
    by_cases h0 : first.root.rk = 0
    · rw [if_pos h0] at hi
      obtain ⟨z, hz, hi⟩ := bind_ok_inv hi
      obtain ⟨p, hp, hi⟩ := bind_ok_inv hi
      obtain ⟨ts1, stop⟩ := p
      have hc := carry_loop_Carry ie 0 _ _ _ _ _ hp
      simp only [List.map_cons] at hc
      have hroots : h1.trees.map Tree.root = ts1.map Tree.root := by
        cases stop with
        | none => simp only at hi; cases hi; rfl
        | some i =>
          simp only at hi
          obtain ⟨ts2, h2, hi⟩ := bind_ok_inv hi
          cases hi
          exact (UpdateSuffixMin_roots _ _ _ h2).1
      refine ⟨[first.root], rest.map Tree.root, rfl, ?_⟩
      rw [hroots]
      exact Carry.step [] first.root (NodePtr.leaf e) z _ _ (by rw [h0]; rfl) hz hc
    · rw [if_neg h0] at hi
      cases hi
      refine ⟨[], (first :: rest).map Tree.root, rfl, ?_⟩
      simp only [htrees, List.map_cons, List.nil_append]
      exact Carry.stay _

/-- The roots after the rebalancing step of `ExtractMin`: the popped root is sifted, or
its tree is erased, or it stays as it is. -/
theorem SoftHeap.rebalance_roots (pre suf : List Tree) (t : Tree) (es : List Element)
    (ck : Element) (cp : Bool) (rk sz : Nat) (l r : NodePtr) (ts : List Tree)
    (h : SoftHeap.rebalance (pre ++ t :: suf) pre.length t es ck cp rk sz l r = .ok ts) :
    (2 * es.length < sz ∧ ¬ (l = .null ∧ r = .null) ∧
      ∃ y, NodePtr.Sift ((NodePtr.node es ck cp rk sz l r).count + 1)
          (NodePtr.node es ck cp rk sz l r) = .ok y ∧
        ts.map Tree.root = pre.map Tree.root ++ y :: suf.map Tree.root) ∨
    (2 * es.length < sz ∧ (l = .null ∧ r = .null) ∧ es = [] ∧
      ts.map Tree.root = pre.map Tree.root ++ suf.map Tree.root) ∨
    (¬ (2 * es.length < sz ∧ (¬ (l = .null ∧ r = .null) ∨ es = [])) ∧
      ts.map Tree.root = pre.map Tree.root ++ NodePtr.node es ck cp rk sz l r ::
        suf.map Tree.root) := by
  rw [SoftHeap.rebalance] at h
  by_cases h1 : 2 * es.length < sz
  · rw [if_pos h1] at h
    by_cases h2 : ¬ (l = .null ∧ r = .null)
    · rw [if_pos h2] at h
      obtain ⟨y, hy, h⟩ := bind_ok_inv h
      rw [set_mid] at h
      have := (UpdateSuffixMin_roots _ _ _ h).1
      exact Or.inl ⟨h1, h2, y, hy, by simpa using this⟩
    · rw [if_neg h2] at h
      by_cases h3 : es = []
      · rw [if_pos h3, erase_mid] at h
        refine Or.inr (Or.inl ⟨h1, not_not.1 h2, h3, ?_⟩)
        by_cases h4 : pre.length ≠ 0
        · rw [if_pos h4] at h
          have := (UpdateSuffixMin_roots _ _ _ h).1
          simpa using this
        · rw [if_neg h4] at h
          cases h
          simp
      · rw [if_neg h3, set_mid] at h
        cases h
        refine Or.inr (Or.inr ⟨?_, by simp⟩)
        rintro ⟨_, h5 | h5⟩
        · exact h2 h5
        · exact h3 h5
  · rw [if_neg h1, set_mid] at h
    cases h
    exact Or.inr (Or.inr ⟨fun h5 => h1 h5.1, by simp⟩)

theorem RootsOrdered_iff (trees : List Tree) :
    RootsOrdered trees ↔ ∀ x ∈ trees.map Tree.root, x.KeyOrdered := by
  constructor
  · intro h x hx
    obtain ⟨t, ht, rfl⟩ := List.mem_map.1 hx
    exact h t ht
  · intro h t ht
    exact h _ (List.mem_map_of_mem _ ht)

theorem Carry_ordered (ie : Nat) (L L1 : List NodePtr) (hc : Carry ie L L1) :
    (∀ x ∈ L, x.KeyOrdered) → ∀ x ∈ L1, x.KeyOrdered := by
  induction hc with
  | stay L => exact fun h => h
  | step pre x y z suf L hrk hz _ ih =>
    intro h
    apply ih
    intro w hw
    rcases List.mem_append.1 hw with hw | hw
    · exact h w (List.mem_append_left _ hw)
    · rcases List.mem_cons.1 hw with rfl | hw
      · exact NodePtr.fuse_KeyOrdered ie x y w (h x (by simp)) (h y (by simp)) hz
      · exact h w (by simp [hw])

theorem SoftHeap.Insert_ordered (ie : Nat) (h h1 : SoftHeap) (e : Element)
    (hi : SoftHeap.Insert ie h e = .ok h1) (ho : RootsOrdered h.trees) :
    RootsOrdered h1.trees := by
  obtain ⟨pre, suf, hsplit, hc⟩ := SoftHeap.Insert_roots ie h h1 e hi
  rw [RootsOrdered_iff] at ho ⊢
  refine Carry_ordered ie _ _ hc ?_
  intro x hx
  rcases List.mem_append.1 hx with hx | hx
  · exact ho x (by rw [hsplit]; exact List.mem_append_left _ hx)
  · rcases List.mem_cons.1 hx with rfl | hx
    · simp [NodePtr.leaf, NodePtr.KeyOrdered, NodePtr.LowerBound]
    · exact ho x (by rw [hsplit]; exact List.mem_append_right _ hx)

/-- What `ExtractMin` does on a well-formed heap with heap-ordered roots. -/
theorem SoftHeap.ExtractMin_ordered (h : SoftHeap) (hw : WellFormed h)
    (ho : RootsOrdered h.trees) (hne : h.trees ≠ []) :
    ∃ front rest pre T suf es e ck cp rk sz l r h1,
      h.trees = front :: rest ∧ h.trees = pre ++ T :: suf ∧ T.addr = front.min_ckey ∧
      (∀ s ∈ pre, s.addr ≠ front.min_ckey) ∧
      T.root = .node (es ++ [e]) ck cp rk sz l r ∧
      SoftHeap.ExtractMin h = .ok (e, h1) ∧
      SoftHeap.rebalance h.trees pre.length T es ck cp rk sz l r = .ok h1.trees ∧
      (e :: forest_elems h1.trees).Perm (forest_elems h.trees) ∧
      e ≤ ck ∧ WellFormed h1 ∧ RootsOrdered h1.trees := by
  obtain ⟨front, rest, pre, T, suf, es, e, ck, cp, rk, sz, l, r, h1, hsplit, h3, h4, hx, he, _⟩ :=
    SoftHeap.ExtractMin_decomp h hw.1 hw.2 hne
  obtain ⟨e0, hh, hok, hwf, hperm, _⟩ := SoftHeap.ExtractMin_spec h hw hne
  rw [he] at hok
  obtain ⟨ts, hts, hpure⟩ := bind_ok_inv hok
  cases hpure
  have hT : T.root.KeyOrdered := ho T (by rw [hsplit]; simp)
  rw [hx] at hT
  obtain ⟨o1, o2, o3, o4, o5⟩ := hT
  have hxo : (NodePtr.node es ck cp rk sz l r).KeyOrdered :=
    ⟨fun a ha => o1 a (List.mem_append_left _ ha), o2, o3, o4, o5⟩
  refine ⟨front, rest, pre, T, suf, es, e, ck, cp, rk, sz, l, r, ⟨ts, _⟩, h1, hsplit, h3, h4,
    hx, he.trans (by rw [hts]; rfl), hts, hperm, o1 e (by simp), hwf, ?_⟩
  have hpre : ∀ x ∈ pre.map Tree.root, x.KeyOrdered := by
    intro x hx1
    obtain ⟨t, ht, rfl⟩ := List.mem_map.1 hx1
    exact ho t (by rw [hsplit]; exact List.mem_append_left _ ht)
  have hsuf : ∀ x ∈ suf.map Tree.root, x.KeyOrdered := by
    intro x hx1
    obtain ⟨t, ht, rfl⟩ := List.mem_map.1 hx1
    exact ho t (by rw [hsplit]; exact List.mem_append_right _ (List.mem_cons_of_mem _ ht))
  rw [hsplit] at hts
  rw [RootsOrdered_iff]
  show ∀ x ∈ ts.map Tree.root, x.KeyOrdered
  rcases SoftHeap.rebalance_roots pre suf T es ck cp rk sz l r ts hts with
    ⟨_, _, y, hy, hr⟩ | ⟨_, _, _, hr⟩ | ⟨_, hr⟩
  · rw [hr]
    intro x hx1
    rcases List.mem_append.1 hx1 with hx1 | hx1
    · exact hpre x hx1
    · rcases List.mem_cons.1 hx1 with rfl | hx1
      · exact NodePtr.Sift_KeyOrdered _ _ _ hxo hy
      · exact hsuf x hx1
  · rw [hr]
    intro x hx1
    rcases List.mem_append.1 hx1 with hx1 | hx1
    · exact hpre x hx1
    · exact hsuf x hx1
  · rw [hr]
    intro x hx1
    rcases List.mem_append.1 hx1 with hx1 | hx1
    · exact hpre x hx1
    · rcases List.mem_cons.1 hx1 with rfl | hx1
      · exact hxo
      · exact hsuf x hx1

theorem SoftHeap.ExtractMin_nonempty {h : SoftHeap} {p : Element × SoftHeap}
    (hp : SoftHeap.ExtractMin h = .ok p) : h.trees ≠ [] := by
  intro hnil
  rw [SoftHeap.ExtractMin, hnil] at hp
  cases hp

/-- Heaps reached by `Insert` and `ExtractMin` calls are well formed and heap ordered. -/
theorem run_ops_ordered (ie : Nat) : ∀ (ops : List Op) (h h1 : SoftHeap),
    run_ops ie h ops = .ok h1 → WellFormed h → RootsOrdered h.trees →
    WellFormed h1 ∧ RootsOrdered h1.trees := by
  intro ops
  induction ops with
  | nil =>
    intro h h1 hrun hw ho
    cases hrun
    exact ⟨hw, ho⟩
  | cons op ops ih =>
    intro h h1 hrun hw ho
    cases op with
    | Insert e =>
      rw [run_ops] at hrun
      obtain ⟨h2, hins, hrun⟩ := bind_ok_inv hrun
      obtain ⟨h3, hins3, hw3, _⟩ := SoftHeap.Insert_spec ie h e hw
      rw [hins] at hins3
      cases hins3
      exact ih h2 h1 hrun hw3 (SoftHeap.Insert_ordered ie h h2 e hins ho)
    | ExtractMin =>
      rw [run_ops] at hrun
      obtain ⟨p, hex, hrun⟩ := bind_ok_inv hrun
      obtain ⟨_, _, _, _, _, _, e, _, _, _, _, _, _, h2, _, _, _, _, _, hex2, _, _, _, hw2, ho2⟩ :=
        SoftHeap.ExtractMin_ordered h hw ho (SoftHeap.ExtractMin_nonempty hex)
      rw [hex] at hex2
      cases hex2
      exact ih h2 h1 hrun hw2 ho2

/-- C15 (witness minimum).  Let `h` be a heap with at least one tree, reached from
`SoftHeap()` or `SoftHeap(e0)` by `Insert` and `ExtractMin` calls.  Then `ExtractMin`
returns, and it returns the last element `e` of the buffer `es ++ [e]` of the root of the
tree `T` designated by `trees.front().min_ckey` (the first tree with that address); the
rebalancing step runs on that root with the buffer `es`, the heap afterwards holds the
elements of `h` less one copy of `e`, and `e` is at most the `ckey` the root of `T` had
when the call began. -/
theorem extract_min_witness_minimum (inverse_epsilon : Nat) (h0 h : SoftHeap) (e0 : Element)
    (ops : List Op) (hstart : h0 = SoftHeap.empty ∨ h0 = SoftHeap.singleton e0)
    (hrun : run_ops inverse_epsilon h0 ops = .ok h) (hne : h.trees ≠ []) :
    ∃ front rest pre T suf es e ck cp rk sz l r h1,
      h.trees = front :: rest ∧ h.trees = pre ++ T :: suf ∧ T.addr = front.min_ckey ∧
      (∀ s ∈ pre, s.addr ≠ front.min_ckey) ∧
      T.root = .node (es ++ [e]) ck cp rk sz l r ∧
      SoftHeap.ExtractMin h = .ok (e, h1) ∧
      SoftHeap.rebalance h.trees pre.length T es ck cp rk sz l r = .ok h1.trees ∧
      (e :: forest_elems h1.trees).Perm (forest_elems h.trees) ∧
      e ≤ ck := by
  have hstart2 : WellFormed h0 ∧ RootsOrdered h0.trees := by
    rcases hstart with rfl | rfl
    · exact ⟨empty_WellFormed, fun t ht => by cases ht⟩
    · refine ⟨SoftHeap.singleton_WellFormed e0, fun t ht => ?_⟩
      rw [SoftHeap.singleton, List.mem_singleton] at ht
      subst ht
      simp [NodePtr.leaf, NodePtr.KeyOrdered, NodePtr.LowerBound]
  obtain ⟨hw, ho⟩ := run_ops_ordered inverse_epsilon ops h0 h hrun hstart2.1 hstart2.2
  obtain ⟨front, rest, pre, T, suf, es, e, ck, cp, rk, sz, l, r, h1, q1, q2, q3, q4, q5, q6, q7,
    q8, q9, _, _⟩ := SoftHeap.ExtractMin_ordered h hw ho hne
  exact ⟨front, rest, pre, T, suf, es, e, ck, cp, rk, sz, l, r, h1, q1, q2, q3, q4, q5, q6, q7,
    q8, q9⟩

/-- Witness of C15: the heap of 5 after the insertions of 3, 8, 1, 9 and 2. -/
theorem extract_min_witness_minimum_witness :
    (SoftHeap.singleton 5 = SoftHeap.empty ∨ SoftHeap.singleton 5 = SoftHeap.singleton 5) ∧
    run_ops 8 (SoftHeap.singleton 5)
      [Op.Insert 3, Op.Insert 8, Op.Insert 1, Op.Insert 9, Op.Insert 2] = .ok scenario_heap ∧
    scenario_heap.trees ≠ [] ∧
    ∃ front rest pre T suf es e ck cp rk sz l r h1,
      scenario_heap.trees = front :: rest ∧ scenario_heap.trees = pre ++ T :: suf ∧
      T.addr = front.min_ckey ∧ (∀ s ∈ pre, s.addr ≠ front.min_ckey) ∧
      T.root = .node (es ++ [e]) ck cp rk sz l r ∧
      SoftHeap.ExtractMin scenario_heap = .ok (e, h1) ∧
      SoftHeap.rebalance scenario_heap.trees pre.length T es ck cp rk sz l r = .ok h1.trees ∧
      (e :: forest_elems h1.trees).Perm (forest_elems scenario_heap.trees) ∧
      e ≤ ck :=
  ⟨Or.inr rfl, rfl, by decide,
    extract_min_witness_minimum 8 (SoftHeap.singleton 5) scenario_heap 5
      [Op.Insert 3, Op.Insert 8, Op.Insert 1, Op.Insert 9, Op.Insert 2] (Or.inr rfl) rfl
      (by decide)⟩

namespace NodePtr

/-- Sifting an emptied node of target size 1 over unit children that are not both absent
gives a unit node of the same rank. -/
theorem Sift_Unit : ∀ (fuel : Nat) (ck : Element) (cp : Bool) (rk : Nat) (l r y : NodePtr),
    Sift fuel (node [] ck cp rk 1 l r) = .ok y → l.Unit → r.Unit → ¬ (l = null ∧ r = null) →
    y.Unit ∧ y.rk = rk := by
  intro fuel
  induction fuel with
  | zero => intro ck cp rk l r y h; cases h
  | succ fuel ih =>
    intro ck cp rk l r y h hl hr hnl
    have hc : ([] : List Element).length < 1 ∧ ¬ (l = null ∧ r = null) := ⟨by simp, hnl⟩
    have hne := pick_right_child hnl
    have hcu : (if pick_right l r then r else l).Unit := by split <;> assumption
    cases hch : (if pick_right l r then r else l) with
    | null => exact absurd hch hne
    | node ces cck ccp crk csz cl cr =>
      rw [hch] at hcu
      obtain ⟨rfl, rfl, u3, u4⟩ := hcu
      rw [Sift_succ_node fuel [] ck cp rk 1 l r [cck] cck ccp crk 1 cl cr hc hch] at h
      obtain ⟨c, hceq, h⟩ := bind_ok_inv h
      have hcunit : c.Unit := by
        by_cases hleaf : cl = null ∧ cr = null
        · rw [if_pos hleaf] at hceq
          cases hceq
          trivial
        · rw [if_neg hleaf] at hceq
          exact (ih cck ccp crk cl cr c hceq u3 u4 hleaf).1
      cases fuel with
      | zero => split at h <;> cases h
      | succ fuel =>
        cases hpr : pick_right l r with
        | true =>
          rw [hpr] at h
          simp only [if_true, List.nil_append] at h
          rw [Sift, if_neg (by simp)] at h
          cases h
          exact ⟨⟨rfl, rfl, hl, hcunit⟩, rfl⟩
        | false =>
          rw [hpr] at h
          simp only [Bool.false_eq_true, if_false, List.nil_append] at h
          rw [Sift, if_neg (by simp)] at h
          cases h
          exact ⟨⟨rfl, rfl, hcunit, hr⟩, rfl⟩

theorem fuse_Unit (ie : Nat) (x y z : NodePtr) (h : fuse ie x y = .ok z) (hx : x.Unit)
    (hy : y.Unit) (hrk : x.rk + 1 ≤ reliable_rank ie) : z.Unit ∧ z.rk = x.rk + 1 := by
  cases x with
  | null => cases h
  | node es ck cp rk sz l r =>
    simp only [fuse] at h
    have hts : target_size ie (rk + 1) = 1 := by
      rw [target_size, if_pos (show rk + 1 ≤ reliable_rank ie from hrk)]
    rw [hts] at h
    exact Sift_Unit _ 0 true (rk + 1) _ y z h hx hy (by simp)

end NodePtr

theorem forest_weight_append (l1 l2 : List NodePtr) :
    forest_weight (l1 ++ l2) = forest_weight l1 + forest_weight l2 := by
  induction l1 with
  | nil => simp [forest_weight]
  | cons x l1 ih =>
    show forest_weight (x :: (l1 ++ l2)) = _
    simp only [forest_weight, ih]
    omega

/-- Under the weight `2 ^ (reliable_rank + 1)` the carry loop keeps the roots unit and
keeps the weight. -/
theorem Carry_unit (ie : Nat) (L L1 : List NodePtr) (hc : Carry ie L L1) :
    (∀ x ∈ L, x.Unit) → forest_weight L < 2 ^ (reliable_rank ie + 1) →
    (∀ x ∈ L1, x.Unit) ∧ forest_weight L1 = forest_weight L := by
  induction hc with
  | stay L => exact fun h _ => ⟨h, rfl⟩
  | step pre x y z suf L hrk hz _ ih =>
    intro h hw
    have hw2 : forest_weight (pre ++ x :: y :: suf) =
        forest_weight pre + (2 ^ (x.rk + 1) + forest_weight suf) := by
      rw [forest_weight_append]
      simp only [forest_weight, ← hrk, pow_succ]
      omega
    have hlt : 2 ^ (x.rk + 1) < 2 ^ (reliable_rank ie + 1) := by omega
    have hle : x.rk + 1 ≤ reliable_rank ie := by
      have := (Nat.pow_lt_pow_iff_right (by decide : 1 < 2)).1 hlt
      omega
    obtain ⟨hzu, hzr⟩ := NodePtr.fuse_Unit ie x y z hz (h x (by simp)) (h y (by simp)) hle
    have hw3 : forest_weight (pre ++ z :: suf) = forest_weight (pre ++ x :: y :: suf) := by
      rw [hw2, forest_weight_append]
      simp only [forest_weight, hzr]
    obtain ⟨i1, i2⟩ := ih (by
      intro w hw1
      rcases List.mem_append.1 hw1 with hw1 | hw1
      · exact h w (List.mem_append_left _ hw1)
      · rcases List.mem_cons.1 hw1 with rfl | hw1
        · exact hzu
        · exact h w (by simp [hw1])) (by rw [hw3]; exact hw)
    exact ⟨i1, i2.trans hw3⟩

theorem SoftHeap.Insert_unit (ie : Nat) (h h1 : SoftHeap) (e : Element)
    (hi : SoftHeap.Insert ie h e = .ok h1) (hu : ∀ x ∈ h.trees.map Tree.root, x.Unit)
    (hw : forest_weight (h.trees.map Tree.root) + 1 < 2 ^ (reliable_rank ie + 1)) :
    (∀ x ∈ h1.trees.map Tree.root, x.Unit) ∧
    forest_weight (h1.trees.map Tree.root) = forest_weight (h.trees.map Tree.root) + 1 := by
  obtain ⟨pre, suf, hsplit, hc⟩ := SoftHeap.Insert_roots ie h h1 e hi
  have hw2 : forest_weight (pre ++ NodePtr.leaf e :: suf) =
      forest_weight (h.trees.map Tree.root) + 1 := by
    rw [hsplit, forest_weight_append, forest_weight_append]
    simp only [forest_weight, NodePtr.leaf, NodePtr.rk, pow_zero]
    omega
  obtain ⟨i1, i2⟩ := Carry_unit ie _ _ hc (by
    intro x hx
    rcases List.mem_append.1 hx with hx | hx
    · exact hu x (by rw [hsplit]; exact List.mem_append_left _ hx)
    · rcases List.mem_cons.1 hx with rfl | hx
      · simp [NodePtr.leaf, NodePtr.Unit]
      · exact hu x (by rw [hsplit]; exact List.mem_append_right _ hx)) (by rw [hw2]; exact hw)
  exact ⟨i1, i2.trans hw2⟩

theorem SoftHeap.insert_all_unit (ie : Nat) : ∀ (es : List Element) (h h1 : SoftHeap),
    es.foldlM (SoftHeap.Insert ie) h = .ok h1 → (∀ x ∈ h.trees.map Tree.root, x.Unit) →
    forest_weight (h.trees.map Tree.root) + es.length < 2 ^ (reliable_rank ie + 1) →
    ∀ x ∈ h1.trees.map Tree.root, x.Unit := by
  intro es
  induction es with
  | nil =>
    intro h h1 hf hu _
    cases hf
    exact hu
  | cons e es ih =>
    intro h h1 hf hu hw
    rw [List.foldlM_cons] at hf
    obtain ⟨h2, hi, hf⟩ := bind_ok_inv hf
    rw [List.length_cons] at hw
    obtain ⟨i1, i2⟩ := SoftHeap.Insert_unit ie h h2 e hi hu (by omega)
    exact ih h2 h1 hf i1 (by rw [i2]; omega)

/-- On a well-formed heap of unit nodes `ExtractMinC` reports the element it returns
first, and leaves a well-formed heap of unit nodes. -/
theorem SoftHeap.ExtractMinC_unit (h : SoftHeap) (hw : WellFormed h)
    (hu : ∀ x ∈ h.trees.map Tree.root, x.Unit) (hne : h.trees ≠ []) :
    ∃ e rep h1, SoftHeap.ExtractMinC h = .ok ((e, rep), h1) ∧ rep.head? = some e ∧
      WellFormed h1 ∧ (∀ x ∈ h1.trees.map Tree.root, x.Unit) ∧
      (e :: forest_elems h1.trees).Perm (forest_elems h.trees) := by
  obtain ⟨front, rest, pre, T, suf, es, e, ck, cp, rk, sz, l, r, _, hsplit, _, _, hx, _, hc⟩ :=
    SoftHeap.ExtractMin_decomp h hw.1 hw.2 hne
  obtain ⟨e0, rep0, h1, hok, hwf, hperm, _⟩ := SoftHeap.ExtractMinC_spec h hw hne
  have hT : T.root.Unit := hu _ (List.mem_map_of_mem _ (by rw [hsplit]; simp))
  rw [hx] at hT
  obtain ⟨u1, rfl, u3, u4⟩ := hT
  have hes : es = [] ∧ e = ck := by
    cases es with
    | nil => simpa using u1
    | cons a es => simp at u1
  obtain ⟨rfl, rfl⟩ := hes
  rw [hc] at hok
  simp only [decide_True, if_true] at hok
  obtain ⟨p, hrb, hpure⟩ := bind_ok_inv hok
  obtain ⟨ts, rep⟩ := p
  cases hpure
  rw [hsplit] at hrb
  obtain ⟨hpre, _, _⟩ := SoftHeap.rebalanceC_shape pre suf T [] e false rk 1 l r [e] rep ts hrb
  have hrb2 : SoftHeap.rebalance (pre ++ T :: suf) pre.length T [] e false rk 1 l r = .ok ts := by
    rw [← SoftHeap.rebalanceC_fst _ _ _ _ _ _ _ _ _ _ [e], hrb]
    rfl
  refine ⟨e, rep, ⟨ts, h.c_size⟩, by rw [hc]; simp only [decide_True, if_true]; rw [hsplit, hrb]; rfl,
    ?_, hwf, ?_, hperm⟩
  · obtain ⟨tl, rfl⟩ := hpre
    rfl
  · have hpu : ∀ x ∈ pre.map Tree.root, x.Unit := by
      intro x hx1
      obtain ⟨t, ht, rfl⟩ := List.mem_map.1 hx1
      exact hu _ (List.mem_map_of_mem _ (by rw [hsplit]; exact List.mem_append_left _ ht))
    have hsu : ∀ x ∈ suf.map Tree.root, x.Unit := by
      intro x hx1
      obtain ⟨t, ht, rfl⟩ := List.mem_map.1 hx1
      exact hu _ (List.mem_map_of_mem _
        (by rw [hsplit]; exact List.mem_append_right _ (List.mem_cons_of_mem _ ht)))
    show ∀ x ∈ ts.map Tree.root, x.Unit
    rcases SoftHeap.rebalance_roots pre suf T [] e false rk 1 l r ts hrb2 with
      ⟨_, hnl, y, hy, hr⟩ | ⟨_, _, _, hr⟩ | ⟨hno, _⟩
    · rw [hr]
      intro x hx1
      rcases List.mem_append.1 hx1 with hx1 | hx1
      · exact hpu x hx1
      · rcases List.mem_cons.1 hx1 with rfl | hx1
        · exact (NodePtr.Sift_Unit _ _ _ _ _ _ _ hy u3 u4 hnl).1
        · exact hsu x hx1
    · rw [hr]
      intro x hx1
      rcases List.mem_append.1 hx1 with hx1 | hx1
      · exact hpu x hx1
      · exact hsu x hx1
    · exact absurd ⟨by simp, Or.inr rfl⟩ hno

theorem total_corrupted_cons (p : Element × List Element) (ps : List (Element × List Element)) :
    total_corrupted (p :: ps) = p.2.length + total_corrupted ps := by
  simp [total_corrupted]

/-- Draining a well-formed heap of unit nodes by `ExtractMinC`: every call returns and
reports the element it returns. -/
theorem drainC_unit : ∀ (n : Nat) (h : SoftHeap), WellFormed h →
    (∀ x ∈ h.trees.map Tree.root, x.Unit) → (forest_elems h.trees).length = n →
    ∃ out h1, drainC n h = .ok (out, h1) ∧ out.length = n ∧
      (∀ p ∈ out, p.2.head? = some p.1) ∧ n ≤ total_corrupted out ∧
      (out.map Prod.fst).Perm (forest_elems h.trees) := by
  intro n
  induction n with
  | zero =>
    intro h _ _ hlen
    refine ⟨[], h, rfl, rfl, (fun p hp => by cases hp), Nat.zero_le _, ?_⟩
    rw [List.length_eq_zero.1 hlen]
    exact List.Perm.refl _
  | succ n ih =>
    intro h hw hu hlen
    have hne : h.trees ≠ [] := by
      intro hnil
      rw [hnil] at hlen
      simp [forest_elems] at hlen
    obtain ⟨e, rep, h1, hex, hhead, hw1, hu1, hperm⟩ := SoftHeap.ExtractMinC_unit h hw hu hne
    have hlen1 : (forest_elems h1.trees).length = n := by
      have := hperm.length_eq
      rw [List.length_cons] at this
      omega
    obtain ⟨out, h2, hd, hol, hoh, hot, hop⟩ := ih h1 hw1 hu1 hlen1
    refine ⟨(e, rep) :: out, h2, ?_, by rw [List.length_cons, hol], ?_, ?_, ?_⟩
    · rw [drainC, hex, ok_bind]
      simp only [hd, ok_bind]
      rfl
    · intro p hp
      rcases List.mem_cons.1 hp with rfl | hp
      · exact hhead
      · exact hoh p hp
    · rw [total_corrupted_cons]
      have : 1 ≤ rep.length := by
        cases rep with
        | nil => cases hhead
        | cons a rep => simp
      simp only
      omega
    · simp only [List.map_cons]
      exact (List.Perm.cons e hop).trans hperm

/-- C19, counterexample.  With `inverse_epsilon = 8`, the heap built by the one `Insert` of
5 and drained by one `ExtractMinC` reports the list `[5]`: one corrupted element, more
than `n / 8` for `n = 1`.  The same for the six insertions of 5, 3, 8, 1, 9, 2: eleven
reported elements. -/
theorem corruption_bound_counterexample :
    ([5].foldlM (SoftHeap.Insert 8) SoftHeap.empty >>= drainC 1) =
      .ok ([(5, [5])], ⟨[], 1⟩) ∧
    ¬ (8 * total_corrupted [(5, [5])] ≤ 1) ∧
    ([5, 3, 8, 1, 9, 2].foldlM (SoftHeap.Insert 8) SoftHeap.empty >>= drainC 6) =
      .ok ([(1, [1, 3, 5]), (2, [2, 9]), (3, [3, 5]), (5, [5, 8]), (8, [8]), (9, [9])],
        ⟨[], 6⟩) ∧
    ¬ (8 * total_corrupted
      [(1, [1, 3, 5]), (2, [2, 9]), (3, [3, 5]), (5, [5, 8]), (8, [8]), (9, [9])] ≤ 6) :=
  ⟨rfl, by decide, rfl, by decide⟩

/-- C19, amended (corruption report of a drain).  For every `n ≥ 1` below
`2 ^ (reliable_rank + 1)` and every `inverse_epsilon`: the heap built by `n` `Insert` calls
is drained by `n` successive `ExtractMinC` calls, every call returns a list whose first
entry is the element it returns, the returned elements are the inserted ones, and the
total number of reported elements is at least `n`; so it is above `n / inverse_epsilon`
as soon as `inverse_epsilon > 1`. -/
theorem corruption_report_total (inverse_epsilon : Nat) (xs : List Element)
    (hn : 1 ≤ xs.length) (hsmall : xs.length < 2 ^ (reliable_rank inverse_epsilon + 1)) :
    ∃ h out h1, xs.foldlM (SoftHeap.Insert inverse_epsilon) SoftHeap.empty = .ok h ∧
      drainC xs.length h = .ok (out, h1) ∧ out.length = xs.length ∧
      (out.map Prod.fst).Perm xs ∧
      (∀ p ∈ out, p.2.head? = some p.1) ∧ xs.length ≤ total_corrupted out ∧
      (1 < inverse_epsilon → ¬ (inverse_epsilon * total_corrupted out ≤ xs.length)) := by
  obtain ⟨h, hf, hw, hel, _, _⟩ :=
    SoftHeap.insert_all_spec inverse_epsilon xs SoftHeap.empty empty_WellFormed
  have hu := SoftHeap.insert_all_unit inverse_epsilon xs SoftHeap.empty h hf
    (fun x hx => by cases hx) (by simpa [SoftHeap.empty, forest_weight] using hsmall)
  have hel2 : (forest_elems h.trees).Perm xs := by
    simpa [SoftHeap.empty, forest_elems] using hel
  obtain ⟨out, h1, hd, hol, hoh, hot, hop⟩ := drainC_unit xs.length h hw hu hel2.length_eq
  refine ⟨h, out, h1, hf, hd, hol, hop.trans hel2, hoh, hot, ?_⟩
  intro hie hle
  have h2 : 2 * total_corrupted out ≤ inverse_epsilon * total_corrupted out :=
    Nat.mul_le_mul_right _ hie
  omega

/-- Witness of C19: the insertions of 5, 3, 8, 1, 9, 2 with `inverse_epsilon = 8`. -/
theorem corruption_report_total_witness :
    1 ≤ [(5 : Element), 3, 8, 1, 9, 2].length ∧
    [(5 : Element), 3, 8, 1, 9, 2].length < 2 ^ (reliable_rank 8 + 1) ∧
    ∃ h out h1, [(5 : Element), 3, 8, 1, 9, 2].foldlM (SoftHeap.Insert 8) SoftHeap.empty =
        .ok h ∧
      drainC [(5 : Element), 3, 8, 1, 9, 2].length h = .ok (out, h1) ∧
      out.length = [(5 : Element), 3, 8, 1, 9, 2].length ∧
      (out.map Prod.fst).Perm [5, 3, 8, 1, 9, 2] ∧
      (∀ p ∈ out, p.2.head? = some p.1) ∧
      [(5 : Element), 3, 8, 1, 9, 2].length ≤ total_corrupted out ∧
      (1 < 8 → ¬ (8 * total_corrupted out ≤ [(5 : Element), 3, 8, 1, 9, 2].length)) :=
  ⟨by decide, by decide, corruption_report_total 8 [5, 3, 8, 1, 9, 2] (by decide) (by decide)⟩

/-- The three outcomes of the rebalancing step of `ExtractMin`, with the addresses. -/
theorem SoftHeap.rebalance_cases (pre suf : List Tree) (t : Tree) (es : List Element)
    (ck : Element) (cp : Bool) (rk sz : Nat) (l r : NodePtr) (ts : List Tree) (hsz : 1 ≤ sz)
    (h : SoftHeap.rebalance (pre ++ t :: suf) pre.length t es ck cp rk sz l r = .ok ts) :
    ((2 * es.length < sz ∧ ¬ (l = .null ∧ r = .null)) →
      ∃ y, NodePtr.Sift ((NodePtr.node es ck cp rk sz l r).count + 1)
          (NodePtr.node es ck cp rk sz l r) = .ok y ∧
        ts.map Tree.addr = (pre ++ t :: suf).map Tree.addr ∧
        ts.map Tree.root = pre.map Tree.root ++ y :: suf.map Tree.root) ∧
    (((l = .null ∧ r = .null) ∧ es = []) →
      ts.map Tree.addr = (pre ++ suf).map Tree.addr ∧
      ts.map Tree.root = (pre ++ suf).map Tree.root ∧
      ts.length + 1 = (pre ++ t :: suf).length) ∧
    (¬ (2 * es.length < sz ∧ ¬ (l = .null ∧ r = .null)) → ¬ ((l = .null ∧ r = .null) ∧ es = []) →
      ts = pre ++ { t with root := NodePtr.node es ck cp rk sz l r } :: suf) := by
  rw [SoftHeap.rebalance] at h
  by_cases h1 : 2 * es.length < sz
  · rw [if_pos h1] at h
    by_cases h2 : ¬ (l = .null ∧ r = .null)
    · rw [if_pos h2] at h
      obtain ⟨y, hy, h⟩ := bind_ok_inv h
      rw [set_mid] at h
      obtain ⟨q1, q2⟩ := UpdateSuffixMin_roots _ _ _ h
      refine ⟨fun _ => ⟨y, hy, by simpa using q2, by simpa using q1⟩, fun h3 => absurd h3.1 h2,
        fun h3 => absurd ⟨h1, h2⟩ h3⟩
    · rw [if_neg h2] at h
      by_cases h3 : es = []
      · rw [if_pos h3, erase_mid] at h
        refine ⟨fun h4 => absurd h4.2 h2, fun _ => ?_, fun _ h4 => absurd ⟨not_not.1 h2, h3⟩ h4⟩
        by_cases h4 : pre.length ≠ 0
        · rw [if_pos h4] at h
          obtain ⟨q1, q2⟩ := UpdateSuffixMin_roots _ _ _ h
          refine ⟨q2, q1, ?_⟩
          have := congrArg List.length q2
          simp only [List.length_map, List.length_append, List.length_cons] at this ⊢
          omega
        · rw [if_neg h4] at h
          cases h
          refine ⟨rfl, rfl, ?_⟩
          simp only [List.length_append, List.length_cons]
          omega
      · rw [if_neg h3, set_mid] at h
        cases h
        exact ⟨fun h4 => absurd h4.2 h2, fun h4 => absurd h4.2 h3, fun _ _ => rfl⟩
  · rw [if_neg h1, set_mid] at h
    cases h
    refine ⟨fun h4 => absurd h4.1 h1, fun h4 => ?_, fun _ _ => rfl⟩
    exfalso
    apply h1
    rw [h4.2]
    simpa using hsz

/-- C21 (rebalancing decision of ExtractMin).  On a well-formed heap with at least one
tree (every node has target size at least 1), let `es` be the buffer of the chosen root
after the pop and `x` the root with that buffer.  `ExtractMin` returns, and: when
`2 * len < target_size` and the root is not a leaf, the root left in the slot is the result
of `Sift` on `x` and the trees keep their addresses and order; when the root is a leaf and
`es` is empty, the chosen tree is gone, the others keep their roots, addresses and order,
and the forest has one tree fewer; in every other case the forest is the one before the
call with `x` as root of the chosen tree: no sift, no removal. -/
theorem extract_min_rebalancing (h : SoftHeap) (hw : WellFormed h) (hne : h.trees ≠ []) :
    ∃ front rest pre T suf es e ck cp rk sz l r h1,
      h.trees = front :: rest ∧ h.trees = pre ++ T :: suf ∧ T.addr = front.min_ckey ∧
      (∀ s ∈ pre, s.addr ≠ front.min_ckey) ∧
      T.root = .node (es ++ [e]) ck cp rk sz l r ∧ 1 ≤ sz ∧
      SoftHeap.ExtractMin h = .ok (e, h1) ∧
      ((2 * es.length < sz ∧ ¬ (l = .null ∧ r = .null)) →
        ∃ y, NodePtr.Sift ((NodePtr.node es ck cp rk sz l r).count + 1)
            (NodePtr.node es ck cp rk sz l r) = .ok y ∧
          h1.trees.map Tree.addr = h.trees.map Tree.addr ∧
          h1.trees.map Tree.root = pre.map Tree.root ++ y :: suf.map Tree.root) ∧
      (((l = .null ∧ r = .null) ∧ es = []) →
        h1.trees.map Tree.addr = (pre ++ suf).map Tree.addr ∧
        h1.trees.map Tree.root = (pre ++ suf).map Tree.root ∧
        h1.trees.length + 1 = h.trees.length) ∧
      (¬ (2 * es.length < sz ∧ ¬ (l = .null ∧ r = .null)) →
        ¬ ((l = .null ∧ r = .null) ∧ es = []) →
        h1.trees = pre ++ { T with root := NodePtr.node es ck cp rk sz l r } :: suf) := by
  obtain ⟨front, rest, pre, T, suf, es, e, ck, cp, rk, sz, l, r, h1, hsplit, h3, h4, hx, he, _⟩ :=
    SoftHeap.ExtractMin_decomp h hw.1 hw.2 hne
  obtain ⟨e0, hh, hok, _⟩ := SoftHeap.ExtractMin_spec h hw hne
  rw [he] at hok
  obtain ⟨ts, hts, hpure⟩ := bind_ok_inv hok
  cases hpure
  have hT : T.root.RootOK := hw.1 T (by rw [hsplit]; simp)
  rw [hx] at hT
  have hsz : 1 ≤ sz := hT.2.2.1
  rw [hsplit] at hts
  obtain ⟨c1, c2, c3⟩ := SoftHeap.rebalance_cases pre suf T es ck cp rk sz l r ts hsz hts
  refine ⟨front, rest, pre, T, suf, es, e, ck, cp, rk, sz, l, r, ⟨ts, _⟩, h1, hsplit, h3, h4,
    hx, hsz, he.trans (by rw [hsplit, hts]; rfl), ?_, ?_, c3⟩
  · intro hc
    obtain ⟨y, hy, q1, q2⟩ := c1 hc
    exact ⟨y, hy, by rw [hsplit]; exact q1, q2⟩
  · intro hc
    obtain ⟨q1, q2, q3⟩ := c2 hc
    exact ⟨q1, q2, by rw [hsplit]; exact q3⟩

/-- Witness of C21 at the heap built from 5, 3, 8, 1, 9, 2. -/
theorem extract_min_rebalancing_witness :
    WellFormed scenario_heap ∧ scenario_heap.trees ≠ [] ∧
    ∃ front rest pre T suf es e ck cp rk sz l r h1,
      scenario_heap.trees = front :: rest ∧ scenario_heap.trees = pre ++ T :: suf ∧
      T.addr = front.min_ckey ∧ (∀ s ∈ pre, s.addr ≠ front.min_ckey) ∧
      T.root = .node (es ++ [e]) ck cp rk sz l r ∧ 1 ≤ sz ∧
      SoftHeap.ExtractMin scenario_heap = .ok (e, h1) ∧
      ((2 * es.length < sz ∧ ¬ (l = .null ∧ r = .null)) →
        ∃ y, NodePtr.Sift ((NodePtr.node es ck cp rk sz l r).count + 1)
            (NodePtr.node es ck cp rk sz l r) = .ok y ∧
          h1.trees.map Tree.addr = scenario_heap.trees.map Tree.addr ∧
          h1.trees.map Tree.root = pre.map Tree.root ++ y :: suf.map Tree.root) ∧
      (((l = .null ∧ r = .null) ∧ es = []) →
        h1.trees.map Tree.addr = (pre ++ suf).map Tree.addr ∧
        h1.trees.map Tree.root = (pre ++ suf).map Tree.root ∧
        h1.trees.length + 1 = scenario_heap.trees.length) ∧
      (¬ (2 * es.length < sz ∧ ¬ (l = .null ∧ r = .null)) →
        ¬ ((l = .null ∧ r = .null) ∧ es = []) →
        h1.trees = pre ++ { T with root := NodePtr.node es ck cp rk sz l r } :: suf) :=
  ⟨by decide, by decide, extract_min_rebalancing scenario_heap (by decide) (by decide)⟩

theorem forest_weight_ranks (trees : List Tree) :
    forest_weight (trees.map Tree.root) = ((forest_ranks trees).map (fun i => 2 ^ i)).sum := by
  induction trees with
  | nil => rfl
  | cons t ts ih =>
    simp only [List.map_cons, forest_weight, forest_ranks, List.sum_cons] at ih ⊢
    rw [ih]

/-- The carry loop keeps the weight of a forest with well-formed roots. -/
theorem Carry_weight (ie : Nat) (L L1 : List NodePtr) (hc : Carry ie L L1) :
    (∀ x ∈ L, x.RootOK) → (∀ x ∈ L1, x.RootOK) ∧ forest_weight L1 = forest_weight L := by
  induction hc with
  | stay L => exact fun h => ⟨h, rfl⟩
  | step pre x y z suf L hrk hz _ ih =>
    intro h
    obtain ⟨z1, hz1, hzok, hzrk, _⟩ :=
      NodePtr.fuse_spec ie (h x (by simp)) (h y (by simp))
    have hzz : z = z1 := by
      rw [MakeNodePtr, hz1] at hz
      cases hz
      rfl
    subst hzz
    have hw3 : forest_weight (pre ++ z :: suf) = forest_weight (pre ++ x :: y :: suf) := by
      rw [forest_weight_append, forest_weight_append]
      simp only [forest_weight, hzrk, ← hrk, pow_succ]
      omega
    obtain ⟨i1, i2⟩ := ih (by
      intro w hw1
      rcases List.mem_append.1 hw1 with hw1 | hw1
      · exact h w (List.mem_append_left _ hw1)
      · rcases List.mem_cons.1 hw1 with rfl | hw1
        · exact hzok
        · exact h w (by simp [hw1]))
    exact ⟨i1, i2.trans hw3⟩

/-- `Insert` adds 1 to the weight of a well-formed forest. -/
theorem SoftHeap.Insert_weight (ie : Nat) (h h1 : SoftHeap) (e : Element)
    (hw : WellFormed h) (hi : SoftHeap.Insert ie h e = .ok h1) :
    forest_weight (h1.trees.map Tree.root) = forest_weight (h.trees.map Tree.root) + 1 := by
  obtain ⟨pre, suf, hsplit, hc⟩ := SoftHeap.Insert_roots ie h h1 e hi
  have hw2 : forest_weight (pre ++ NodePtr.leaf e :: suf) =
      forest_weight (h.trees.map Tree.root) + 1 := by
    rw [hsplit, forest_weight_append, forest_weight_append]
    simp only [forest_weight, NodePtr.leaf, NodePtr.rk, pow_zero]
    omega
  have hroots : ∀ x ∈ h.trees.map Tree.root, x.RootOK := by
    intro x hx
    obtain ⟨t, ht, rfl⟩ := List.mem_map.1 hx
    exact hw.1 t ht
  obtain ⟨_, i2⟩ := Carry_weight ie _ _ hc (by
    intro x hx
    rcases List.mem_append.1 hx with hx | hx
    · exact hroots x (by rw [hsplit]; exact List.mem_append_left _ hx)
    · rcases List.mem_cons.1 hx with rfl | hx
      · exact NodePtr.leaf_RootOK e
      · exact hroots x (by rw [hsplit]; exact List.mem_append_right _ hx))
  exact i2.trans hw2

theorem SoftHeap.insert_all_weight (ie : Nat) : ∀ (es : List Element) (h h1 : SoftHeap),
    WellFormed h → es.foldlM (SoftHeap.Insert ie) h = .ok h1 →
    forest_weight (h1.trees.map Tree.root) =
      forest_weight (h.trees.map Tree.root) + es.length := by
  intro es
  induction es with
  | nil =>
    intro h h1 _ hf
    cases hf
    rfl
  | cons e es ih =>
    intro h h1 hw hf
    rw [List.foldlM_cons] at hf
    obtain ⟨h2, hi, hf⟩ := bind_ok_inv hf
    obtain ⟨h3, hi3, hw3, _⟩ := SoftHeap.Insert_spec ie h e hw
    rw [hi] at hi3
    cases hi3
    rw [ih h2 h1 hw3 hf, SoftHeap.Insert_weight ie h h2 e hw hi, List.length_cons]
    omega

/-- The ranks after `n - 1` insertions into a one-element heap. -/
theorem SoftHeap.counter_ranks (ie : Nat) (x : Element) (xs : List Element) :
    ∃ h, xs.foldlM (SoftHeap.Insert ie) (SoftHeap.singleton x) = .ok h ∧
      forest_ranks h.trees = (xs.length + 1).bitIndices := by
  obtain ⟨h, hf, _, _, _, hs⟩ :=
    SoftHeap.insert_all_spec ie xs (SoftHeap.singleton x) (SoftHeap.singleton_WellFormed x)
  have hw := SoftHeap.insert_all_weight ie xs _ h (SoftHeap.singleton_WellFormed x) hf
  have hs1 : StrictRanks h.trees := hs (by
    simp [StrictRanks, forest_ranks, SoftHeap.singleton])
  have hsum : ((forest_ranks h.trees).map (fun i => 2 ^ i)).sum = xs.length + 1 := by
    rw [← forest_weight_ranks, hw]
    simp only [SoftHeap.singleton, List.map_cons, List.map_nil, forest_weight, NodePtr.leaf,
      NodePtr.rk, pow_zero]
    omega
  refine ⟨h, hf, ?_⟩
  rw [← hsum]
  exact (Nat.bitIndices_twoPowsum hs1).symm

/-- C24 (Insert is a binary counter).  For every `n ≥ 1`, written `n = xs.length + 1`: the
heap constructed from the element `x` and given the `n - 1` insertions of `xs` exists, and
its tree ranks from front to back are the positions of the 1-bits of `n` in increasing order
(`Nat.bitIndices n`), so that it has as many trees as `n` has 1-bits; and when `n = 2 ^ k`
there is the single tree of rank `k`. -/
theorem insert_binary_counter (inverse_epsilon : Nat) (x : Element) (xs : List Element) :
    (∃ h, xs.foldlM (SoftHeap.Insert inverse_epsilon) (SoftHeap.singleton x) = .ok h ∧
      forest_ranks h.trees = (xs.length + 1).bitIndices ∧
      (forest_ranks h.trees).Pairwise (· < ·) ∧
      ((forest_ranks h.trees).map (fun i => 2 ^ i)).sum = xs.length + 1 ∧
      h.trees.length = (xs.length + 1).bitIndices.length) ∧
    (∀ k, xs.length + 1 = 2 ^ k →
      ∃ h, xs.foldlM (SoftHeap.Insert inverse_epsilon) (SoftHeap.singleton x) = .ok h ∧
        forest_ranks h.trees = [k]) := by
  obtain ⟨h, hf, hr⟩ := SoftHeap.counter_ranks inverse_epsilon x xs
  refine ⟨⟨h, hf, hr, ?_, ?_, ?_⟩, ?_⟩
  · rw [hr]
    exact Nat.bitIndices_sorted
  · rw [hr]
    exact Nat.twoPowSum_bitIndices _
  · rw [← hr, forest_ranks, List.length_map]
  · intro k hk
    refine ⟨h, hf, ?_⟩
    rw [hr, hk]
    exact Nat.bitIndices_two_pow k

/-- Witness of C24: the heap of 5 after the insertions of 3, 8, 1 holds `4 = 2 ^ 2`
elements in one tree of rank 2. -/
theorem insert_binary_counter_witness :
    [(3 : Element), 8, 1].length + 1 = 2 ^ 2 ∧
    ∃ h, [(3 : Element), 8, 1].foldlM (SoftHeap.Insert 8) (SoftHeap.singleton 5) = .ok h ∧
      forest_ranks h.trees = [2] :=
  ⟨by decide, (insert_binary_counter 8 5 [3, 8, 1]).2 2 (by decide)⟩

namespace FlatTree

/-- `IsLeaf` reads only slots that exist. -/
theorem IsLeaf_ok (idx : Nat) (l : List FlatNode) : ∃ b, IsLeaf idx l = .ok b := by
  rw [IsLeaf]
  by_cases h1 : l.length < 2 * idx + 2
  · rw [if_pos h1]; exact ⟨true, rfl⟩
  · rw [if_neg h1]
    obtain ⟨left, hl⟩ : ∃ left, l[2 * idx + 1]? = some left :=
      ⟨l[2 * idx + 1], List.getElem?_eq_getElem (by omega)⟩
    simp only [hl]
    by_cases h2 : left.ckey = -1
    · rw [if_pos h2]
      by_cases h3 : l.length < 2 * idx + 3
      · rw [if_pos h3]; exact ⟨true, rfl⟩
      · rw [if_neg h3]
        obtain ⟨right, hr⟩ : ∃ right, l[2 * idx + 2]? = some right :=
          ⟨l[2 * idx + 2], List.getElem?_eq_getElem (by omega)⟩
        simp only [hr]
        exact ⟨_, rfl⟩
    · rw [if_neg h2]; exact ⟨false, rfl⟩

/-- What `IsLeaf` returning `false` means: the left slot exists, and it is live or the
right slot exists and is live. -/
theorem IsLeaf_false {idx : Nat} {l : List FlatNode} (h : IsLeaf idx l = .ok false) :
    ∃ left, l[2 * idx + 1]? = some left ∧
      (left.ckey ≠ -1 ∨ ∃ right, l[2 * idx + 2]? = some right ∧ right.ckey ≠ -1) := by
  rw [IsLeaf] at h
  by_cases h1 : l.length < 2 * idx + 2
  · rw [if_pos h1] at h; cases h
  · rw [if_neg h1] at h
    obtain ⟨left, hl⟩ : ∃ left, l[2 * idx + 1]? = some left :=
      ⟨l[2 * idx + 1], List.getElem?_eq_getElem (by omega)⟩
    simp only [hl] at h
    refine ⟨left, hl, ?_⟩
    by_cases h2 : left.ckey = -1
    · rw [if_pos h2] at h
      by_cases h3 : l.length < 2 * idx + 3
      · rw [if_pos h3] at h; cases h
      · rw [if_neg h3] at h
        obtain ⟨right, hr⟩ : ∃ right, l[2 * idx + 2]? = some right :=
          ⟨l[2 * idx + 2], List.getElem?_eq_getElem (by omega)⟩
        simp only [hr] at h
        refine Or.inr ⟨right, hr, ?_⟩
        intro hc
        rw [pure_eq_ok] at h
        have : decide (right.ckey = -1) = false := by
          injection h
        simp [hc] at this
    · exact Or.inl h2

/-- The child chosen by `RecursiveSift` at a node that `IsLeaf` does not call a leaf. -/
theorem min_child_spec (gt : FlatNode → FlatNode → Bool) (idx : Nat) (l : List FlatNode)
    (h : IsLeaf idx l = .ok false) :
    ∃ mc nd, min_child_idx gt idx l = .ok mc ∧ (mc = 2 * idx + 1 ∨ mc = 2 * idx + 2) ∧
      mc < l.length ∧ l[mc]? = some nd ∧ nd.ckey ≠ -1 ∧
      (∀ left right, l[2 * idx + 1]? = some left → l[2 * idx + 2]? = some right →
        left.ckey ≠ -1 → right.ckey ≠ -1 →
        (mc = 2 * idx + 2 ↔ gt left right = true) ∧
        (mc = 2 * idx + 1 ↔ ¬ gt left right = true)) := by
  obtain ⟨left, hl, hlive⟩ := IsLeaf_false h
  have hlen : 2 * idx + 1 < l.length := (List.getElem?_eq_some.1 hl).1
  rw [min_child_idx, if_neg (by omega)]
  simp only [hl]
  by_cases h2 : left.ckey = -1
  · rw [if_pos h2]
    rcases hlive with hlive | ⟨right, hr, hrl⟩
    · exact absurd h2 hlive
    · refine ⟨2 * idx + 2, right, rfl, Or.inr rfl, (List.getElem?_eq_some.1 hr).1, hr, hrl, ?_⟩
      intro left1 right1 hl1 _ hll _
      cases hl1
      exact absurd h2 hll
  · rw [if_neg h2]
    by_cases h3 : l.length > 2 * idx + 2
    · rw [if_pos h3]
      obtain ⟨right, hr⟩ : ∃ right, l[2 * idx + 2]? = some right :=
        ⟨l[2 * idx + 2], List.getElem?_eq_getElem (by omega)⟩
      simp only [hr]
      by_cases h4 : right.ckey ≠ -1 ∧ gt left right = true
      · rw [if_pos h4]
        refine ⟨2 * idx + 2, right, rfl, Or.inr rfl, h3, hr, h4.1, ?_⟩
        intro left1 right1 hl1 hr1 _ _
        cases hl1
        cases hr1
        exact ⟨⟨fun _ => h4.2, fun _ => rfl⟩, ⟨fun hc => by omega, fun hc => absurd h4.2 hc⟩⟩
      · rw [if_neg h4]
        refine ⟨2 * idx + 1, left, rfl, Or.inl rfl, hlen, hl, h2, ?_⟩
        intro left1 right1 hl1 hr1 _ hrl
        cases hl1
        cases hr1
        have hng : ¬ gt left right = true := fun hc => h4 ⟨hrl, hc⟩
        exact ⟨⟨fun hc => by omega, fun hc => absurd hc hng⟩, ⟨fun _ => hng, fun _ => rfl⟩⟩
    · rw [if_neg h3]
      refine ⟨2 * idx + 1, left, rfl, Or.inl rfl, hlen, hl, h2, ?_⟩
      intro left1 right1 _ hr1 _ _
      have := (List.getElem?_eq_some.1 hr1).1
      omega

end FlatTree

/-- C23 (child selection of FlatTree::Sift).  `IsLeaf` reads only existing slots.  Whenever
it says that the node at `idx` is not a leaf, `min_child_idx` is computed from existing
slots, is `2 * idx + 1` or `2 * idx + 2`, is a valid index of `node_heap`, and designates a
slot that is not marked removed; when both child slots exist and are live, it is the right
index exactly when the left node is greater than the right node, and the left index
otherwise. -/
theorem flat_child_selection (gt : FlatNode → FlatNode → Bool) (idx : Nat)
    (node_heap : List FlatNode) :
    (∃ b, FlatTree.IsLeaf idx node_heap = .ok b) ∧
    (FlatTree.IsLeaf idx node_heap = .ok false →
      ∃ mc nd, FlatTree.min_child_idx gt idx node_heap = .ok mc ∧
        (mc = 2 * idx + 1 ∨ mc = 2 * idx + 2) ∧ mc < node_heap.length ∧
        node_heap[mc]? = some nd ∧ nd.ckey ≠ -1 ∧
        (∀ left right, node_heap[2 * idx + 1]? = some left →
          node_heap[2 * idx + 2]? = some right → left.ckey ≠ -1 → right.ckey ≠ -1 →
          (mc = 2 * idx + 2 ↔ gt left right = true) ∧
          (mc = 2 * idx + 1 ↔ ¬ gt left right = true))) :=
  ⟨FlatTree.IsLeaf_ok idx node_heap, FlatTree.min_child_spec gt idx node_heap⟩

/-- Witness of C23: a root whose left slot is removed and whose right slot is live. -/
theorem flat_child_selection_witness :
    FlatTree.IsLeaf 0 [⟨[], 7, 1, 1⟩, ⟨[], -1, 0, 1⟩, ⟨[6], 6, 0, 1⟩] = .ok false ∧
    ∃ mc nd, FlatTree.min_child_idx FlatNode.gt 0
        [⟨[], 7, 1, 1⟩, ⟨[], -1, 0, 1⟩, ⟨[6], 6, 0, 1⟩] = .ok mc ∧
      (mc = 2 * 0 + 1 ∨ mc = 2 * 0 + 2) ∧
      mc < ([⟨[], 7, 1, 1⟩, ⟨[], -1, 0, 1⟩, ⟨[6], 6, 0, 1⟩] : List FlatNode).length ∧
      ([⟨[], 7, 1, 1⟩, ⟨[], -1, 0, 1⟩, ⟨[6], 6, 0, 1⟩] : List FlatNode)[mc]? = some nd ∧
      nd.ckey ≠ -1 ∧
      (∀ left right,
        ([⟨[], 7, 1, 1⟩, ⟨[], -1, 0, 1⟩, ⟨[6], 6, 0, 1⟩] : List FlatNode)[2 * 0 + 1]? =
          some left →
        ([⟨[], 7, 1, 1⟩, ⟨[], -1, 0, 1⟩, ⟨[6], 6, 0, 1⟩] : List FlatNode)[2 * 0 + 2]? =
          some right → left.ckey ≠ -1 → right.ckey ≠ -1 →
        (mc = 2 * 0 + 2 ↔ FlatNode.gt left right = true) ∧
        (mc = 2 * 0 + 1 ↔ ¬ FlatNode.gt left right = true)) :=
  ⟨rfl, (flat_child_selection FlatNode.gt 0
    [⟨[], 7, 1, 1⟩, ⟨[], -1, 0, 1⟩, ⟨[6], 6, 0, 1⟩]).2 rfl⟩

namespace FlatTree

theorem RecursiveSift_stop (gt : FlatNode → FlatNode → Bool) (fuel idx : Nat)
    (g : List FlatNode) (nd : FlatNode) (h0 : g[idx]? = some nd)
    (hc : ¬ ((nd.elements.length : Int) < nd.size ∧ IsLeaf idx g = .ok false)) :
    RecursiveSift gt (fuel + 1) idx g = .ok g := by
  rw [RecursiveSift]
  simp only [h0]
  by_cases h1 : (nd.elements.length : Int) < nd.size
  · rw [if_pos h1]
    obtain ⟨b, hb⟩ := IsLeaf_ok idx g
    rw [hb, ok_bind]
    cases b with
    | true => rfl
    | false => exact absurd ⟨h1, hb⟩ hc
  · rw [if_neg h1]
    rfl

theorem RecursiveSift_step (gt : FlatNode → FlatNode → Bool) (fuel idx : Nat)
    (g : List FlatNode) (nd c : FlatNode) (mc : Nat) (cleaf : Bool)
    (h0 : g[idx]? = some nd) (h1 : (nd.elements.length : Int) < nd.size)
    (h2 : IsLeaf idx g = .ok false) (h3 : min_child_idx gt idx g = .ok mc)
    (h4 : g[mc]? = some c) (h5 : IsLeaf mc (g.set idx (pulled nd c)) = .ok cleaf) :
    RecursiveSift gt (fuel + 1) idx g =
      ((if cleaf then pure ((g.set idx (pulled nd c)).set mc (removed nd c))
        else RecursiveSift gt fuel mc ((g.set idx (pulled nd c)).set mc (emptied c))) >>=
        fun h2 => RecursiveSift gt fuel idx h2) := by
  rw [RecursiveSift]
  simp only [h0]
  rw [if_pos h1, h2, ok_bind]
  simp only [Bool.false_eq_true, if_false]
  rw [h3, ok_bind]
  simp only [h4]
  rw [h5, ok_bind]

/-- `IsLeaf` at `j` looks only at the slots `2 * j + 1` and `2 * j + 2`. -/
theorem IsLeaf_set (j i : Nat) (g : List FlatNode) (x : FlatNode) (h1 : i ≠ 2 * j + 1)
    (h2 : i ≠ 2 * j + 2) : IsLeaf j (g.set i x) = IsLeaf j g := by
  rw [IsLeaf, IsLeaf, List.length_set, List.getElem?_set_ne h1, List.getElem?_set_ne h2]

theorem mem_of_getElem_some {g : List FlatNode} {i : Nat} {y : FlatNode}
    (h : g[i]? = some y) : y ∈ g := by
  obtain ⟨hi, rfl⟩ := List.getElem?_eq_some.1 h
  exact List.getElem_mem hi

theorem mem_set_of {P : FlatNode → Prop} {g : List FlatNode} {i : Nat} {x : FlatNode}
    (hg : ∀ nd ∈ g, P nd) (hx : P x) : ∀ nd ∈ g.set i x, P nd := by
  intro nd hnd
  rcases List.mem_or_eq_of_mem_set hnd with h | h
  · exact hg nd h
  · rw [h]; exact hx

theorem getElem?_set_self_of {g : List FlatNode} {i : Nat} {y x : FlatNode}
    (h : g[i]? = some y) : (g.set i x)[i]? = some x := by
  rw [List.getElem?_set_self]
  simp [(List.getElem?_eq_some.1 h).1]

/-- What `RecursiveSift` leaves behind when it returns: the length, the slots in front of
`idx`, a live slot at `idx`, and no `ckey` below `-1`. -/
theorem RecursiveSift_keeps (gt : FlatNode → FlatNode → Bool) : ∀ (fuel idx : Nat)
    (g g1 : List FlatNode), RecursiveSift gt fuel idx g = .ok g1 →
    (∃ nd, g[idx]? = some nd ∧ nd.ckey ≠ -1) → (∀ nd ∈ g, -1 ≤ nd.ckey) →
    g1.length = g.length ∧ (∀ j < idx, g1[j]? = g[j]?) ∧
    (∃ nd, g1[idx]? = some nd ∧ nd.ckey ≠ -1) ∧ (∀ nd ∈ g1, -1 ≤ nd.ckey) := by
  intro fuel
  induction fuel with
  | zero => intro idx g g1 h; cases h
  | succ fuel ih =>
    intro idx g g1 h hlive hall
    obtain ⟨nd, h0, hnd⟩ := hlive
    by_cases hc : (nd.elements.length : Int) < nd.size ∧ IsLeaf idx g = .ok false
    · obtain ⟨mc, c, h3, hmc, hmclt, h4, hcl, _⟩ := min_child_spec gt idx g hc.2
      obtain ⟨cleaf, h5⟩ := IsLeaf_ok mc (g.set idx (pulled nd c))
      rw [RecursiveSift_step gt fuel idx g nd c mc cleaf h0 hc.1 hc.2 h3 h4 h5] at h
      obtain ⟨g2, hg2, h⟩ := bind_ok_inv h
      have hne : idx ≠ mc := by omega
      have hcge : -1 ≤ c.ckey := hall c (mem_of_getElem_some h4)
      have hall1 : ∀ x ∈ g.set idx (pulled nd c), -1 ≤ x.ckey := mem_set_of hall hcge
      have hidx1 : (g.set idx (pulled nd c))[idx]? = some (pulled nd c) :=
        getElem?_set_self_of h0
      have hmc1 : (g.set idx (pulled nd c))[mc]? = some c := by
        rw [List.getElem?_set_ne hne]; exact h4
      -- the forest after the child has been dealt with
      have hg2p : g2.length = g.length ∧ (∀ j < mc, g2[j]? = (g.set idx (pulled nd c))[j]?) ∧
          (∀ x ∈ g2, -1 ≤ x.ckey) := by
        cases cleaf with
        | true =>
          simp only [if_true] at hg2
          cases hg2
          refine ⟨by simp, fun j hj => ?_, mem_set_of hall1 (by simp [removed])⟩
          rw [List.getElem?_set_ne (by omega)]
        | false =>
          simp only [Bool.false_eq_true, if_false] at hg2
          obtain ⟨q1, q2, _, q4⟩ := ih mc _ g2 hg2
            ⟨emptied c, getElem?_set_self_of hmc1, hcl⟩
            (mem_set_of hall1 (by simpa [emptied] using hcge))
          refine ⟨by simpa using q1, fun j hj => ?_, q4⟩
          rw [q2 j hj, List.getElem?_set_ne (by omega)]
      obtain ⟨p1, p2, p3⟩ := hg2p
      have hidx2 : g2[idx]? = some (pulled nd c) := by
        rw [p2 idx (by omega)]; exact hidx1
      obtain ⟨r1, r2, r3, r4⟩ := ih idx g2 g1 h ⟨pulled nd c, hidx2, hcl⟩ p3
      refine ⟨r1.trans p1, fun j hj => ?_, r3, r4⟩
      rw [r2 j hj, p2 j (by omega), List.getElem?_set_ne (by omega)]
    · rw [RecursiveSift_stop gt fuel idx g nd h0 hc] at h
      cases h
      exact ⟨rfl, fun _ _ => rfl, ⟨nd, h0, hnd⟩, hall⟩

theorem live_count_set : ∀ (g : List FlatNode) (i : Nat) (y x : FlatNode), g[i]? = some y →
    live_count (g.set i x) + (if y.ckey ≠ -1 then 1 else 0) =
      live_count g + (if x.ckey ≠ -1 then 1 else 0) := by
  intro g
  induction g with
  | nil => intro i y x h; cases h
  | cons a g ih =>
    intro i y x h
    cases i with
    | zero =>
      simp only [List.getElem?_cons_zero, Option.some.injEq] at h
      subst h
      simp only [List.set_cons_zero, live_count, List.countP_cons, decide_eq_true_eq]
      omega
    | succ i =>
      simp only [List.getElem?_cons_succ] at h
      have := ih i y x h
      simp only [List.set_cons_succ, live_count, List.countP_cons] at this ⊢
      omega

theorem live_count_pos {g : List FlatNode} {i : Nat} {y : FlatNode} (h : g[i]? = some y)
    (hy : y.ckey ≠ -1) : 0 < live_count g := by
  rw [live_count, List.countP_pos_iff]
  exact ⟨y, mem_of_getElem_some h, by simpa using hy⟩

/-- With target sizes of at least 1 and fuel above the number of live slots plus the number
of slots from `idx` on, `RecursiveSift` returns, and it has marked a live slot as removed
when its loop ran. -/
theorem RecursiveSift_total (gt : FlatNode → FlatNode → Bool) : ∀ (fuel idx : Nat)
    (g : List FlatNode), (∃ nd, g[idx]? = some nd ∧ nd.ckey ≠ -1) → (∀ nd ∈ g, 1 ≤ nd.size) →
    live_count g + (g.length - idx) < fuel →
    ∃ g1, RecursiveSift gt fuel idx g = .ok g1 ∧ g1.length = g.length ∧
      (∀ j < idx, g1[j]? = g[j]?) ∧ (∃ nd, g1[idx]? = some nd ∧ nd.ckey ≠ -1) ∧
      (∀ nd ∈ g1, 1 ≤ nd.size) ∧ live_count g1 ≤ live_count g ∧
      ((∃ nd, g[idx]? = some nd ∧ (nd.elements.length : Int) < nd.size ∧
          IsLeaf idx g = .ok false) → live_count g1 < live_count g) := by
  intro fuel
  induction fuel with
  | zero => intro idx g _ _ h; omega
  | succ fuel ih =>
    intro idx g hlive hsz hf
    obtain ⟨nd, h0, hnd⟩ := hlive
    have hidxlt : idx < g.length := (List.getElem?_eq_some.1 h0).1
    by_cases hc : (nd.elements.length : Int) < nd.size ∧ IsLeaf idx g = .ok false
    · obtain ⟨mc, c, h3, hmc, hmclt, h4, hcl, _⟩ := min_child_spec gt idx g hc.2
      obtain ⟨cleaf, h5⟩ := IsLeaf_ok mc (g.set idx (pulled nd c))
      rw [RecursiveSift_step gt fuel idx g nd c mc cleaf h0 hc.1 hc.2 h3 h4 h5]
      have hne : idx ≠ mc := by omega
      have hcsz : 1 ≤ c.size := hsz c (mem_of_getElem_some h4)
      have hndsz : 1 ≤ nd.size := hsz nd (mem_of_getElem_some h0)
      have hsz1 : ∀ x ∈ g.set idx (pulled nd c), 1 ≤ x.size := mem_set_of hsz hndsz
      have hidx1 : (g.set idx (pulled nd c))[idx]? = some (pulled nd c) :=
        getElem?_set_self_of h0
      have hmc1 : (g.set idx (pulled nd c))[mc]? = some c := by
        rw [List.getElem?_set_ne hne]; exact h4
      have hlc1 : live_count (g.set idx (pulled nd c)) = live_count g := by
        have := live_count_set g idx nd (pulled nd c) h0
        rw [if_pos hnd, if_pos (show (pulled nd c).ckey ≠ -1 from hcl)] at this
        omega
      have hpos : 0 < live_count g := live_count_pos h0 hnd
      -- the forest after the child has been dealt with
      have hg2p : ∃ g2, (if cleaf = true then
            (pure ((g.set idx (pulled nd c)).set mc (removed nd c)) :
              Except Failure (List FlatNode))
          else RecursiveSift gt fuel mc ((g.set idx (pulled nd c)).set mc (emptied c))) =
            .ok g2 ∧ g2.length = g.length ∧
          (∀ j < mc, g2[j]? = (g.set idx (pulled nd c))[j]?) ∧
          (∀ x ∈ g2, 1 ≤ x.size) ∧ live_count g2 < live_count g := by
        cases cleaf with
        | true =>
          refine ⟨(g.set idx (pulled nd c)).set mc (removed nd c), by simp only [if_true]; rfl,
            by simp, fun j hj => ?_, mem_set_of hsz1 hcsz, ?_⟩
          · rw [List.getElem?_set_ne (by omega)]
          · have := live_count_set (g.set idx (pulled nd c)) mc c (removed nd c) hmc1
            rw [if_pos hcl, if_neg (by simp [removed])] at this
            omega
        | false =>
          simp only [Bool.false_eq_true, if_false]
          have hlc2 : live_count ((g.set idx (pulled nd c)).set mc (emptied c)) =
              live_count g := by
            have := live_count_set (g.set idx (pulled nd c)) mc c (emptied c) hmc1
            rw [if_pos hcl, if_pos (show (emptied c).ckey ≠ -1 from hcl)] at this
            omega
          obtain ⟨g2, q0, q1, q2, _, q4, _, q6⟩ := ih mc
            ((g.set idx (pulled nd c)).set mc (emptied c))
            ⟨emptied c, getElem?_set_self_of hmc1, hcl⟩
            (mem_set_of hsz1 hcsz)
            (by rw [hlc2]; simp only [List.length_set]; omega)
          refine ⟨g2, q0, by simpa using q1, fun j hj => ?_, q4, ?_⟩
          · rw [q2 j hj, List.getElem?_set_ne (by omega)]
          · rw [← hlc2]
            apply q6
            refine ⟨emptied c, getElem?_set_self_of hmc1, ?_, ?_⟩
            · simpa [emptied] using hcsz
            · rw [IsLeaf_set mc mc _ _ (by omega) (by omega)]
              exact h5
      obtain ⟨g2, hg2, p1, p2, p3, p4⟩ := hg2p
      rw [hg2, ok_bind]
      have hidx2 : g2[idx]? = some (pulled nd c) := by
        rw [p2 idx (by omega)]; exact hidx1
      obtain ⟨g1, r0, r1, r2, r3, r4, r5, _⟩ := ih idx g2 ⟨pulled nd c, hidx2, hcl⟩ p3
        (by rw [p1]; omega)
      refine ⟨g1, r0, r1.trans p1, fun j hj => ?_, r3, r4, by omega, fun _ => by omega⟩
      rw [r2 j hj, p2 j (by omega), List.getElem?_set_ne (by omega)]
    · rw [RecursiveSift_stop gt fuel idx g nd h0 hc]
      refine ⟨g, rfl, rfl, fun _ _ => rfl, ⟨nd, h0, hnd⟩, hsz, le_refl _, ?_⟩
      rintro ⟨nd1, h01, hc1, hc2⟩
      rw [h0] at h01
      cases h01
      exact absurd ⟨hc1, hc2⟩ hc

end FlatTree

theorem FlatNode.gt_irrefl (a : FlatNode) : FlatNode.gt a a = false := by
  simp [FlatNode.gt]

theorem FlatNode.gt_total (a b : FlatNode) : FlatNode.gt a b = false ∨ FlatNode.gt b a = false := by
  simp only [FlatNode.gt, decide_eq_false_iff_not]
  by_cases h : b.ckey < a.ckey
  · right
    rintro (h1 | ⟨h1, _⟩)
    · exact lt_asymm h h1
    · rw [h1] at h; exact lt_irrefl _ h
  · by_cases h2 : a.ckey = b.ckey ∧ b.rank < a.rank
    · right
      rintro (h1 | ⟨_, h3⟩)
      · rw [h2.1] at h1; exact lt_irrefl _ h1
      · exact lt_asymm h2.2 h3
    · left
      rintro (h1 | h1)
      · exact h h1
      · exact h2 h1

theorem FlatNode.gt_neg_trans (a b c : FlatNode) (h1 : ¬ FlatNode.gt a b = true)
    (h2 : ¬ FlatNode.gt b c = true) : ¬ FlatNode.gt a c = true := by
  simp only [FlatNode.gt, decide_eq_true_eq, not_or, not_and, not_lt] at h1 h2 ⊢
  obtain ⟨p1, p2⟩ := h1
  obtain ⟨q1, q2⟩ := h2
  refine ⟨le_trans p1 q1, fun hac => ?_⟩
  have hab : a.ckey = b.ckey := le_antisymm p1 (by rw [hac]; exact q1)
  exact le_trans (p2 hab) (q2 (by rw [← hab, hac]))

theorem FlatNode.gt_of_ckey (a b : FlatNode) (h : a.ckey < b.ckey) : FlatNode.gt b a = true := by
  simp [FlatNode.gt, h]

/-- A list sorted in ascending node order is a heap. -/
theorem IsMinHeap_of_sorted (l : List FlatNode)
    (h : l.Sorted (fun a b => FlatNode.gt a b = false)) : IsMinHeap FlatNode.gt l := by
  intro i nd p hi hnd hp
  obtain ⟨h1, rfl⟩ := List.getElem?_eq_some.1 hnd
  obtain ⟨h2, rfl⟩ := List.getElem?_eq_some.1 hp
  have := (List.pairwise_iff_getElem.1 h) ((i - 1) / 2) i h2 h1 (by omega)
  simp [this]

theorem make_heap_sorted_sorted (l : List FlatNode) :
    (make_heap_sorted l).Sorted (fun a b => FlatNode.gt a b = false) := by
  haveI : IsTotal FlatNode (fun a b => FlatNode.gt a b = false) := ⟨FlatNode.gt_total⟩
  haveI : IsTrans FlatNode (fun a b => FlatNode.gt a b = false) :=
    ⟨fun a b c h1 h2 => by
      have := FlatNode.gt_neg_trans a b c (by simp [h1]) (by simp [h2])
      simpa using this⟩
  exact List.sorted_insertionSort _ l

theorem make_heap_sorted_spec : MakeHeapSpec FlatNode.gt make_heap_sorted :=
  fun l => ⟨List.perm_insertionSort _ l, IsMinHeap_of_sorted _ (make_heap_sorted_sorted l)⟩

theorem pop_heap_sorted_spec : PopHeapSpec FlatNode.gt pop_heap_sorted :=
  fun _ l _ => ⟨make_heap_sorted l, rfl, List.perm_insertionSort _ l,
    IsMinHeap_of_sorted _ (make_heap_sorted_sorted l)⟩

/-- The front of a heap is not greater than any slot. -/
theorem heap_front_min (gt : FlatNode → FlatNode → Bool) (hirr : ∀ a, gt a a = false)
    (hnt : ∀ a b c, ¬ gt a b = true → ¬ gt b c = true → ¬ gt a c = true)
    (l : List FlatNode) (hl : IsMinHeap gt l) (top : FlatNode) (htop : l[0]? = some top) :
    ∀ (i : Nat) (nd : FlatNode), l[i]? = some nd → ¬ gt top nd = true := by
  intro i
  induction i using Nat.strong_induction_on with
  | _ i ih =>
    intro nd hnd
    by_cases hi : i = 0
    · subst hi
      rw [htop] at hnd
      cases hnd
      simp [hirr]
    · have hlt : i < l.length := (List.getElem?_eq_some.1 hnd).1
      obtain ⟨p, hp⟩ : ∃ p, l[(i - 1) / 2]? = some p :=
        ⟨l[(i - 1) / 2], List.getElem?_eq_getElem (by omega)⟩
      exact hnt top p nd (ih ((i - 1) / 2) (by omega) p hp) (hl i nd p (by omega) hnd hp)

namespace FlatTree

/-- What the trimming loop leaves behind when it returns. -/
theorem trim_keeps (gt : FlatNode → FlatNode → Bool) (ph : List FlatNode → List FlatNode)
    (hph : PopHeapSpec gt ph) : ∀ (fuel : Nat) (l l1 : List FlatNode),
    trim ph fuel l = .ok l1 → IsMinHeap gt l → (∀ nd ∈ l, -1 ≤ nd.ckey) →
    IsMinHeap gt l1 ∧ (∀ nd ∈ l1, -1 ≤ nd.ckey) ∧
    ∃ top, l1[0]? = some top ∧ top.ckey ≠ -1 := by
  intro fuel
  induction fuel with
  | zero => intro l l1 h; cases h
  | succ fuel ih =>
    intro l l1 h hheap hall
    rw [trim] at h
    cases l with
    | nil => cases h
    | cons top rest =>
      simp only [List.getElem?_cons_zero] at h
      by_cases ht : top.ckey = -1
      · rw [if_pos ht] at h
        obtain ⟨l2, e1, e2, e3⟩ := hph top rest hheap
        rw [e1, List.dropLast_concat] at h
        exact ih l2 l1 h e3 (fun nd hnd => hall nd (List.mem_cons_of_mem _ (e2.subset hnd)))
      · rw [if_neg ht] at h
        cases h
        exact ⟨hheap, hall, top, List.getElem?_cons_zero, ht⟩

/-- The trimming loop returns a non-empty vector when a live slot is there. -/
theorem trim_total (gt : FlatNode → FlatNode → Bool) (ph : List FlatNode → List FlatNode)
    (hph : PopHeapSpec gt ph) : ∀ (fuel : Nat) (l : List FlatNode), IsMinHeap gt l →
    (∃ y ∈ l, y.ckey ≠ -1) → l.length < fuel →
    ∃ l1, trim ph fuel l = .ok l1 ∧ l1 ≠ [] ∧ l1.length ≤ l.length ∧
      ∃ top, l1[0]? = some top ∧ top.ckey ≠ -1 := by
  intro fuel
  induction fuel with
  | zero => intro l _ _ h; omega
  | succ fuel ih =>
    intro l hheap hlive hf
    rw [trim]
    cases l with
    | nil =>
      obtain ⟨y, hy, _⟩ := hlive
      cases hy
    | cons top rest =>
      simp only [List.getElem?_cons_zero]
      by_cases ht : top.ckey = -1
      · rw [if_pos ht]
        obtain ⟨l2, e1, e2, e3⟩ := hph top rest hheap
        rw [e1, List.dropLast_concat]
        obtain ⟨y, hy, hyl⟩ := hlive
        have hy2 : y ∈ l2 := by
          rcases List.mem_cons.1 hy with rfl | hy
          · exact absurd ht hyl
          · exact e2.symm.subset hy
        obtain ⟨l1, q1, q2, q3, q4⟩ := ih l2 e3 ⟨y, hy2, hyl⟩
          (by rw [e2.length_eq]; simpa using hf)
        refine ⟨l1, q1, q2, ?_, q4⟩
        rw [e2.length_eq] at q3
        simp only [List.length_cons]
        omega
      · rw [if_neg ht]
        exact ⟨top :: rest, rfl, by simp, le_refl _, top, List.getElem?_cons_zero, ht⟩

end FlatTree

/-- C22 (FlatTree::Sift leaves a trimmed min-heap).  Let `gt` be the node ordering, a strict
weak ordering that compares by `ckey` first, and let `mh` and `ph` be a `std::make_heap`
and a `std::pop_heap`.  For every `node_heap` whose root slot is live and in which no
`ckey` is below `-1`: when `Sift` returns, `node_heap` is not empty, no slot carries
`ckey = -1`, the vector is a min-heap under the node ordering, and its front slot is a
minimum of the node ordering and has the least `ckey`. -/
theorem flat_sift_trimmed_heap (gt : FlatNode → FlatNode → Bool)
    (mh ph : List FlatNode → List FlatNode) (hirr : ∀ a, gt a a = false)
    (hnt : ∀ a b c, ¬ gt a b = true → ¬ gt b c = true → ¬ gt a c = true)
    (hck : ∀ a b : FlatNode, a.ckey < b.ckey → gt b a = true)
    (hmh : MakeHeapSpec gt mh) (hph : PopHeapSpec gt ph)
    (fuel : Nat) (node_heap result : List FlatNode)
    (hroot : ∃ nd, node_heap[0]? = some nd ∧ nd.ckey ≠ -1)
    (hlive : ∀ nd ∈ node_heap, nd.ckey ≠ -1 → -1 < nd.ckey)
    (hret : FlatTree.Sift gt mh ph fuel node_heap = .ok result) :
    result ≠ [] ∧ (∀ nd ∈ result, nd.ckey ≠ -1) ∧ IsMinHeap gt result ∧
    ∃ top, result[0]? = some top ∧
      ∀ nd ∈ result, ¬ gt top nd = true ∧ top.ckey ≤ nd.ckey := by
  rw [FlatTree.Sift] at hret
  obtain ⟨h1, hrs, htrim⟩ := bind_ok_inv hret
  have hall : ∀ nd ∈ node_heap, -1 ≤ nd.ckey := by
    intro nd hnd
    by_cases h : nd.ckey = -1
    · rw [h]
    · exact le_of_lt (hlive nd hnd h)
  obtain ⟨_, _, _, hall1⟩ := FlatTree.RecursiveSift_keeps gt fuel 0 node_heap h1 hrs hroot hall
  obtain ⟨hperm, hheap⟩ := hmh h1
  obtain ⟨r1, r2, top, r3, r4⟩ := FlatTree.trim_keeps gt ph hph fuel (mh h1) result htrim
    hheap (fun nd hnd => hall1 nd (hperm.subset hnd))
  have hmin := heap_front_min gt hirr hnt result r1 top r3
  have htop : -1 < top.ckey :=
    lt_of_le_of_ne (r2 top (FlatTree.mem_of_getElem_some r3)) (Ne.symm r4)
  have hle : ∀ nd ∈ result, ¬ gt top nd = true ∧ top.ckey ≤ nd.ckey := by
    intro nd hnd
    obtain ⟨i, hi⟩ := List.getElem?_of_mem hnd
    refine ⟨hmin i nd hi, ?_⟩
    by_contra hc
    exact hmin i nd hi (hck nd top (not_le.1 hc))
  refine ⟨?_, ?_, r1, top, r3, hle⟩
  · intro h
    rw [h] at r3
    cases r3
  · intro nd hnd h
    have := (hle nd hnd).2
    rw [h] at this
    exact absurd htop (not_lt.2 this)

/-- Witness of C22: the node ordering by `ckey` and `rank`, the sorting `make_heap` and
`pop_heap`, and a root with an empty buffer over five live slots. -/
theorem flat_sift_trimmed_heap_witness :
    (∃ nd, ([⟨[], 7, 2, 1⟩, ⟨[4], 4, 1, 1⟩, ⟨[6], 6, 1, 1⟩, ⟨[9], 9, 0, 1⟩, ⟨[5], 5, 0, 1⟩,
        ⟨[8], 8, 0, 1⟩] : List FlatNode)[0]? = some nd ∧ nd.ckey ≠ -1) ∧
    (∀ nd ∈ ([⟨[], 7, 2, 1⟩, ⟨[4], 4, 1, 1⟩, ⟨[6], 6, 1, 1⟩, ⟨[9], 9, 0, 1⟩, ⟨[5], 5, 0, 1⟩,
        ⟨[8], 8, 0, 1⟩] : List FlatNode), nd.ckey ≠ -1 → -1 < nd.ckey) ∧
    FlatTree.Sift FlatNode.gt make_heap_sorted pop_heap_sorted 7
      [⟨[], 7, 2, 1⟩, ⟨[4], 4, 1, 1⟩, ⟨[6], 6, 1, 1⟩, ⟨[9], 9, 0, 1⟩, ⟨[5], 5, 0, 1⟩,
        ⟨[8], 8, 0, 1⟩] =
      .ok [⟨[4], 4, 2, 1⟩, ⟨[5], 5, 1, 1⟩, ⟨[6], 6, 1, 1⟩, ⟨[8], 8, 0, 1⟩, ⟨[9], 9, 0, 1⟩] ∧
    ([⟨[4], 4, 2, 1⟩, ⟨[5], 5, 1, 1⟩, ⟨[6], 6, 1, 1⟩, ⟨[8], 8, 0, 1⟩, ⟨[9], 9, 0, 1⟩] :
      List FlatNode) ≠ [] ∧
    (∀ nd ∈ ([⟨[4], 4, 2, 1⟩, ⟨[5], 5, 1, 1⟩, ⟨[6], 6, 1, 1⟩, ⟨[8], 8, 0, 1⟩,
      ⟨[9], 9, 0, 1⟩] : List FlatNode), nd.ckey ≠ -1) ∧
    IsMinHeap FlatNode.gt
      [⟨[4], 4, 2, 1⟩, ⟨[5], 5, 1, 1⟩, ⟨[6], 6, 1, 1⟩, ⟨[8], 8, 0, 1⟩, ⟨[9], 9, 0, 1⟩] ∧
    ∃ top, ([⟨[4], 4, 2, 1⟩, ⟨[5], 5, 1, 1⟩, ⟨[6], 6, 1, 1⟩, ⟨[8], 8, 0, 1⟩,
        ⟨[9], 9, 0, 1⟩] : List FlatNode)[0]? = some top ∧
      ∀ nd ∈ ([⟨[4], 4, 2, 1⟩, ⟨[5], 5, 1, 1⟩, ⟨[6], 6, 1, 1⟩, ⟨[8], 8, 0, 1⟩,
        ⟨[9], 9, 0, 1⟩] : List FlatNode), ¬ FlatNode.gt top nd = true ∧ top.ckey ≤ nd.ckey :=
  ⟨⟨_, rfl, by decide⟩, by decide, rfl,
    flat_sift_trimmed_heap FlatNode.gt make_heap_sorted pop_heap_sorted FlatNode.gt_irrefl
      FlatNode.gt_neg_trans FlatNode.gt_of_ckey make_heap_sorted_spec pop_heap_sorted_spec 7
      [⟨[], 7, 2, 1⟩, ⟨[4], 4, 1, 1⟩, ⟨[6], 6, 1, 1⟩, ⟨[9], 9, 0, 1⟩, ⟨[5], 5, 0, 1⟩,
        ⟨[8], 8, 0, 1⟩]
      [⟨[4], 4, 2, 1⟩, ⟨[5], 5, 1, 1⟩, ⟨[6], 6, 1, 1⟩, ⟨[8], 8, 0, 1⟩, ⟨[9], 9, 0, 1⟩]
      ⟨_, rfl, by decide⟩ (by decide) rfl⟩

/-- C25 (FlatTree::Sift terminates).  Let `mh` and `ph` be a `std::make_heap` and a
`std::pop_heap` for the node ordering `gt`.  For every `node_heap` whose root slot is live
and whose nodes all have a target size of at least 1: with fuel above the number of live
slots plus the length, the recursive sift returns, the trimming loop returns, and the
vector it leaves is not empty; and wherever the loop of the recursive sift is entered at a
live slot `idx`, it returns with fewer live slots than before, the slots in front of `idx`
being untouched: every iteration marks a live slot of the subtree as removed. -/
theorem flat_sift_terminates (gt : FlatNode → FlatNode → Bool)
    (mh ph : List FlatNode → List FlatNode)
    (hmh : MakeHeapSpec gt mh) (hph : PopHeapSpec gt ph) (node_heap : List FlatNode)
    (hroot : ∃ nd, node_heap[0]? = some nd ∧ nd.ckey ≠ -1)
    (hsz : ∀ nd ∈ node_heap, 1 ≤ nd.size) :
    (∀ fuel, live_count node_heap + node_heap.length < fuel →
      ∃ h1 h2, FlatTree.RecursiveSift gt fuel 0 node_heap = .ok h1 ∧
        FlatTree.trim ph fuel (mh h1) = .ok h2 ∧
        FlatTree.Sift gt mh ph fuel node_heap = .ok h2 ∧ h2 ≠ [] ∧
        h1.length = node_heap.length ∧ live_count h1 ≤ live_count node_heap) ∧
    (∀ (idx : Nat) (g : List FlatNode) (fuel : Nat),
      (∃ nd, g[idx]? = some nd ∧ nd.ckey ≠ -1 ∧ (nd.elements.length : Int) < nd.size) →
      FlatTree.IsLeaf idx g = .ok false → (∀ nd ∈ g, 1 ≤ nd.size) →
      live_count g + (g.length - idx) < fuel →
      ∃ g1, FlatTree.RecursiveSift gt fuel idx g = .ok g1 ∧ live_count g1 < live_count g ∧
        g1.length = g.length ∧ ∀ j < idx, g1[j]? = g[j]?) := by
  constructor
  · intro fuel hf
    obtain ⟨h1, q0, q1, _, q3, _, q5, _⟩ :=
      FlatTree.RecursiveSift_total gt fuel 0 node_heap hroot hsz (by omega)
    obtain ⟨hperm, hheap⟩ := hmh h1
    obtain ⟨y, hy, hyl⟩ := q3
    obtain ⟨h2, t1, t2, _, _⟩ := FlatTree.trim_total gt ph hph fuel (mh h1) hheap
      ⟨y, hperm.symm.subset (FlatTree.mem_of_getElem_some hy), hyl⟩
      (by rw [hperm.length_eq, q1]; omega)
    refine ⟨h1, h2, q0, t1, ?_, t2, q1, q5⟩
    rw [FlatTree.Sift, q0, ok_bind, t1]
  · intro idx g fuel hnd hleaf hsz1 hf
    obtain ⟨nd, h0, hl, hlen⟩ := hnd
    obtain ⟨g1, q0, q1, q2, _, _, _, q6⟩ :=
      FlatTree.RecursiveSift_total gt fuel idx g ⟨nd, h0, hl⟩ hsz1 hf
    exact ⟨g1, q0, q6 ⟨nd, h0, hlen, hleaf⟩, q1, q2⟩

/-- Witness of C25: the sorting `make_heap` and `pop_heap` and a root with an empty buffer
over five live slots. -/
theorem flat_sift_terminates_witness :
    (∃ nd, ([⟨[], 7, 2, 1⟩, ⟨[4], 4, 1, 1⟩, ⟨[6], 6, 1, 1⟩, ⟨[9], 9, 0, 1⟩, ⟨[5], 5, 0, 1⟩,
        ⟨[8], 8, 0, 1⟩] : List FlatNode)[0]? = some nd ∧ nd.ckey ≠ -1) ∧
    (∀ nd ∈ ([⟨[], 7, 2, 1⟩, ⟨[4], 4, 1, 1⟩, ⟨[6], 6, 1, 1⟩, ⟨[9], 9, 0, 1⟩, ⟨[5], 5, 0, 1⟩,
        ⟨[8], 8, 0, 1⟩] : List FlatNode), 1 ≤ nd.size) ∧
    ∀ fuel, live_count ([⟨[], 7, 2, 1⟩, ⟨[4], 4, 1, 1⟩, ⟨[6], 6, 1, 1⟩, ⟨[9], 9, 0, 1⟩,
        ⟨[5], 5, 0, 1⟩, ⟨[8], 8, 0, 1⟩] : List FlatNode) +
        ([⟨[], 7, 2, 1⟩, ⟨[4], 4, 1, 1⟩, ⟨[6], 6, 1, 1⟩, ⟨[9], 9, 0, 1⟩, ⟨[5], 5, 0, 1⟩,
        ⟨[8], 8, 0, 1⟩] : List FlatNode).length < fuel →
      ∃ h1 h2, FlatTree.RecursiveSift FlatNode.gt fuel 0
          [⟨[], 7, 2, 1⟩, ⟨[4], 4, 1, 1⟩, ⟨[6], 6, 1, 1⟩, ⟨[9], 9, 0, 1⟩, ⟨[5], 5, 0, 1⟩,
            ⟨[8], 8, 0, 1⟩] = .ok h1 ∧
        FlatTree.trim pop_heap_sorted fuel (make_heap_sorted h1) = .ok h2 ∧
        FlatTree.Sift FlatNode.gt make_heap_sorted pop_heap_sorted fuel
          [⟨[], 7, 2, 1⟩, ⟨[4], 4, 1, 1⟩, ⟨[6], 6, 1, 1⟩, ⟨[9], 9, 0, 1⟩, ⟨[5], 5, 0, 1⟩,
            ⟨[8], 8, 0, 1⟩] = .ok h2 ∧ h2 ≠ [] ∧
        h1.length = ([⟨[], 7, 2, 1⟩, ⟨[4], 4, 1, 1⟩, ⟨[6], 6, 1, 1⟩, ⟨[9], 9, 0, 1⟩,
          ⟨[5], 5, 0, 1⟩, ⟨[8], 8, 0, 1⟩] : List FlatNode).length ∧
        live_count h1 ≤ live_count ([⟨[], 7, 2, 1⟩, ⟨[4], 4, 1, 1⟩, ⟨[6], 6, 1, 1⟩,
          ⟨[9], 9, 0, 1⟩, ⟨[5], 5, 0, 1⟩, ⟨[8], 8, 0, 1⟩] : List FlatNode) :=
  ⟨⟨_, rfl, by decide⟩, by decide,
    (flat_sift_terminates FlatNode.gt make_heap_sorted pop_heap_sorted make_heap_sorted_spec
      pop_heap_sorted_spec
      [⟨[], 7, 2, 1⟩, ⟨[4], 4, 1, 1⟩, ⟨[6], 6, 1, 1⟩, ⟨[9], 9, 0, 1⟩, ⟨[5], 5, 0, 1⟩,
        ⟨[8], 8, 0, 1⟩] ⟨_, rfl, by decide⟩ (by decide)).1⟩

theorem pair_le_refl (a : Int × Nat) : pair_le a a = true := by
  simp [pair_le]

theorem pair_le_total (a b : Int × Nat) : pair_le a b = true ∨ pair_le b a = true := by
  simp only [pair_le, decide_eq_true_eq]
  rcases lt_trichotomy a.1 b.1 with h | h | h
  · exact Or.inl (Or.inl h)
  · rcases Nat.le_total a.2 b.2 with h2 | h2
    · exact Or.inl (Or.inr ⟨h, h2⟩)
    · exact Or.inr (Or.inr ⟨h.symm, h2⟩)
  · exact Or.inr (Or.inl h)

theorem pair_le_trans (a b c : Int × Nat) (h1 : pair_le a b = true) (h2 : pair_le b c = true) :
    pair_le a c = true := by
  simp only [pair_le, decide_eq_true_eq] at h1 h2 ⊢
  rcases h1 with h1 | ⟨h1, h1b⟩
  · rcases h2 with h2 | ⟨h2, _⟩
    · exact Or.inl (lt_trans h1 h2)
    · exact Or.inl (by rw [← h2]; exact h1)
  · rcases h2 with h2 | ⟨h2, h2b⟩
    · exact Or.inl (by rw [h1]; exact h2)
    · exact Or.inr ⟨h1.trans h2, le_trans h1b h2b⟩

theorem pair_le_fst {a b : Int × Nat} (h : pair_le a b = true) : a.1 ≤ b.1 := by
  simp only [pair_le, decide_eq_true_eq] at h
  rcases h with h | ⟨h, _⟩
  · exact le_of_lt h
  · exact le_of_eq h

/-- The top of a queue that holds a pair is a least pair of the queue. -/
theorem pq_top_spec : ∀ (q : List (Int × Nat)), q ≠ [] →
    ∃ m, pq_top q = some m ∧ m ∈ q ∧ ∀ p ∈ q, pair_le m p = true := by
  intro q
  induction q with
  | nil => intro h; exact absurd rfl h
  | cons a q ih =>
    intro _
    rw [pq_top]
    by_cases hq : q = []
    · subst hq
      refine ⟨a, rfl, by simp, ?_⟩
      intro p hp
      rw [List.mem_singleton] at hp
      rw [hp]
      exact pair_le_refl a
    · obtain ⟨b, hb, hbm, hmin⟩ := ih hq
      simp only [hb]
      by_cases hab : pair_le a b = true
      · rw [if_pos hab]
        refine ⟨a, rfl, by simp, ?_⟩
        intro p hp
        rcases List.mem_cons.1 hp with rfl | hp
        · exact pair_le_refl _
        · exact pair_le_trans _ _ _ hab (hmin p hp)
      · rw [if_neg hab]
        refine ⟨b, rfl, List.mem_cons_of_mem _ hbm, ?_⟩
        intro p hp
        rcases List.mem_cons.1 hp with rfl | hp
        · rcases pair_le_total p b with h | h
          · exact absurd h hab
          · exact h
        · exact hmin p hp

theorem Desc_le {a j : Nat} (h : Desc a j) : a ≤ j := by
  induction h with
  | self => exact le_refl a
  | child p j _ hj ih => omega

theorem Desc_zero : ∀ j : Nat, Desc 0 j := by
  intro j
  induction j using Nat.strong_induction_on with
  | _ j ih =>
    by_cases hj : j = 0
    · subst hj; exact Desc.self 0
    · exact Desc.child 0 ((j - 1) / 2) j (ih _ (by omega)) (by omega)

theorem Desc_split {i j : Nat} (h : Desc i j) (hne : j ≠ i) :
    Desc (2 * i + 1) j ∨ Desc (2 * i + 2) j := by
  induction h with
  | self => exact absurd rfl hne
  | child p j hp hj ih =>
    by_cases hpa : p = i
    · subst hpa
      rcases hj with rfl | rfl
      · exact Or.inl (Desc.self _)
      · exact Or.inr (Desc.self _)
    · rcases ih hpa with h1 | h1
      · exact Or.inl (Desc.child _ p j h1 hj)
      · exact Or.inr (Desc.child _ p j h1 hj)

/-- In a min-heap a slot holds at most what the slots below it hold. -/
theorem Desc_heap (input : List Int)
    (hheap : ∀ i, 1 ≤ i → i < input.length → input.getD ((i - 1) / 2) 0 ≤ input.getD i 0)
    {a j : Nat} (h : Desc a j) : j < input.length → input.getD a 0 ≤ input.getD j 0 := by
  induction h with
  | self => exact fun _ => le_refl _
  | child p j _ hj ih =>
    intro hlt
    have hp : (j - 1) / 2 = p := by omega
    have := hheap j (by omega) hlt
    rw [hp] at this
    exact le_trans (ih (by omega)) this

theorem push_child_eq (input : List Int) (q : List (Int × Nat)) (c : Nat) :
    push_child input q c =
      .ok (if c < input.length then (input.getD c 0, c) :: q else q) := by
  rw [push_child]
  by_cases h : c < input.length
  · rw [if_pos h, if_pos h, List.getElem?_eq_getElem h]
    simp only [List.getD_eq_getElem?_getD, List.getElem?_eq_getElem h, Option.getD_some]
    rfl
  · rw [if_neg h, if_neg h]
    rfl

theorem getD_of_getElem? {input : List Int} {i : Nat} {v : Int} (h : input[i]? = some v) :
    input.getD i 0 = v := by
  simp [List.getD_eq_getElem?_getD, h]

/-- Pushing (or skipping) the first waiting index keeps the loop invariant. -/
theorem SelInv_push (input : List Int) (P : List Nat) (q : List (Int × Nat)) (c : Nat)
    (pend : List Nat) (h : SelInv input P q (c :: pend)) :
    SelInv input P (if c < input.length then (input.getD c 0, c) :: q else q) pend := by
  obtain ⟨h1, h2, h3, h4, h5, h6, h7⟩ := h
  have hperm : (c :: (q.map Prod.snd ++ pend)).Perm (q.map Prod.snd ++ c :: pend) :=
    List.perm_middle.symm
  by_cases hc : c < input.length
  · rw [if_pos hc]
    have hmem : ∀ x, x ∈ ((input.getD c 0, c) :: q).map Prod.snd ++ pend ↔
        x ∈ q.map Prod.snd ++ c :: pend := by
      intro x
      simp only [List.map_cons, List.cons_append]
      exact hperm.mem_iff
    refine ⟨?_, ?_, h3, h4, fun x hx => h5 x ((hmem x).1 hx), ?_, ?_⟩
    · simp only [List.map_cons, List.cons_append]
      exact hperm.nodup_iff.2 h1
    · intro p hp
      rcases List.mem_cons.1 hp with rfl | hp
      · simp only [List.getD_eq_getElem?_getD, List.getElem?_eq_getElem hc, Option.getD_some]
      · exact h2 p hp
    · intro j hj hjP
      obtain ⟨x, hx, hd⟩ := h6 j hj hjP
      exact ⟨x, (hmem x).2 hx, hd⟩
    · intro x hx hx0
      apply h7 x _ hx0
      rcases List.mem_append.1 hx with hx | hx
      · exact List.mem_append_left _ ((hmem x).1 hx)
      · exact List.mem_append_right _ hx
  · rw [if_neg hc]
    have hsub : ∀ x, x ∈ q.map Prod.snd ++ pend → x ∈ q.map Prod.snd ++ c :: pend := by
      intro x hx
      rcases List.mem_append.1 hx with hx | hx
      · exact List.mem_append_left _ hx
      · exact List.mem_append_right _ (List.mem_cons_of_mem _ hx)
    refine ⟨?_, h2, h3, h4, fun x hx => h5 x (hsub x hx), ?_, ?_⟩
    · have := hperm.nodup_iff.2 h1
      exact (List.nodup_cons.1 this).2
    · intro j hj hjP
      obtain ⟨x, hx, hd⟩ := h6 j hj hjP
      have hxc : x ≠ c := by
        intro hxc
        rw [hxc] at hd
        have := Desc_le hd
        omega
      refine ⟨x, ?_, hd⟩
      rcases List.mem_append.1 hx with hx | hx
      · exact List.mem_append_left _ hx
      · rcases List.mem_cons.1 hx with hx | hx
        · exact absurd hx hxc
        · exact List.mem_append_right _ hx
    · intro x hx hx0
      apply h7 x _ hx0
      rcases List.mem_append.1 hx with hx | hx
      · exact List.mem_append_left _ (hsub x hx)
      · exact List.mem_append_right _ hx

/-- Popping the top of the queue keeps the loop invariant, its two children waiting. -/
theorem SelInv_pop (input : List Int) (P : List Nat) (q : List (Int × Nat)) (m : Int × Nat)
    (h : SelInv input P q []) (hm : m ∈ q) :
    SelInv input (P ++ [m.2]) (q.erase m) [2 * m.2 + 1, 2 * m.2 + 2] := by
  obtain ⟨h1, h2, h3, h4, h5, h6, h7⟩ := h
  simp only [List.append_nil] at h1 h5 h6 h7
  obtain ⟨l1, l2, _, hq, he⟩ := List.exists_erase_eq hm
  rw [he]
  have hmap : q.map Prod.snd = l1.map Prod.snd ++ m.2 :: l2.map Prod.snd := by
    rw [hq, List.map_append, List.map_cons]
  rw [hmap] at h1 h5 h6 h7
  have hnd := List.nodup_cons.1 (List.nodup_middle.1 h1)
  have hmq : m.2 ∈ l1.map Prod.snd ++ m.2 :: l2.map Prod.snd := by simp
  have hmP : m.2 ∉ P := h5 _ hmq
  have hmlt : m.2 < input.length := (List.getElem?_eq_some.1 (h2 m hm)).1
  have hold : ∀ x, x ∈ (l1 ++ l2).map Prod.snd →
      x ∈ l1.map Prod.snd ++ m.2 :: l2.map Prod.snd := by
    intro x hx
    rw [List.map_append] at hx
    rcases List.mem_append.1 hx with hx | hx
    · exact List.mem_append_left _ hx
    · exact List.mem_append_right _ (List.mem_cons_of_mem _ hx)
  have hchild : ∀ c, (c = 2 * m.2 + 1 ∨ c = 2 * m.2 + 2) →
      c ∉ l1.map Prod.snd ++ m.2 :: l2.map Prod.snd ∧ c ∉ P := by
    intro c hc
    have hpar : (c - 1) / 2 = m.2 := by omega
    constructor
    · intro hin
      have := h7 c (List.mem_append_left _ hin) (by omega)
      rw [hpar] at this
      exact hmP this
    · intro hin
      have := h7 c (List.mem_append_right _ hin) (by omega)
      rw [hpar] at this
      exact hmP this
  obtain ⟨hc1a, hc1b⟩ := hchild (2 * m.2 + 1) (Or.inl rfl)
  obtain ⟨hc2a, hc2b⟩ := hchild (2 * m.2 + 2) (Or.inr rfl)
  refine ⟨?_, ?_, ?_, ?_, ?_, ?_, ?_⟩
  · rw [List.nodup_append]
    refine ⟨by rw [List.map_append]; exact hnd.2, by simp, ?_⟩
    intro x hx1 hx2
    simp only [List.mem_cons, List.mem_singleton, List.not_mem_nil, or_false] at hx2
    rcases hx2 with rfl | rfl
    · exact hc1a (hold _ hx1)
    · exact hc2a (hold _ hx1)
  · intro p hp
    apply h2 p
    rw [hq]
    rcases List.mem_append.1 hp with hp | hp
    · exact List.mem_append_left _ hp
    · exact List.mem_append_right _ (List.mem_cons_of_mem _ hp)
  · rw [List.nodup_append]
    refine ⟨h3, by simp, ?_⟩
    intro x hx1 hx2
    rw [List.mem_singleton] at hx2
    rw [hx2] at hx1
    exact hmP hx1
  · intro i hi
    rcases List.mem_append.1 hi with hi | hi
    · exact h4 i hi
    · rw [List.mem_singleton] at hi
      rw [hi]; exact hmlt
  · intro c hc hcP
    rcases List.mem_append.1 hcP with hcP | hcP
    · rcases List.mem_append.1 hc with hc | hc
      · exact h5 c (hold c hc) hcP
      · simp only [List.mem_cons, List.mem_singleton, List.not_mem_nil, or_false] at hc
        rcases hc with rfl | rfl
        · exact hc1b hcP
        · exact hc2b hcP
    · rw [List.mem_singleton] at hcP
      subst hcP
      rcases List.mem_append.1 hc with hc | hc
      · rw [List.map_append] at hc
        exact hnd.1 hc
      · simp only [List.mem_cons, List.mem_singleton, List.not_mem_nil, or_false] at hc
        omega
  · intro j hj hjP
    have hjP1 : j ∉ P := fun hin => hjP (List.mem_append_left _ hin)
    have hjm : j ≠ m.2 := fun hin => hjP (List.mem_append_right _ (by simp [hin]))
    obtain ⟨c, hc, hd⟩ := h6 j hj hjP1
    by_cases hcm : c = m.2
    · subst hcm
      rcases Desc_split hd hjm with hd1 | hd1
      · exact ⟨_, List.mem_append_right _ (by simp), hd1⟩
      · exact ⟨_, List.mem_append_right _ (by simp), hd1⟩
    · refine ⟨c, List.mem_append_left _ ?_, hd⟩
      rw [List.map_append]
      rcases List.mem_append.1 hc with hc | hc
      · exact List.mem_append_left _ hc
      · rcases List.mem_cons.1 hc with hc | hc
        · exact absurd hc hcm
        · exact List.mem_append_right _ hc
  · intro c hc hc0
    have key : ∀ x, x ∈ l1.map Prod.snd ++ m.2 :: l2.map Prod.snd ∨ x ∈ P → x ≠ 0 →
        (x - 1) / 2 ∈ P ++ [m.2] := by
      intro x hx hx0
      apply List.mem_append_left
      rcases hx with hx | hx
      · exact h7 x (List.mem_append_left _ hx) hx0
      · exact h7 x (List.mem_append_right _ hx) hx0
    rcases List.mem_append.1 hc with hc | hc
    · rcases List.mem_append.1 hc with hc | hc
      · exact key c (Or.inl (hold c hc)) hc0
      · simp only [List.mem_cons, List.mem_singleton, List.not_mem_nil, or_false] at hc
        apply List.mem_append_right
        rw [List.mem_singleton]
        omega
    · rcases List.mem_append.1 hc with hc | hc
      · exact key c (Or.inr hc) hc0
      · rw [List.mem_singleton] at hc
        subst hc
        exact key _ (Or.inl hmq) hc0

theorem exists_not_mem_of_length_lt (P : List Nat) (N : Nat)
    (hl : P.length < N) : ∃ j, j < N ∧ j ∉ P := by
  by_contra hc
  have hsub : List.range N ⊆ P := by
    intro j hj
    by_contra hjP
    exact hc ⟨j, List.mem_range.1 hj, hjP⟩
  have := (List.subperm_of_subset (List.nodup_range N) hsub).length_le
  rw [List.length_range] at this
  omega

/-- The loop of `standard_heap_selection` from a state that satisfies the invariant, with
enough indices left: it returns, having appended the values at `n` new distinct indices,
in non-decreasing order, each at most the value at any index not popped. -/
theorem selection_loop_spec (input : List Int)
    (hheap : ∀ i, 1 ≤ i → i < input.length → input.getD ((i - 1) / 2) 0 ≤ input.getD i 0) :
    ∀ (n : Nat) (P : List Nat) (q : List (Int × Nat)) (out : List Int),
    SelInv input P q [] → P.length + n ≤ input.length →
    ∃ P1 : List Nat, selection_loop input n q out =
        .ok (out ++ P1.map (fun i => input.getD i 0)) ∧
      P1.length = n ∧ (P ++ P1).Nodup ∧ (∀ i ∈ P1, i < input.length) ∧
      (P1.map (fun i => input.getD i 0)).Sorted (· ≤ ·) ∧
      (∀ i ∈ P1, ∀ j, j < input.length → j ∉ P ++ P1 →
        input.getD i 0 ≤ input.getD j 0) := by
  intro n
  induction n with
  | zero =>
    intro P q out hinv _
    exact ⟨[], by simp [selection_loop, pure_eq_ok], rfl, by simpa using hinv.2.2.1,
      (fun i hi => by cases hi), List.sorted_nil, (fun i hi => by cases hi)⟩
  | succ n ih =>
    intro P q out hinv hlen
    obtain ⟨j0, hj0, hj0P⟩ := exists_not_mem_of_length_lt P input.length (by omega)
    have hqne : q ≠ [] := by
      obtain ⟨c, hc, _⟩ := hinv.2.2.2.2.2.1 j0 hj0 hj0P
      intro hq
      rw [hq] at hc
      cases hc
    obtain ⟨m, hm, hmq, hmin⟩ := pq_top_spec q hqne
    have hmval : input.getD m.2 0 = m.1 := getD_of_getElem? (hinv.2.1 m hmq)
    -- the popped value is at most every value not yet popped
    have hle : ∀ j, j < input.length → j ∉ P → m.1 ≤ input.getD j 0 := by
      intro j hj hjP
      obtain ⟨c, hc, hd⟩ := hinv.2.2.2.2.2.1 j hj hjP
      rw [List.append_nil] at hc
      obtain ⟨p, hp, rfl⟩ := List.mem_map.1 hc
      have h1 := pair_le_fst (hmin p hp)
      have h2 := Desc_heap input hheap hd hj
      rw [getD_of_getElem? (hinv.2.1 p hp)] at h2
      exact le_trans h1 h2
    have hinv2 := SelInv_push input _ _ _ _
      (SelInv_push input _ _ _ _ (SelInv_pop input P q m hinv hmq))
    obtain ⟨P2, hrun, hlen2, hnd2, hlt2, hsort2, hmin2⟩ := ih (P ++ [m.2]) _ (out ++ [m.1]) hinv2
      (by simp only [List.length_append, List.length_singleton]; omega)
    have hassoc : (P ++ [m.2]) ++ P2 = P ++ m.2 :: P2 := by simp
    rw [hassoc] at hnd2 hmin2
    have hmlt : m.2 < input.length := (List.getElem?_eq_some.1 (hinv.2.1 m hmq)).1
    refine ⟨m.2 :: P2, ?_, by simp [hlen2], hnd2, ?_, ?_, ?_⟩
    · rw [selection_loop]
      simp only [hm]
      rw [push_child_eq, ok_bind, push_child_eq, ok_bind]
      have e1 : m.2 * 2 + 1 = 2 * m.2 + 1 := by omega
      have e2 : m.2 * 2 + 2 = 2 * m.2 + 2 := by omega
      rw [e1, e2, hrun]
      simp only [List.map_cons, hmval, List.append_assoc, List.singleton_append]
    · intro i hi
      rcases List.mem_cons.1 hi with rfl | hi
      · exact hmlt
      · exact hlt2 i hi
    · simp only [List.map_cons]
      refine List.sorted_cons.2 ⟨?_, hsort2⟩
      intro b hb
      obtain ⟨j, hj, rfl⟩ := List.mem_map.1 hb
      rw [hmval]
      apply hle j (hlt2 j hj)
      intro hjP
      have := (List.nodup_append.1 hnd2).2.2 hjP
      exact this (List.mem_cons_of_mem _ hj)
    · intro i hi j hj hjn
      rcases List.mem_cons.1 hi with rfl | hi
      · rw [hmval]
        exact hle j hj (fun hjP => hjn (List.mem_append_left _ hjP))
      · exact hmin2 i hi j hj hjn

theorem map_getD_range (input : List Int) :
    (List.range input.length).map (fun i => input.getD i 0) = input := by
  apply List.ext_getElem
  · simp
  · intro i h1 h2
    simp [List.getD_eq_getElem?_getD, List.getElem?_eq_getElem h2]

/-- C26 (standard_heap_selection selects the `k` smallest in order).  For every non-empty
vector that is a binary min-heap and every `k` up to its size, the call returns (the queue
is not empty whenever its top is read), and it returns `k` elements in non-decreasing
order that are, with multiplicity, the `k` smallest of the vector: together with a rest
they make up the vector, no returned element exceeds an element of the rest, and the
returned list is the first `k` entries of the sorted vector. -/
theorem standard_heap_selection_correct (input_heap : List Int) (k : Nat)
    (hne : input_heap ≠ [])
    (hheap : ∀ i, 1 ≤ i → i < input_heap.length →
      input_heap.getD ((i - 1) / 2) 0 ≤ input_heap.getD i 0)
    (hk : k ≤ input_heap.length) :
    ∃ out, standard_heap_selection input_heap k = .ok out ∧ out.length = k ∧
      out.Sorted (· ≤ ·) ∧
      (∃ rest, (out ++ rest).Perm input_heap ∧ ∀ a ∈ out, ∀ b ∈ rest, a ≤ b) ∧
      out = (input_heap.insertionSort (· ≤ ·)).take k := by
  cases hin : input_heap with
  | nil => exact absurd hin hne
  | cons front tl =>
    rw [← hin]
    have hinv : SelInv input_heap [] [(front, 0)] [] := by
      refine ⟨by simp, ?_, List.nodup_nil, (fun i hi => by cases hi),
        (fun c _ hc => by cases hc), ?_, ?_⟩
      · intro p hp
        rw [List.mem_singleton] at hp
        rw [hp, hin]
        exact List.getElem?_cons_zero
      · intro j _ _
        exact ⟨0, by simp, Desc_zero j⟩
      · intro c hc hc0
        simp only [List.map_cons, List.map_nil, List.append_nil, List.mem_singleton] at hc
        exact absurd hc hc0
    obtain ⟨P, hrun, hlen, hnd, hlt, hsort, hmin⟩ :=
      selection_loop_spec input_heap hheap k [] [(front, 0)] [] hinv (by simpa using hk)
    simp only [List.nil_append] at hrun hnd hmin
    have hrun2 : standard_heap_selection input_heap k =
        .ok (P.map (fun i => input_heap.getD i 0)) := by
      rw [← hrun]
      unfold standard_heap_selection
      rw [hin]
    -- the values at the indices that were not popped
    have hperm1 : (P ++ (List.range input_heap.length).filter (fun j => !decide (j ∈ P))).Perm
        (List.range input_heap.length) := by
      have h1 := List.filter_append_perm (fun j => decide (j ∈ P)) (List.range input_heap.length)
      refine List.Perm.trans (List.Perm.append_right _ ?_) h1
      rw [List.perm_ext_iff_of_nodup hnd ((List.nodup_range _).filter _)]
      intro a
      simp only [List.mem_filter, List.mem_range, decide_eq_true_eq]
      exact ⟨fun ha => ⟨hlt a ha, ha⟩, fun ha => ha.2⟩
    have hperm2 := hperm1.map (fun i => input_heap.getD i 0)
    rw [map_getD_range, List.map_append] at hperm2
    have hrest : ∀ a ∈ P.map (fun i => input_heap.getD i 0),
        ∀ b ∈ ((List.range input_heap.length).filter (fun j => !decide (j ∈ P))).map
          (fun i => input_heap.getD i 0), a ≤ b := by
      intro a ha b hb
      obtain ⟨i, hi, rfl⟩ := List.mem_map.1 ha
      obtain ⟨j, hj, rfl⟩ := List.mem_map.1 hb
      simp only [List.mem_filter, List.mem_range, Bool.not_eq_true', decide_eq_false_iff_not]
        at hj
      exact hmin i hi j hj.1 hj.2
    refine ⟨_, hrun2, by simp [hlen], hsort, ⟨_, hperm2, hrest⟩, ?_⟩
    have hs1 : (P.map (fun i => input_heap.getD i 0) ++
        (((List.range input_heap.length).filter (fun j => !decide (j ∈ P))).map
          (fun i => input_heap.getD i 0)).insertionSort (· ≤ ·)).Sorted (· ≤ ·) := by
      rw [List.Sorted, List.pairwise_append]
      refine ⟨hsort, List.sorted_insertionSort _ _, ?_⟩
      intro a ha b hb
      exact hrest a ha b ((List.perm_insertionSort _ _).subset hb)
    have hp3 : (P.map (fun i => input_heap.getD i 0) ++
        (((List.range input_heap.length).filter (fun j => !decide (j ∈ P))).map
          (fun i => input_heap.getD i 0)).insertionSort (· ≤ ·)).Perm
        (input_heap.insertionSort (· ≤ ·)) :=
      ((List.Perm.append_left _ (List.perm_insertionSort _ _)).trans hperm2).trans
        (List.perm_insertionSort _ _).symm
    have heq := List.eq_of_perm_of_sorted hp3 hs1 (List.sorted_insertionSort _ _)
    rw [← heq, List.take_left' (by simp [hlen])]

/-- Witness of C26: a heap of seven elements and `k = 4`. -/
theorem standard_heap_selection_correct_witness :
    ([1, 3, 2, 7, 4, 5, 2] : List Int) ≠ [] ∧
    (∀ i, 1 ≤ i → i < ([1, 3, 2, 7, 4, 5, 2] : List Int).length →
      ([1, 3, 2, 7, 4, 5, 2] : List Int).getD ((i - 1) / 2) 0 ≤
        ([1, 3, 2, 7, 4, 5, 2] : List Int).getD i 0) ∧
    4 ≤ ([1, 3, 2, 7, 4, 5, 2] : List Int).length ∧
    ∃ out, standard_heap_selection [1, 3, 2, 7, 4, 5, 2] 4 = .ok out ∧ out.length = 4 ∧
      out.Sorted (· ≤ ·) ∧
      (∃ rest, (out ++ rest).Perm [1, 3, 2, 7, 4, 5, 2] ∧ ∀ a ∈ out, ∀ b ∈ rest, a ≤ b) ∧
      out = (([1, 3, 2, 7, 4, 5, 2] : List Int).insertionSort (· ≤ ·)).take 4 :=
  ⟨by decide, by decide, by decide,
    standard_heap_selection_correct [1, 3, 2, 7, 4, 5, 2] 4 (by decide) (by decide)
      (by decide)⟩

end soft_heap
